import Mathlib

/-!
# eMelody2WAV: a shallow embedding of `emelody2wav.c`

The C program turns the `MELODY:` line of an eMelody ringtone into a mono
16-bit 44100 Hz WAV file.  This development embeds its functions

* `get_frequency`, `write_wav_header`, `generate_sine_wave`,
  `extract_melody_line`, `parse_and_generate`, `main`

and proves properties of them.

Modelling conventions.

* A C `int` is a 32-bit two's-complement integer.  Every `int` operation of the
  source is an operation on `Int` followed by `wrap32`; `/` on `int` truncates
  towards zero (`Int.tdiv`).  Where a result exceeds the range of `int`, which
  C leaves undefined, `wrap32` is the value the compiled program computes; the
  one exception is `num_samples * NUM_CHANNELS * BITS_PER_SAMPLE / 8` in
  `write_wav_header`, which compilers evaluate as `num_samples * 2`.
* A C `double` is a `Dbl`: a finite value of the IEEE double format, an
  infinity or a NaN.  Every arithmetic operation returns the double nearest to
  the exact result (`round_to_double`), with overflow to an infinity and
  underflow through the subnormal range to zero.  The sign of zero and the
  choice between two equally near doubles are not modelled.
* A C string is the `List Char` of its characters before the terminating NUL.
* A byte is a natural number below 256; multi-byte objects are written by
  `fwrite` in little-endian order (`le_bytes`).
* `FILE *f` at its current position is modelled by the list of bytes a
  function appends to it; in `main` the stream is a `File`, the bytes of the
  file together with the file position moved by `fseek`.
* `strstr`, `pow` and `sin` are library functions; `strstr` is modelled from
  its contract in the C standard, `pow` and `sin` as the correctly rounded real
  power and sine.
-/

namespace EMelody

/-! ## Constants (`#define`s) -/

def SAMPLE_RATE : Int := 44100
def BITS_PER_SAMPLE : Int := 16
def NUM_CHANNELS : Int := 1
def DURATION_MS : Int := 300
def MAX_NOTES : Int := 512
def AMPLITUDE : Int := 30000

/-! ## Machine integers -/

/-- Reduction of an integer to the range of a 32-bit signed `int`. -/
def wrap32 (x : Int) : Int := (x + 2147483648) % 4294967296 - 2147483648

/-- Reduction of an integer to the range of a 16-bit signed `short`. -/
def wrap16 (x : Int) : Int := (x + 32768) % 65536 - 32768

/-- C `a + b` on `int`. -/
def c_add (a b : Int) : Int := wrap32 (a + b)

/-- C `a - b` on `int`. -/
def c_sub (a b : Int) : Int := wrap32 (a - b)

/-- C `a * b` on `int`. -/
def c_mul (a b : Int) : Int := wrap32 (a * b)

/-- C `a / b` on `int`: the quotient truncated towards zero. -/
def c_div (a b : Int) : Int := wrap32 (Int.tdiv a b)

/-- The `n` bytes `fwrite` emits for an `n`-byte integer object holding `v`,
least significant byte first. -/
def le_bytes : Nat → Int → List Nat
  | 0, _ => []
  | n + 1, v => (v % 256).toNat :: le_bytes n (v / 256)

/-- The bytes `fwrite(s, 1, len, f)` emits for a string literal. -/
def ascii (s : String) : List Nat := s.toList.map Char.toNat

/-- The value of a little-endian unsigned field. -/
def le_value : List Nat → Nat
  | [] => 0
  | b :: bs => b + 256 * le_value bs

/-- The `len` bytes of `bytes` starting at offset `off`. -/
def field (bytes : List Nat) (off len : Nat) : List Nat := (bytes.drop off).take len

/-! ## Doubles -/

/-- The finite values of the IEEE double format: the reals `m * 2 ^ e` with an
integer mantissa of at most 53 bits and `-1074 ≤ e ≤ 971`. -/
def is_double (x : ℝ) : Prop :=
  ∃ m e : Int, |m| < 9007199254740992 ∧ -1074 ≤ e ∧ e ≤ 971 ∧ x = (m : ℝ) * (2 : ℝ) ^ e

/-- A finite double nearest to the real `x`.  Which of two equally near
doubles is taken is left open. -/
noncomputable def nearest_double (x : ℝ) : ℝ :=
  Classical.epsilon (fun y => is_double y ∧ ∀ z, is_double z → |x - y| ≤ |x - z|)

/-- A value of type `double`: a finite real, an infinity with its sign, or a
NaN.  The sign of zero is not modelled. -/
inductive Dbl where
  | fin (x : ℝ)
  | inf (negative : Bool)
  | nan

/-- The magnitude `2 ^ 1024 - 2 ^ 970` from which rounding to nearest yields an
infinity. -/
noncomputable def overflow_threshold : ℝ := 2 ^ (1024 : Nat) - 2 ^ (970 : Nat)

/-- Rounding of an exact result to a `double` (round to nearest). -/
noncomputable def round_to_double (x : ℝ) : Dbl :=
  if overflow_threshold ≤ |x| then Dbl.inf (decide (x < 0)) else Dbl.fin (nearest_double x)

/-- The conversion of an `int` to `double`, which is exact. -/
def Dbl.of_int (k : Int) : Dbl := Dbl.fin (k : ℝ)

/-- The comparison `d == 0.0`. -/
noncomputable def Dbl.is_zero (d : Dbl) : Bool :=
  match d with
  | Dbl.fin x => decide (x = 0)
  | _ => false

/-- The comparison `d > 0.0`. -/
def Dbl.is_positive (d : Dbl) : Prop :=
  match d with
  | Dbl.fin x => 0 < x
  | Dbl.inf negative => negative = false
  | Dbl.nan => False

/-- The product `a * b` of two doubles. -/
noncomputable def Dbl.mul (a b : Dbl) : Dbl :=
  match a, b with
  | Dbl.fin x, Dbl.fin y => round_to_double (x * y)
  | Dbl.fin x, Dbl.inf negative =>
    if x = 0 then Dbl.nan else Dbl.inf (xor negative (decide (x < 0)))
  | Dbl.inf negative, Dbl.fin y =>
    if y = 0 then Dbl.nan else Dbl.inf (xor negative (decide (y < 0)))
  | Dbl.inf n1, Dbl.inf n2 => Dbl.inf (xor n1 n2)
  | _, _ => Dbl.nan

/-- The quotient `a / b` of two doubles. -/
noncomputable def Dbl.div (a b : Dbl) : Dbl :=
  match a, b with
  | Dbl.fin x, Dbl.fin y =>
    if y = 0 then (if x = 0 then Dbl.nan else Dbl.inf (decide (x < 0)))
    else round_to_double (x / y)
  | Dbl.fin _, Dbl.inf _ => Dbl.fin 0
  | Dbl.inf negative, Dbl.fin y => Dbl.inf (xor negative (decide (y < 0)))
  | _, _ => Dbl.nan

/-- The library function `pow(x, y)` for a finite base `x > 1`, the only kind
of base the program passes (it passes 2.0): the correctly rounded power, an
infinity for `y = +inf` and zero for `y = -inf`.  Other bases are not modelled
and yield NaN. -/
noncomputable def Dbl.pow (x y : Dbl) : Dbl :=
  match x, y with
  | Dbl.fin b, Dbl.fin e => if 1 < b then round_to_double (b ^ e) else Dbl.nan
  | Dbl.fin b, Dbl.inf negative =>
    if 1 < b then (if negative then Dbl.fin 0 else Dbl.inf false) else Dbl.nan
  | _, _ => Dbl.nan

/-- The library function `sin(x)`: the correctly rounded sine of a finite
argument, NaN for an infinite or NaN argument. -/
noncomputable def Dbl.sin (x : Dbl) : Dbl :=
  match x with
  | Dbl.fin a => round_to_double (Real.sin a)
  | _ => Dbl.nan

/-- The integer obtained from a real by discarding its fractional part. -/
noncomputable def trunc_toward_zero (x : ℝ) : Int := if 0 ≤ x then ⌊x⌋ else ⌈x⌉

/-! ## `write_wav_header` -/

/-- The bytes `write_wav_header(f, num_samples)` writes at the current position
of `f`.  `fwrite(&NUM_CHANNELS, 2, 1, f)` and its two siblings write the value
of the constant in an object of the stated size.  In `data_chunk_size` the
product `num_samples * NUM_CHANNELS * BITS_PER_SAMPLE` does not fit in an `int`
from `2 ^ 27` samples on, and C leaves the expression undefined there; the
compiled program evaluates `x * 16 / 8` as `x + x` in 32 bits, and the model
follows it: the quotient of the exact product, reduced to 32 bits. -/
def write_wav_header (num_samples : Int) : List Nat :=
  let byte_rate := c_div (c_mul (c_mul SAMPLE_RATE NUM_CHANNELS) BITS_PER_SAMPLE) 8
  let block_align := c_div (c_mul NUM_CHANNELS BITS_PER_SAMPLE) 8
  let data_chunk_size := wrap32 (Int.tdiv (num_samples * NUM_CHANNELS * BITS_PER_SAMPLE) 8)
  let chunk_size := c_add 36 data_chunk_size
  let subchunk1_size : Int := 16
  let audio_format : Int := 1
  ascii ("RIFF") ++ le_bytes 4 chunk_size ++ ascii ("WAVE")
    ++ ascii ("fmt ") ++ le_bytes 4 subchunk1_size ++ le_bytes 2 audio_format
    ++ le_bytes 2 NUM_CHANNELS ++ le_bytes 4 SAMPLE_RATE ++ le_bytes 4 byte_rate
    ++ le_bytes 2 block_align ++ le_bytes 2 BITS_PER_SAMPLE
    ++ ascii ("data") ++ le_bytes 4 data_chunk_size

/-! ## `get_frequency` -/

/-- The `switch` of `get_frequency`: the value assigned to `n`, or `none` on the
two branches that `return 0.0` (`case 'p'` and `default`). -/
def semitone (note : Char) : Option Int :=
  match note with
  | 'c' => some 0
  | 'd' => some 2
  | 'e' => some 4
  | 'f' => some 5
  | 'g' => some 7
  | 'a' => some 9
  | 'b' => some 11
  | 'p' => none
  | _ => none

/-- The value of `get_frequency(note, octave)`:
`440.0 * pow(2.0, (midi_number - 69) / 12.0)` in double arithmetic. -/
noncomputable def get_frequency (note : Char) (octave : Int) : Dbl :=
  match semitone note with
  | none => Dbl.fin 0
  | some n =>
    let midi_number := c_add (c_mul 12 (c_add octave 1)) n
    Dbl.mul (Dbl.fin 440)
      (Dbl.pow (Dbl.fin 2) (Dbl.div (Dbl.of_int (c_sub midi_number 69)) (Dbl.fin 12)))

/-! ## `generate_sine_wave` -/

/-- The constant `PI` of the source: the double nearest to 3.14159265. -/
noncomputable def PI : Dbl := round_to_double 3.14159265

/-- The conversion `(short)sample`: the fractional part is discarded.  For a
NaN, an infinity or a value outside the range of `short` the conversion is
undefined in C; the model takes what the x86-64 program computes, the low 16
bits of the conversion to a 32-bit `int`, which is 0 when that conversion is
out of range too. -/
noncomputable def short_of_double (sample : Dbl) : Int :=
  match sample with
  | Dbl.fin x =>
    if -2147483648 ≤ trunc_toward_zero x ∧ trunc_toward_zero x ≤ 2147483647 then
      wrap16 (trunc_toward_zero x)
    else 0
  | _ => 0

/-- The value of `sample` in iteration `i` of the loop of `generate_sine_wave`:
0.0 when `freq == 0.0`, and `AMPLITUDE * sin(2 * PI * freq * t)` with
`t = (double)i / SAMPLE_RATE` otherwise. -/
noncomputable def sample_at (freq : Dbl) (i : Nat) : Dbl :=
  if freq.is_zero then Dbl.fin 0
  else
    let t := Dbl.div (Dbl.of_int (i : Int)) (Dbl.of_int SAMPLE_RATE)
    Dbl.mul (Dbl.of_int AMPLITUDE)
      (Dbl.sin (Dbl.mul (Dbl.mul (Dbl.mul (Dbl.of_int 2) PI) freq) t))

/-- The number of iterations of the loop of `generate_sine_wave`. -/
def num_samples (duration_ms : Int) : Int := c_div (c_mul SAMPLE_RATE duration_ms) 1000

/-- The bytes `generate_sine_wave(f, freq, duration_ms)` appends to `f`. -/
noncomputable def generate_sine_wave (freq : Dbl) (duration_ms : Int) : List Nat :=
  ((List.range (num_samples duration_ms).toNat).map
    (fun i => le_bytes 2 (short_of_double (sample_at freq i)))).flatten

/-! ## `extract_melody_line` -/

/-- Whether the string `s` begins with the string `t`. -/
def starts_with : List Char → List Char → Bool
  | _, [] => true
  | [], _ :: _ => false
  | c :: cs, d :: ds => c == d && starts_with cs ds

/-- The library function `strstr`: the suffix of `haystack` that begins at the
first occurrence of `needle`, or `none` (NULL) when there is none. -/
def strstr (haystack needle : List Char) : Option (List Char) :=
  if starts_with haystack needle then some haystack
  else
    match haystack with
    | [] => none
    | _ :: rest => strstr rest needle

/-- The loop `while (*start == ' ' || *start == '\n') start++`. -/
def skip_blanks : List Char → List Char
  | [] => []
  | c :: cs => if c = ' ' ∨ c = '\n' then skip_blanks cs else c :: cs

/-- The result of `extract_melody_line(emelody)`; `none` is NULL, `some s` a
pointer to the suffix `s` of the input. -/
def extract_melody_line (emelody : List Char) : Option (List Char) :=
  match strstr emelody ("MELODY:").toList with
  | none => none
  | some start => some (skip_blanks (start.drop ("MELODY:").length))

/-! ## `parse_and_generate` -/

/-- The state of `parse_and_generate` between two loop iterations: the local
`octave`, the counter `*total_samples`, the bytes written to `fout`, and a log
of the arguments of every call of `generate_sine_wave` made so far. -/
structure GenState where
  octave : Int
  total_samples : Int
  fout : List Nat
  calls : List (Dbl × Int)

/-- One iteration of the loop of `parse_and_generate`, on the character `ch`. -/
noncomputable def parse_step (s : GenState) (ch : Char) : GenState :=
  if ch = '>' then
    { s with octave := c_add s.octave 1 }
  else if ch = '<' then
    { s with octave := c_sub s.octave 1 }
  else if ('a' ≤ ch ∧ ch ≤ 'g') ∨ ch = 'p' then
    let freq := get_frequency ch s.octave
    { s with
      fout := s.fout ++ generate_sine_wave freq DURATION_MS
      total_samples := c_add s.total_samples (c_div (c_mul SAMPLE_RATE DURATION_MS) 1000)
      calls := s.calls ++ [(freq, DURATION_MS)] }
  else
    s

/-- The state in which `parse_and_generate(melody, fout, total_samples)`
returns, `fout` holding the bytes the call wrote. -/
noncomputable def parse_and_generate (melody : List Char) : GenState :=
  melody.foldl parse_step { octave := 4, total_samples := 0, fout := [], calls := [] }

/-! ## `main` and the output file -/

/-- A binary stream opened for writing: the bytes of the file and the file
position. -/
structure File where
  data : List Nat
  pos : Nat

/-- The stream returned by a successful `fopen("output.wav", "wb")`: the file
is created or truncated, the position is 0. -/
def fopen_wb : File := { data := [], pos := 0 }

/-- The call `fseek(f, offset, SEEK_SET)`. -/
def fseek_set (f : File) (offset : Nat) : File := { f with pos := offset }

/-- The effect of writing the bytes `bs` at the file position: bytes already
there are overwritten, the file grows as needed, and a gap between the end of
the file and the position reads as zero bytes.  Writing nothing changes
nothing. -/
def fwrite (f : File) (bs : List Nat) : File :=
  if bs.isEmpty then f
  else
    let padded := f.data ++ List.replicate (f.pos - f.data.length) 0
    { data := padded.take f.pos ++ bs ++ padded.drop (f.pos + bs.length)
      pos := f.pos + bs.length }

/-- What a run of the program leaves behind: the value returned by `main` and
the bytes of `output.wav` when the program opened it (`none` when it did not).
The diagnostics printed on the way are not modelled. -/
structure Outcome where
  exit_code : Int
  output_wav : Option (List Nat)

/-- The function `main`, on the argument vector `argv` (so `argc` is its
length); `fopen_ok` tells whether `fopen` succeeds.  The test `argc != 2` is
read as the argument-count check it is meant to be.  The samples that
`parse_and_generate` streams to the file one after the other are written as one
block at the position where the streaming starts. -/
noncomputable def main (argv : List (List Char)) (fopen_ok : Bool) : Outcome :=
  match argv with
  | [_, arg1] =>
    match extract_melody_line arg1 with
    | none => { exit_code := -2, output_wav := none }
    | some melody =>
      if fopen_ok then
        let fout := fseek_set fopen_wb 44
        let r := parse_and_generate melody
        let fout := fwrite fout r.fout
        let fout := fseek_set fout 0
        let fout := fwrite fout (write_wav_header r.total_samples)
        { exit_code := 0, output_wav := some fout.data }
      else
        { exit_code := -3, output_wav := none }
  | _ => { exit_code := -1, output_wav := none }

/-! ## Vocabulary of the statements -/

/-- The value of the local `midi_number` of `get_frequency(note, octave)`, on
the paths that compute it. -/
def midi_number (note : Char) (octave : Int) : Option Int :=
  (semitone note).map (fun n => c_add (c_mul 12 (c_add octave 1)) n)

/-- The characters that make `parse_and_generate` emit a tone: `a`..`g` and `p`. -/
def is_note (ch : Char) : Prop := ('a' ≤ ch ∧ ch ≤ 'g') ∨ ch = 'p'

instance (ch : Char) : Decidable (is_note ch) := by
  unfold is_note; infer_instance

/-- The number of characters of `body` that lie in `a`..`g` or equal `p`. -/
def note_count (body : List Char) : Nat := body.countP (fun ch => decide (is_note ch))

/-- The characters the loop of `parse_and_generate` ignores: everything except
`>`, `<`, `a`..`g` and `p`. -/
def is_ignored (ch : Char) : Prop := ch ≠ '>' ∧ ch ≠ '<' ∧ ¬ is_note ch

instance (ch : Char) : Decidable (is_ignored ch) := by
  unfold is_ignored; infer_instance

/-- The relation `DeletesIgnored body shorter`: `shorter` is obtained from `body` by deleting
some of its ignored characters (and nothing else). -/
inductive DeletesIgnored : List Char → List Char → Prop
  | done : DeletesIgnored [] []
  | keep (c : Char) {xs ys : List Char} :
      DeletesIgnored xs ys → DeletesIgnored (c :: xs) (c :: ys)
  | delete (c : Char) {xs ys : List Char} :
      is_ignored c → DeletesIgnored xs ys → DeletesIgnored (c :: xs) ys

/-- The octave the specification assigns to position `i` of `body`:
`4 + G - L`, with `G` and `L` the numbers of `>` and `<` before position `i`. -/
def octave_at (body : List Char) (i : Nat) : Int :=
  4 + ((body.take i).count '>' : Int) - ((body.take i).count '<' : Int)

/-- The tone events the specification's transition table prescribes for `body`:
one event `(get_frequency(c, 4 + G - L), 300 ms)` for every position holding a
character `c` in `a`..`g` or `p`, in input order, and nothing else. -/
noncomputable def tone_events_spec (body : List Char) : List (Dbl × Int) :=
  (List.range body.length).filterMap (fun i =>
    match body[i]? with
    | some c => if is_note c then some (get_frequency c (octave_at body i), 300) else none
    | none => none)

/-- The bytes rendered for a list of tone events. -/
noncomputable def render_events (events : List (Dbl × Int)) : List Nat :=
  (events.map (fun e => generate_sine_wave e.1 e.2)).flatten

/-- The alternative strategy of the specification: buffer the samples of all
tone events in memory, then emit the header for their number followed by the
samples. -/
noncomputable def header_then_data (body : List Char) : List Nat :=
  let samples := render_events (tone_events_spec body)
  write_wav_header ((samples.length / 2 : Nat) : Int) ++ samples

/-- The marker searched for by `extract_melody_line`. -/
def marker : List Char := ("MELODY:").toList

/-- The text contains the marker `MELODY:` as a substring. -/
def has_marker (text : List Char) : Prop := ∃ pre post, text = pre ++ marker ++ post

/-- A text with two markers, and a tab after the blanks that follow the first. -/
def sample_text : List Char := ("NAME:x\nMELODY: \n\ta MELODY:b").toList

/-! ## Machine integer lemmas -/

theorem wrap32_of_range (x : Int) (hlo : -2147483648 ≤ x) (hhi : x ≤ 2147483647) :
    wrap32 x = x := by
  unfold wrap32; omega

theorem wrap32_range (x : Int) : -2147483648 ≤ wrap32 x ∧ wrap32 x ≤ 2147483647 := by
  unfold wrap32; omega

theorem wrap32_wrap32 (x : Int) : wrap32 (wrap32 x) = wrap32 x := by
  unfold wrap32; omega

theorem wrap32_add_left (x y : Int) : wrap32 (wrap32 x + y) = wrap32 (x + y) := by
  unfold wrap32; omega

theorem wrap32_sub_left (x y : Int) : wrap32 (wrap32 x - y) = wrap32 (x - y) := by
  unfold wrap32; omega

theorem le_bytes_length (n : Nat) (v : Int) : (le_bytes n v).length = n := by
  induction n generalizing v with
  | zero => rfl
  | succ n ih => simp [le_bytes, ih]

/-! ## Rounding to the nearest double -/

theorem is_double_finite : {x : ℝ | is_double x}.Finite := by
  have hsub : {x : ℝ | is_double x} ⊆
      (fun p : Int × Int => (p.1 : ℝ) * (2 : ℝ) ^ p.2) ''
        (Set.Icc (-9007199254740992) 9007199254740992 ×ˢ Set.Icc (-1074) 971) := by
    rintro x ⟨m, e, hm, he1, he2, rfl⟩
    refine ⟨(m, e), ⟨⟨?_, ?_⟩, he1, he2⟩, rfl⟩
    · have := abs_lt.1 hm; simp only; omega
    · have := abs_lt.1 hm; simp only; omega
  exact Set.Finite.subset (((Set.finite_Icc _ _).prod (Set.finite_Icc _ _)).image _) hsub

theorem is_double_zero : is_double 0 := ⟨0, 0, by decide, by decide, by decide, by simp⟩

theorem nearest_double_spec (x : ℝ) :
    is_double (nearest_double x) ∧ ∀ z, is_double z → |x - nearest_double x| ≤ |x - z| := by
  have hex : ∃ y, is_double y ∧ ∀ z, is_double z → |x - y| ≤ |x - z| := by
    obtain ⟨y, hy, hmin⟩ := Set.exists_min_image {x : ℝ | is_double x} (fun y => |x - y|)
      is_double_finite ⟨0, is_double_zero⟩
    exact ⟨y, hy, fun z hz => hmin z hz⟩
  exact Classical.epsilon_spec hex

theorem nearest_double_of_double (x : ℝ) (h : is_double x) : nearest_double x = x := by
  have h1 := (nearest_double_spec x).2 x h
  simp only [sub_self, abs_zero] at h1
  have h2 : |x - nearest_double x| = 0 := le_antisymm h1 (abs_nonneg _)
  have h3 := abs_eq_zero.1 h2
  linarith

theorem nearest_double_bounds (a b x : ℝ) (ha : is_double a) (hb : is_double b)
    (hax : a ≤ x) (hxb : x ≤ b) : a ≤ nearest_double x ∧ nearest_double x ≤ b := by
  obtain ⟨_, hmin⟩ := nearest_double_spec x
  constructor
  · by_contra hlt
    push_neg at hlt
    have h1 := hmin a ha
    rw [abs_of_nonneg (by linarith : 0 ≤ x - nearest_double x),
      abs_of_nonneg (by linarith : 0 ≤ x - a)] at h1
    linarith
  · by_contra hlt
    push_neg at hlt
    have h1 := hmin b hb
    rw [abs_of_nonpos (by linarith : x - nearest_double x ≤ 0),
      abs_of_nonpos (by linarith : x - b ≤ 0)] at h1
    linarith

theorem two_zpow_pos (e : Int) : (0 : ℝ) < (2 : ℝ) ^ e := zpow_pos (by norm_num) e

theorem two_zpow_le {a b : Int} (h : a ≤ b) : (2 : ℝ) ^ a ≤ (2 : ℝ) ^ b :=
  zpow_le_zpow_right₀ (by norm_num) h

theorem is_double_mk (m e : Int) (hm : |m| < 9007199254740992) (h1 : -1074 ≤ e)
    (h2 : e ≤ 971) : is_double ((m : ℝ) * (2 : ℝ) ^ e) := ⟨m, e, hm, h1, h2, rfl⟩

theorem is_double_int (k : Int) (hk : |k| < 9007199254740992) : is_double (k : ℝ) :=
  ⟨k, 0, hk, by decide, by decide, by simp⟩

theorem is_double_mul_zpow (c k : Int) (hc : |c| ≤ 511) (h1 : -1074 ≤ k) (h2 : k ≤ 1015) :
    is_double ((c : ℝ) * (2 : ℝ) ^ k) := by
  by_cases hk : k ≤ 971
  · exact ⟨c, k, by omega, h1, hk, rfl⟩
  · push_neg at hk
    obtain ⟨j, hj⟩ : ∃ j : Nat, k = 971 + (j : Int) := ⟨(k - 971).toNat, by omega⟩
    have hj44 : j ≤ 44 := by omega
    refine ⟨c * 2 ^ j, 971, ?_, by decide, by decide, ?_⟩
    · have hpow : (2 : Int) ^ j ≤ 2 ^ 44 := pow_le_pow_right₀ (by decide) hj44
      have hpos : (0 : Int) < 2 ^ j := pow_pos (by decide) j
      rw [abs_mul, abs_of_pos hpos]
      have habs : (0 : Int) ≤ |c| := abs_nonneg c
      calc |c| * 2 ^ j ≤ 511 * 2 ^ 44 := mul_le_mul hc hpow (le_of_lt hpos) (by decide)
        _ < 9007199254740992 := by norm_num
    · rw [hj, zpow_add₀ (by norm_num : (2 : ℝ) ≠ 0), zpow_natCast]
      push_cast
      ring

theorem is_double_abs_le (x : ℝ) (h : is_double x) :
    |x| ≤ 9007199254740991 * (2 : ℝ) ^ (971 : Int) := by
  obtain ⟨m, e, hm, _, he, rfl⟩ := h
  have hm2 : |(m : ℝ)| ≤ 9007199254740991 := by
    have : |m| ≤ 9007199254740991 := by omega
    exact_mod_cast this
  rw [abs_mul, abs_of_pos (two_zpow_pos e)]
  exact mul_le_mul hm2 (two_zpow_le he) (le_of_lt (two_zpow_pos e)) (by norm_num)

theorem overflow_threshold_eq :
    overflow_threshold = 18014398509481983 * (2 : ℝ) ^ (970 : Int) := by
  unfold overflow_threshold
  rw [show (970 : Int) = ((970 : Nat) : Int) from rfl, zpow_natCast]
  have : (2 : ℝ) ^ (1024 : Nat) = 18014398509481984 * 2 ^ (970 : Nat) := by
    rw [show (1024 : Nat) = 54 + 970 from rfl, pow_add]; norm_num
  rw [this]; ring

theorem is_double_abs_lt_threshold (x : ℝ) (h : is_double x) : |x| < overflow_threshold := by
  have h1 := is_double_abs_le x h
  rw [overflow_threshold_eq]
  have e : (2 : ℝ) ^ (971 : Int) = 2 * 2 ^ (970 : Int) := by
    rw [show (971 : Int) = 1 + 970 from rfl, zpow_add₀ (by norm_num : (2 : ℝ) ≠ 0)]; norm_num
  rw [e] at h1
  have hp := two_zpow_pos 970
  nlinarith

theorem round_to_double_of_lt (x : ℝ) (h : |x| < overflow_threshold) :
    round_to_double x = Dbl.fin (nearest_double x) := by
  unfold round_to_double
  rw [if_neg (not_le.2 h)]

theorem round_to_double_of_double (x : ℝ) (h : is_double x) :
    round_to_double x = Dbl.fin x := by
  rw [round_to_double_of_lt x (is_double_abs_lt_threshold x h), nearest_double_of_double x h]

theorem round_to_double_overflow (x : ℝ) (h : overflow_threshold ≤ x) :
    round_to_double x = Dbl.inf false := by
  have hpos : 0 < overflow_threshold := by
    rw [overflow_threshold_eq]; exact mul_pos (by norm_num) (two_zpow_pos _)
  unfold round_to_double
  rw [if_pos (by rw [abs_of_pos (by linarith)]; exact h)]
  simp only [Dbl.inf.injEq, decide_eq_false_iff_not, not_lt]
  linarith

theorem is_double_pos_ge (x : ℝ) (h : is_double x) (hx : 0 < x) :
    (2 : ℝ) ^ (-1074 : Int) ≤ x := by
  obtain ⟨m, e, _, he, _, rfl⟩ := h
  have hp := two_zpow_pos e
  have hm : 0 < (m : ℝ) := by
    by_contra hneg
    push_neg at hneg
    have : (m : ℝ) * 2 ^ e ≤ 0 := mul_nonpos_of_nonpos_of_nonneg hneg (le_of_lt hp)
    linarith
  have hm1 : (1 : ℝ) ≤ m := by
    have : (0 : Int) < m := by exact_mod_cast hm
    have : (1 : Int) ≤ m := this
    exact_mod_cast this
  calc (2 : ℝ) ^ (-1074 : Int) ≤ 2 ^ e := two_zpow_le he
    _ = 1 * 2 ^ e := by ring
    _ ≤ m * 2 ^ e := mul_le_mul_of_nonneg_right hm1 (le_of_lt hp)

theorem two_zpow_1074 : (2 : ℝ) ^ (-1074 : Int) = 2 * 2 ^ (-1075 : Int) := by
  rw [show (-1074 : Int) = 1 + (-1075) from rfl, zpow_add₀ (by norm_num : (2 : ℝ) ≠ 0)]
  norm_num

theorem nearest_double_underflow (x : ℝ) (h0 : 0 ≤ x) (h1 : x < (2 : ℝ) ^ (-1075 : Int)) :
    nearest_double x = 0 := by
  obtain ⟨hd, hmin⟩ := nearest_double_spec x
  have hb := nearest_double_bounds 0 ((2 : ℝ) ^ (-1074 : Int)) x is_double_zero
    (by simpa using is_double_mk 1 (-1074) (by decide) (by decide) (by decide)) h0
    (by rw [two_zpow_1074]; have := two_zpow_pos (-1075); linarith)
  by_contra hne
  have hpos : 0 < nearest_double x := lt_of_le_of_ne hb.1 (Ne.symm hne)
  have hge := is_double_pos_ge _ hd hpos
  have h2 := hmin 0 is_double_zero
  rw [sub_zero, abs_of_nonneg h0, abs_of_nonpos (by rw [two_zpow_1074] at hge; linarith)] at h2
  rw [two_zpow_1074] at hge
  linarith

theorem nearest_double_pos (x : ℝ) (h : (2 : ℝ) ^ (-1075 : Int) < x) :
    (2 : ℝ) ^ (-1074 : Int) ≤ nearest_double x := by
  obtain ⟨hd, hmin⟩ := nearest_double_spec x
  have hp := two_zpow_pos (-1075)
  have hd1 : is_double ((2 : ℝ) ^ (-1074 : Int)) := by
    simpa using is_double_mk 1 (-1074) (by decide) (by decide) (by decide)
  by_cases hx : x ≤ (2 : ℝ) ^ (-1074 : Int)
  · have hb := nearest_double_bounds 0 _ x is_double_zero hd1 (by linarith) hx
    by_contra hlt
    push_neg at hlt
    have hzero : nearest_double x = 0 := by
      by_contra hne
      have hpos : 0 < nearest_double x := lt_of_le_of_ne hb.1 (Ne.symm hne)
      have := is_double_pos_ge _ hd hpos
      linarith
    have h2 := hmin _ hd1
    rw [hzero, sub_zero, abs_of_pos (by linarith), abs_of_nonpos (by linarith)] at h2
    rw [two_zpow_1074] at h2
    linarith
  · push_neg at hx
    by_contra hlt
    push_neg at hlt
    have h2 := hmin _ hd1
    rw [abs_of_pos (by linarith), abs_of_pos (by linarith)] at h2
    linarith

theorem is_double_neg (x : ℝ) (h : is_double x) : is_double (-x) := by
  obtain ⟨m, e, hm, h1, h2, rfl⟩ := h
  exact ⟨-m, e, by rwa [abs_neg], h1, h2, by push_cast; ring⟩

/-! ### The relative error of rounding -/

theorem exists_double_below (x : ℝ) (h1 : (2 : ℝ) ^ (-1022 : Int) ≤ x)
    (h2 : x < (2 : ℝ) ^ (1024 : Int)) :
    ∃ z, is_double z ∧ z ≤ x ∧ x - z ≤ (2 : ℝ) ^ (-52 : Int) * x := by
  have hx : 0 < x := lt_of_lt_of_le (two_zpow_pos _) h1
  obtain ⟨k, hk1, hk2⟩ := exists_mem_Ico_zpow hx (by norm_num : (1 : ℝ) < 2)
  have hklo : -1022 ≤ k := by
    by_contra hlt
    push_neg at hlt
    have : (2 : ℝ) ^ (k + 1) ≤ (2 : ℝ) ^ (-1022 : Int) := two_zpow_le (by omega)
    linarith
  have hkhi : k ≤ 1023 := by
    by_contra hlt
    push_neg at hlt
    have : (2 : ℝ) ^ (1024 : Int) ≤ (2 : ℝ) ^ k := two_zpow_le (by omega)
    linarith
  have hp := two_zpow_pos (k - 52)
  have e1 : (2 : ℝ) ^ k = 4503599627370496 * (2 : ℝ) ^ (k - 52) := by
    rw [show k = 52 + (k - 52) by ring, zpow_add₀ (by norm_num : (2 : ℝ) ≠ 0)]
    norm_num
  have e2 : (2 : ℝ) ^ (k + 1) = 9007199254740992 * (2 : ℝ) ^ (k - 52) := by
    rw [show k + 1 = 53 + (k - 52) by ring, zpow_add₀ (by norm_num : (2 : ℝ) ≠ 0)]
    norm_num
  have e3 : (2 : ℝ) ^ (k - 52) = (2 : ℝ) ^ (-52 : Int) * (2 : ℝ) ^ k := by
    rw [show k - 52 = -52 + k by ring, zpow_add₀ (by norm_num : (2 : ℝ) ≠ 0)]
  have q1 : (4503599627370496 : ℝ) ≤ x / (2 : ℝ) ^ (k - 52) := by
    rw [le_div_iff₀ hp]; linarith
  have q2 : x / (2 : ℝ) ^ (k - 52) < 9007199254740992 := by
    rw [div_lt_iff₀ hp]; linarith
  have m1 : (4503599627370496 : Int) ≤ ⌊x / (2 : ℝ) ^ (k - 52)⌋ :=
    Int.le_floor.2 (by push_cast; exact q1)
  have m2 : ⌊x / (2 : ℝ) ^ (k - 52)⌋ < (9007199254740992 : Int) :=
    Int.floor_lt.2 (by push_cast; exact q2)
  have f1 : (⌊x / (2 : ℝ) ^ (k - 52)⌋ : ℝ) ≤ x / (2 : ℝ) ^ (k - 52) := Int.floor_le _
  have f2 : x / (2 : ℝ) ^ (k - 52) < ⌊x / (2 : ℝ) ^ (k - 52)⌋ + 1 := Int.lt_floor_add_one _
  rw [le_div_iff₀ hp] at f1
  rw [div_lt_iff₀ hp] at f2
  refine ⟨(⌊x / (2 : ℝ) ^ (k - 52)⌋ : ℝ) * (2 : ℝ) ^ (k - 52),
    is_double_mk _ _ (by rw [abs_of_nonneg (by omega)]; exact m2) (by omega) (by omega), f1, ?_⟩
  have hpk : (2 : ℝ) ^ (-52 : Int) * (2 : ℝ) ^ k ≤ (2 : ℝ) ^ (-52 : Int) * x :=
    mul_le_mul_of_nonneg_left hk1 (le_of_lt (two_zpow_pos _))
  linarith

theorem nearest_double_rel (x : ℝ) (h1 : (2 : ℝ) ^ (-1022 : Int) ≤ |x|)
    (h2 : |x| < (2 : ℝ) ^ (1024 : Int)) :
    |x - nearest_double x| ≤ (2 : ℝ) ^ (-52 : Int) * |x| := by
  obtain ⟨z, hz, hzx, hzd⟩ := exists_double_below |x| h1 h2
  obtain ⟨_, hmin⟩ := nearest_double_spec x
  by_cases hx : 0 ≤ x
  · rw [abs_of_nonneg hx] at hzx hzd
    have := hmin z hz
    rw [abs_of_nonneg (by linarith : 0 ≤ x - z)] at this
    rw [abs_of_nonneg hx]
    linarith
  · push_neg at hx
    rw [abs_of_neg hx] at hzx hzd
    have := hmin (-z) (is_double_neg z hz)
    rw [abs_of_nonpos (by linarith : x - -z ≤ 0)] at this
    rw [abs_of_neg hx]
    linarith

theorem round_to_double_rel (x : ℝ) (h1 : (2 : ℝ) ^ (-1022 : Int) ≤ |x|)
    (h2 : |x| ≤ (2 : ℝ) ^ (1023 : Int)) :
    ∃ v, round_to_double x = Dbl.fin v ∧ |v - x| ≤ (2 : ℝ) ^ (-52 : Int) * |x| := by
  have e : (2 : ℝ) ^ (1024 : Int) = 2 * (2 : ℝ) ^ (1023 : Int) := by
    rw [show (1024 : Int) = 1 + 1023 from rfl, zpow_add₀ (by norm_num : (2 : ℝ) ≠ 0)]
    norm_num
  have hp := two_zpow_pos 1023
  have d : is_double ((2 : ℝ) ^ (1023 : Int)) := by
    have := is_double_mk 4503599627370496 971 (by decide) (by decide) (by decide)
    have e52 : ((4503599627370496 : Int) : ℝ) * (2 : ℝ) ^ (971 : Int) = (2 : ℝ) ^ (1023 : Int) := by
      rw [show (1023 : Int) = 52 + 971 from rfl, zpow_add₀ (by norm_num : (2 : ℝ) ≠ 0)]
      norm_num
    rw [e52] at this
    exact this
  have ht : |x| < overflow_threshold := by
    have := is_double_abs_lt_threshold _ d
    rw [abs_of_pos hp] at this
    linarith
  refine ⟨nearest_double x, round_to_double_of_lt x ht, ?_⟩
  rw [abs_sub_comm]
  exact nearest_double_rel x h1 (by linarith)

/-! ## Properties of `write_wav_header` -/

/-- C2: for every sample count, `write_wav_header` emits exactly 44 bytes, and
the fixed fields hold the canonical values: `RIFF`, `WAVE`, `fmt `, 16, 1, 1,
44100, 88200, 2, 16, `data`, each integer least significant byte first.  None
of these bytes depends on the sample count. -/
theorem write_wav_header_fixed_fields (N : Int) :
    (write_wav_header N).length = 44
    ∧ field (write_wav_header N) 0 4 = [0x52, 0x49, 0x46, 0x46]
    ∧ field (write_wav_header N) 8 4 = [0x57, 0x41, 0x56, 0x45]
    ∧ field (write_wav_header N) 12 4 = [0x66, 0x6D, 0x74, 0x20]
    ∧ field (write_wav_header N) 16 4 = [16, 0, 0, 0]
    ∧ field (write_wav_header N) 20 2 = [1, 0]
    ∧ field (write_wav_header N) 22 2 = [1, 0]
    ∧ field (write_wav_header N) 24 4 = [0x44, 0xAC, 0, 0]
    ∧ field (write_wav_header N) 28 4 = [0x88, 0x58, 0x01, 0]
    ∧ field (write_wav_header N) 32 2 = [2, 0]
    ∧ field (write_wav_header N) 34 2 = [16, 0]
    ∧ field (write_wav_header N) 36 4 = [0x64, 0x61, 0x74, 0x61]
    ∧ ascii ("RIFF") = [0x52, 0x49, 0x46, 0x46] ∧ ascii ("WAVE") = [0x57, 0x41, 0x56, 0x45]
    ∧ ascii ("fmt ") = [0x66, 0x6D, 0x74, 0x20] ∧ ascii ("data") = [0x64, 0x61, 0x74, 0x61]
    ∧ le_value [16, 0, 0, 0] = 16 ∧ le_value [1, 0] = 1
    ∧ le_value [0x44, 0xAC, 0, 0] = 44100 ∧ le_value [0x88, 0x58, 0x01, 0] = 88200
    ∧ le_value [2, 0] = 2 ∧ le_value [16, 0] = 16 := by
  have h1 : Int.tdiv 705600 8 = 88200 := by decide
  have h2 : Int.tdiv 16 8 = 2 := by decide
  simp [write_wav_header, field, ascii, le_bytes, le_value, c_div, c_mul, wrap32,
    SAMPLE_RATE, NUM_CHANNELS, BITS_PER_SAMPLE, h1, h2]

/-! ## Properties of `generate_sine_wave` -/

theorem num_samples_duration : num_samples DURATION_MS = 13230 := by
  decide

theorem flatten_pairs_length (f : Nat → List Nat) (hf : ∀ i, (f i).length = 2) (n : Nat) :
    ((List.range n).map f).flatten.length = 2 * n := by
  induction n with
  | zero => rfl
  | succ n ih =>
    simp only [List.range_succ, List.map_append, List.flatten_append, List.length_append, ih]
    simp [hf]
    omega

theorem generate_sine_wave_length (freq : Dbl) :
    (generate_sine_wave freq DURATION_MS).length = 26460 := by
  unfold generate_sine_wave
  rw [flatten_pairs_length _ (fun i => le_bytes_length 2 _), num_samples_duration]
  rfl

/-! ## The loop of `parse_and_generate` -/

theorem is_note_ne_up {ch : Char} (h : is_note ch) : ch ≠ '>' := by
  rintro rfl; revert h; decide

theorem is_note_ne_down {ch : Char} (h : is_note ch) : ch ≠ '<' := by
  rintro rfl; revert h; decide

theorem parse_step_up (s : GenState) :
    parse_step s '>' = { s with octave := c_add s.octave 1 } := by
  simp [parse_step]

theorem parse_step_down (s : GenState) :
    parse_step s '<' = { s with octave := c_sub s.octave 1 } := by
  simp [parse_step]

theorem parse_step_note (s : GenState) {ch : Char} (h : is_note ch) :
    parse_step s ch =
      { s with
        fout := s.fout ++ generate_sine_wave (get_frequency ch s.octave) DURATION_MS
        total_samples := c_add s.total_samples 13230
        calls := s.calls ++ [(get_frequency ch s.octave, DURATION_MS)] } := by
  have h3 : c_div (c_mul SAMPLE_RATE DURATION_MS) 1000 = 13230 := num_samples_duration
  have h4 : ('a' ≤ ch ∧ ch ≤ 'g') ∨ ch = 'p' := h
  simp [parse_step, is_note_ne_up h, is_note_ne_down h, h3, h4]

theorem parse_step_other (s : GenState) {ch : Char} (h1 : ch ≠ '>') (h2 : ch ≠ '<')
    (h3 : ¬ is_note ch) : parse_step s ch = s := by
  have h4 : ¬ (('a' ≤ ch ∧ ch ≤ 'g') ∨ ch = 'p') := h3
  simp [parse_step, h1, h2, h4]

theorem note_count_cons (ch : Char) (body : List Char) :
    note_count (ch :: body) = note_count body + (if is_note ch then 1 else 0) := by
  simp [note_count, List.countP_cons]

theorem parse_run_counts (body : List Char) (s : GenState)
    (hs : wrap32 s.total_samples = s.total_samples) :
    (body.foldl parse_step s).fout.length = s.fout.length + 26460 * note_count body
    ∧ (body.foldl parse_step s).total_samples
        = wrap32 (s.total_samples + 13230 * (note_count body : Int))
    ∧ (body.foldl parse_step s).calls.length = s.calls.length + note_count body := by
  induction body generalizing s with
  | nil => simp [note_count, hs]
  | cons ch body ih =>
    rw [List.foldl_cons, note_count_cons]
    by_cases hn : is_note ch
    · obtain ⟨h1, h2, h3⟩ := ih (parse_step s ch) (by
        rw [parse_step_note s hn]; exact wrap32_wrap32 _)
      rw [h1, h2, h3, parse_step_note s hn]
      simp only [hn, if_true, List.length_append, generate_sine_wave_length,
        List.length_singleton, c_add]
      refine ⟨by omega, ?_, by omega⟩
      unfold wrap32; push_cast; omega
    · have hsame : (parse_step s ch).fout = s.fout
          ∧ (parse_step s ch).total_samples = s.total_samples
          ∧ (parse_step s ch).calls = s.calls := by
        by_cases hu : ch = '>'
        · subst hu; rw [parse_step_up]; exact ⟨rfl, rfl, rfl⟩
        · by_cases hd : ch = '<'
          · subst hd; rw [parse_step_down]; exact ⟨rfl, rfl, rfl⟩
          · rw [parse_step_other s hu hd hn]; exact ⟨rfl, rfl, rfl⟩
      obtain ⟨h1, h2, h3⟩ := ih (parse_step s ch) (by rw [hsame.2.1]; exact hs)
      rw [h1, h2, h3, hsame.1, hsame.2.1, hsame.2.2]
      simp [hn]

theorem parse_and_generate_counts (body : List Char) :
    (parse_and_generate body).fout.length = 26460 * note_count body
    ∧ (parse_and_generate body).total_samples = wrap32 (13230 * (note_count body : Int))
    ∧ (parse_and_generate body).calls.length = note_count body := by
  have h := parse_run_counts body { octave := 4, total_samples := 0, fout := [], calls := [] }
    (by decide)
  simpa [parse_and_generate] using h

theorem note_count_replicate_a (k : Nat) : note_count (List.replicate k 'a') = k := by
  induction k with
  | zero => rfl
  | succ k ih => rw [List.replicate_succ, note_count_cons, ih]; simp; decide

/-! ## Duration law -/

/-- C1 (as amended): for every melody body with `k` characters in `a`..`g` or
equal to `p`, `parse_and_generate` makes `k` calls of `generate_sine_wave` and
writes exactly `2 * k * 13230` bytes, that is `k * 13230` two-byte samples,
whatever the other characters are and however large `k` is; the counter
`*total_samples` holds `k * 13230` reduced to a 32-bit `int`, which is
`k * 13230` itself whenever `k ≤ 162319`. -/
theorem parse_and_generate_duration (body : List Char) :
    (parse_and_generate body).calls.length = note_count body
    ∧ (parse_and_generate body).fout.length = 2 * (note_count body * 13230)
    ∧ (parse_and_generate body).total_samples = wrap32 ((note_count body : Int) * 13230)
    ∧ (note_count body ≤ 162319 →
        (parse_and_generate body).total_samples = (note_count body : Int) * 13230) := by
  obtain ⟨h1, h2, h3⟩ := parse_and_generate_counts body
  refine ⟨h3, by omega, by rw [h2]; congr 1; ring, fun hk => ?_⟩
  rw [h2, wrap32_of_range] <;> omega

/-- Witness of C1: the body `a1 >p<` has two tone characters. -/
theorem parse_and_generate_duration_witness :
    note_count ("a1 >p<").toList ≤ 162319
    ∧ (parse_and_generate ("a1 >p<").toList).total_samples = 26460 := by
  have hk : note_count ("a1 >p<").toList = 2 := by decide
  refine ⟨by rw [hk]; decide, ?_⟩
  have h := (parse_and_generate_duration ("a1 >p<").toList).2.2.2 (by rw [hk]; decide)
  rw [hk] at h
  simpa using h

/-- Counterexample to C1 as stated: a body of 162320 letters `a` makes the
32-bit counter `*total_samples` wrap, so it does not hold `k * 13230`. -/
theorem parse_and_generate_total_samples_wraps :
    note_count (List.replicate 162320 'a') = 162320
    ∧ (parse_and_generate (List.replicate 162320 'a')).total_samples = -2147473696
    ∧ (parse_and_generate (List.replicate 162320 'a')).total_samples
        ≠ ((note_count (List.replicate 162320 'a') : Nat) : Int) * 13230 := by
  have hk := note_count_replicate_a 162320
  have h := (parse_and_generate_counts (List.replicate 162320 'a')).2.1
  rw [hk] at h
  have hv : wrap32 (13230 * ((162320 : Nat) : Int)) = -2147473696 := by decide
  rw [hv] at h
  refine ⟨hk, h, ?_⟩
  rw [h, hk]; decide

/-! ## The size fields of the header -/

theorem write_wav_header_fields_4_40 (N : Int) :
    field (write_wav_header N) 4 4
        = le_bytes 4 (c_add 36 (wrap32 (Int.tdiv (N * NUM_CHANNELS * BITS_PER_SAMPLE) 8)))
    ∧ field (write_wav_header N) 40 4
        = le_bytes 4 (wrap32 (Int.tdiv (N * NUM_CHANNELS * BITS_PER_SAMPLE) 8)) := by
  simp [write_wav_header, field, ascii, le_bytes]

theorem data_chunk_size_eq (N : Int) :
    wrap32 (Int.tdiv (N * NUM_CHANNELS * BITS_PER_SAMPLE) 8) = wrap32 (2 * N) := by
  have e : N * NUM_CHANNELS * BITS_PER_SAMPLE = 8 * (2 * N) := by
    simp only [NUM_CHANNELS, BITS_PER_SAMPLE]; ring
  rw [e, Int.mul_tdiv_cancel_left _ (by decide)]

theorem le_bytes_wrap32 (x : Int) : le_bytes 4 (wrap32 x) = le_bytes 4 x := by
  simp only [le_bytes, wrap32]
  congr 1
  · congr 1; omega
  · congr 1
    · congr 1; omega
    · congr 1
      · congr 1; omega
      · congr 1; congr 1; omega

theorem write_wav_header_sizes_all (N : Int) :
    field (write_wav_header N) 40 4 = le_bytes 4 (2 * N)
    ∧ field (write_wav_header N) 4 4 = le_bytes 4 (36 + 2 * N) := by
  obtain ⟨h4, h40⟩ := write_wav_header_fields_4_40 N
  rw [h4, h40, data_chunk_size_eq, le_bytes_wrap32, c_add, le_bytes_wrap32]
  refine ⟨rfl, ?_⟩
  rw [← le_bytes_wrap32 (36 + wrap32 (2 * N)), ← le_bytes_wrap32 (36 + 2 * N)]
  congr 1
  unfold wrap32; omega

theorem starts_with_iff (hay needle : List Char) :
    starts_with hay needle = true ↔ ∃ post, hay = needle ++ post := by
  induction needle generalizing hay with
  | nil => simp [starts_with]
  | cons d ds ih =>
    cases hay with
    | nil => simp [starts_with]
    | cons c cs =>
      simp only [starts_with, Bool.and_eq_true, beq_iff_eq, ih, List.cons_append,
        List.cons.injEq]
      constructor
      · rintro ⟨rfl, post, rfl⟩; exact ⟨post, rfl, rfl⟩
      · rintro ⟨post, rfl, rfl⟩; exact ⟨rfl, post, rfl⟩

theorem strstr_spec (needle hay : List Char) :
    (strstr hay needle = none ∧ ∀ pre post, hay ≠ pre ++ needle ++ post)
    ∨ ∃ pre post, strstr hay needle = some (needle ++ post)
        ∧ hay = pre ++ needle ++ post
        ∧ ∀ pre2 post2, hay = pre2 ++ needle ++ post2 → pre.length ≤ pre2.length := by
  induction hay with
  | nil =>
    rw [strstr]
    by_cases hs : starts_with [] needle = true
    · right
      obtain ⟨post, hp⟩ := (starts_with_iff [] needle).1 hs
      refine ⟨[], post, by rw [if_pos hs, hp], by simpa using hp, fun _ _ _ => Nat.zero_le _⟩
    · left
      refine ⟨by simp [hs], fun pre post h => hs ?_⟩
      have h2 := List.append_eq_nil.1 (List.append_eq_nil.1 h.symm).1
      rw [h2.2]; rfl
  | cons c cs ih =>
    rw [strstr]
    by_cases hs : starts_with (c :: cs) needle = true
    · right
      obtain ⟨post, hp⟩ := (starts_with_iff (c :: cs) needle).1 hs
      refine ⟨[], post, by rw [if_pos hs, hp], by simpa using hp, fun _ _ _ => Nat.zero_le _⟩
    · simp only [hs, Bool.false_eq_true, if_false]
      rcases ih with ⟨hn, hno⟩ | ⟨pre, post, hsome, hcs, hfirst⟩
      · left
        refine ⟨hn, fun pre post h => ?_⟩
        cases pre with
        | nil => exact hs ((starts_with_iff _ _).2 ⟨post, by simpa using h⟩)
        | cons p ps =>
          simp only [List.cons_append, List.cons.injEq] at h
          exact hno ps post h.2
      · right
        refine ⟨c :: pre, post, hsome, by simp [hcs], fun pre2 post2 h => ?_⟩
        cases pre2 with
        | nil => exact absurd ((starts_with_iff _ _).2 ⟨post2, by simpa using h⟩) hs
        | cons p ps =>
          simp only [List.cons_append, List.cons.injEq] at h
          simpa using hfirst ps post2 h.2

theorem skip_blanks_spec (l : List Char) :
    ∃ ws, l = ws ++ skip_blanks l ∧ (∀ c ∈ ws, c = ' ' ∨ c = '\n')
      ∧ (skip_blanks l).head? ≠ some ' ' ∧ (skip_blanks l).head? ≠ some '\n' := by
  induction l with
  | nil => exact ⟨[], by simp [skip_blanks]⟩
  | cons c cs ih =>
    by_cases hc : c = ' ' ∨ c = '\n'
    · obtain ⟨ws, h1, h2, h3⟩ := ih
      refine ⟨c :: ws, ?_, ?_, ?_⟩
      · simp only [skip_blanks, hc, if_true, List.cons_append]; rw [← h1]
      · intro d hd
        rcases List.mem_cons.1 hd with rfl | hd
        · exact hc
        · exact h2 d hd
      · simpa only [skip_blanks, hc, if_true] using h3
    · refine ⟨[], by simp [skip_blanks, hc], by simp, ?_⟩
      simp only [skip_blanks, hc, if_false, List.head?_cons, ne_eq, Option.some.injEq]
      exact ⟨fun h => hc (Or.inl h), fun h => hc (Or.inr h)⟩

theorem extract_melody_line_spec (text : List Char) :
    (extract_melody_line text = none ∧ ¬ has_marker text)
    ∨ ∃ pre post, extract_melody_line text = some (skip_blanks post)
        ∧ text = pre ++ marker ++ post
        ∧ ∀ pre2 post2, text = pre2 ++ marker ++ post2 → pre.length ≤ pre2.length := by
  rcases strstr_spec marker text with ⟨hn, hno⟩ | ⟨pre, post, hsome, htext, hfirst⟩
  · left
    refine ⟨?_, ?_⟩
    · unfold extract_melody_line; rw [show ("MELODY:").toList = marker from rfl, hn]
    · rintro ⟨pre, post, h⟩; exact hno pre post h
  · right
    refine ⟨pre, post, ?_, htext, hfirst⟩
    unfold extract_melody_line
    rw [show ("MELODY:").toList = marker from rfl, hsome]
    have hlen : ("MELODY:").length = marker.length := by decide
    simp [hlen]

/-- C4: `extract_melody_line` returns NULL exactly when the input text does not
contain the substring `MELODY:`, and a non-NULL pointer exactly when it does. -/
theorem extract_melody_line_null_iff (text : List Char) :
    (extract_melody_line text = none ↔ ¬ ∃ pre post, text = pre ++ ("MELODY:").toList ++ post)
    ∧ ((extract_melody_line text).isSome = true
        ↔ ∃ pre post, text = pre ++ ("MELODY:").toList ++ post) := by
  have hm : (∃ pre post, text = pre ++ ("MELODY:").toList ++ post) ↔ has_marker text := Iff.rfl
  rw [hm]
  rcases extract_melody_line_spec text with ⟨hn, hno⟩ | ⟨pre, post, hsome, htext, _⟩
  · simp [hn, hno]
  · have : has_marker text := ⟨pre, post, htext⟩
    simp [hsome, this]

/-- C5: when the text contains `MELODY:`, `extract_melody_line` returns the
suffix `r` of the text in the decomposition `text = pre ++ "MELODY:" ++ ws ++ r`
in which the marker is the first occurrence, `ws` consists of spaces and
newlines only, and `r` starts with neither a space nor a newline. -/
theorem extract_melody_line_suffix (text : List Char)
    (h : ∃ pre post, text = pre ++ ("MELODY:").toList ++ post) :
    ∃ pre ws r, text = pre ++ ("MELODY:").toList ++ ws ++ r
      ∧ (∀ pre2 post2, text = pre2 ++ ("MELODY:").toList ++ post2 → pre.length ≤ pre2.length)
      ∧ (∀ c ∈ ws, c = ' ' ∨ c = '\n')
      ∧ r.head? ≠ some ' ' ∧ r.head? ≠ some '\n'
      ∧ extract_melody_line text = some r := by
  rcases extract_melody_line_spec text with ⟨_, hno⟩ | ⟨pre, post, hsome, htext, hfirst⟩
  · exact absurd h hno
  · obtain ⟨ws, h1, h2, h3, h4⟩ := skip_blanks_spec post
    refine ⟨pre, ws, skip_blanks post, ?_, hfirst, h2, h3, h4, hsome⟩
    rw [List.append_assoc (pre ++ ("MELODY:").toList), ← h1]
    exact htext

/-- Witness of C5: a text with two markers and a tab after the blanks. -/
theorem extract_melody_line_suffix_witness :
    (∃ pre post, sample_text = pre ++ ("MELODY:").toList ++ post)
    ∧ ∃ pre ws r, sample_text = pre ++ ("MELODY:").toList ++ ws ++ r
      ∧ (∀ pre2 post2, sample_text = pre2 ++ ("MELODY:").toList ++ post2
          → pre.length ≤ pre2.length)
      ∧ (∀ c ∈ ws, c = ' ' ∨ c = '\n')
      ∧ r.head? ≠ some ' ' ∧ r.head? ≠ some '\n'
      ∧ extract_melody_line sample_text = some r :=
  have hw : ∃ pre post, sample_text = pre ++ ("MELODY:").toList ++ post :=
    ⟨("NAME:x\n").toList, (" \n\ta MELODY:b").toList, by decide⟩
  ⟨hw, extract_melody_line_suffix sample_text hw⟩

/-! ## The octave state machine -/

theorem exponent_eq (octave n : Int) :
    c_sub (c_add (c_mul 12 (c_add octave 1)) n) 69 = wrap32 (12 * (octave + 1) + n - 69) := by
  unfold c_sub c_add c_mul wrap32; omega

theorem get_frequency_wrap32 (note : Char) (octave : Int) :
    get_frequency note (wrap32 octave) = get_frequency note octave := by
  unfold get_frequency
  cases semitone note with
  | none => rfl
  | some n =>
    simp only [exponent_eq]
    have : wrap32 (12 * (wrap32 octave + 1) + n - 69) = wrap32 (12 * (octave + 1) + n - 69) := by
      unfold wrap32; omega
    rw [this]

theorem parse_and_generate_snoc (body : List Char) (ch : Char) :
    parse_and_generate (body ++ [ch]) = parse_step (parse_and_generate body) ch := by
  simp [parse_and_generate, List.foldl_append]

theorem octave_at_length (body : List Char) :
    octave_at body body.length = 4 + (body.count '>' : Int) - (body.count '<' : Int) := by
  simp [octave_at]

theorem tone_events_spec_snoc (body : List Char) (ch : Char) :
    tone_events_spec (body ++ [ch])
      = tone_events_spec body
        ++ (if is_note ch then [(get_frequency ch (octave_at body body.length), 300)] else []) := by
  unfold tone_events_spec
  rw [List.length_append, List.length_singleton, List.range_succ, List.filterMap_append]
  congr 1
  · apply List.filterMap_congr
    intro i hi
    have hi2 : i < body.length := List.mem_range.1 hi
    have e1 : (body ++ [ch])[i]? = body[i]? := List.getElem?_append_left hi2
    have e2 : octave_at (body ++ [ch]) i = octave_at body i := by
      unfold octave_at
      rw [List.take_append_of_le_length (Nat.le_of_lt hi2)]
    rw [e1, e2]
  · have e1 : (body ++ [ch])[body.length]? = some ch := by simp
    have e2 : octave_at (body ++ [ch]) body.length = octave_at body body.length := by
      unfold octave_at
      rw [List.take_append_of_le_length (Nat.le_refl _)]
    simp only [List.filterMap_cons, List.filterMap_nil, e1, e2]
    by_cases hn : is_note ch <;> simp [hn]

theorem render_events_snoc (events : List (Dbl × Int)) (e : Dbl × Int) :
    render_events (events ++ [e]) = render_events events ++ generate_sine_wave e.1 e.2 := by
  simp [render_events]

theorem parse_and_generate_trace (body : List Char) :
    (parse_and_generate body).octave = wrap32 (octave_at body body.length)
    ∧ (parse_and_generate body).calls = tone_events_spec body
    ∧ (parse_and_generate body).fout = render_events (parse_and_generate body).calls := by
  induction body using List.reverseRecOn with
  | nil => exact ⟨by decide, rfl, rfl⟩
  | append_singleton body ch ih =>
    obtain ⟨ho, hc, hf⟩ := ih
    rw [parse_and_generate_snoc, tone_events_spec_snoc]
    simp only [octave_at_length] at ho ⊢
    by_cases hn : is_note ch
    · have hu := is_note_ne_up hn
      have hd := is_note_ne_down hn
      rw [parse_step_note _ hn]
      refine ⟨?_, ?_, ?_⟩
      · simp only [ho, List.count_append, List.count_singleton]
        simp [hu, hd]
      · simp only [hn, if_true, hc, ho, get_frequency_wrap32, octave_at_length]
        rfl
      · simp only [render_events_snoc, ← hf]
    · simp only [hn, if_false, List.append_nil]
      by_cases hu : ch = '>'
      · subst hu
        rw [parse_step_up]
        refine ⟨?_, hc, hf⟩
        simp only [ho, c_add, List.count_append, List.count_singleton]
        simp only [wrap32]; push_cast; simp; omega
      · by_cases hd : ch = '<'
        · subst hd
          rw [parse_step_down]
          refine ⟨?_, hc, hf⟩
          simp only [ho, c_sub, List.count_append, List.count_singleton]
          simp only [wrap32]; push_cast; simp; omega
        · rw [parse_step_other _ hu hd hn]
          refine ⟨?_, hc, hf⟩
          simp only [ho, List.count_append, List.count_singleton]
          simp [hu, hd]

/-- C6: for every melody body, the calls of `generate_sine_wave` made by
`parse_and_generate` are exactly one tone event per character `c` in `a`..`g`
or `p`, in input order, the event of the character at position `i` being
`(get_frequency(c, 4 + G - L), 300)` with `G` and `L` the numbers of `>` and
`<` before position `i`; `>` and `<` contribute no event of their own, and the
bytes written are the renderings of these events, in order. -/
theorem parse_and_generate_events (body : List Char) :
    (parse_and_generate body).calls
      = (List.range body.length).filterMap (fun i =>
          match body[i]? with
          | some c =>
            if is_note c then
              some (get_frequency c
                (4 + ((body.take i).count '>' : Int) - ((body.take i).count '<' : Int)),
                (300 : Int))
            else none
          | none => none)
    ∧ (parse_and_generate body).fout
      = ((parse_and_generate body).calls.map (fun e => generate_sine_wave e.1 e.2)).flatten
    ∧ (parse_and_generate body).calls.length = note_count body := by
  obtain ⟨_, hc, hf⟩ := parse_and_generate_trace body
  exact ⟨hc, hf, (parse_and_generate_counts body).2.2⟩

/-! ## Ignored characters -/

theorem foldl_parse_step_deletes {body shorter : List Char} (h : DeletesIgnored body shorter)
    (s : GenState) : body.foldl parse_step s = shorter.foldl parse_step s := by
  induction h generalizing s with
  | done => rfl
  | keep c _ ih => simp only [List.foldl_cons]; exact ih _
  | delete c hc _ ih =>
    simp only [List.foldl_cons]
    rw [parse_step_other s hc.1 hc.2.1 hc.2.2]
    exact ih s

/-- C7: deleting from a melody body any characters other than `a`..`g`, `p`,
`<` and `>` changes neither the bytes written, nor the sample counter, nor the
sequence of tone events. -/
theorem parse_and_generate_ignores (body shorter : List Char)
    (h : DeletesIgnored body shorter) :
    (parse_and_generate body).fout = (parse_and_generate shorter).fout
    ∧ (parse_and_generate body).total_samples = (parse_and_generate shorter).total_samples
    ∧ (parse_and_generate body).calls = (parse_and_generate shorter).calls := by
  unfold parse_and_generate
  rw [foldl_parse_step_deletes h]
  exact ⟨rfl, rfl, rfl⟩

/-- Witness of C7: digits, space, `#`, `.`, `|`, `V`, `T` and newline are
ignored characters, and the bodies `a1`, `a.`, `a V5` and `a` followed by a
newline all produce the output bytes and the sample count of the body `a`. -/
theorem parse_and_generate_ignores_witness :
    DeletesIgnored ("a V5").toList ("a").toList
    ∧ (∀ c ∈ ("0123456789 #.|VT\n").toList, is_ignored c)
    ∧ (parse_and_generate ("a1").toList).fout = (parse_and_generate ("a").toList).fout
    ∧ (parse_and_generate ("a.").toList).fout = (parse_and_generate ("a").toList).fout
    ∧ (parse_and_generate ("a V5").toList).fout = (parse_and_generate ("a").toList).fout
    ∧ (parse_and_generate ("a\n").toList).fout = (parse_and_generate ("a").toList).fout
    ∧ (parse_and_generate ("a V5").toList).total_samples
        = (parse_and_generate ("a").toList).total_samples :=
  have d0 : DeletesIgnored ("a").toList ("a").toList := .keep 'a' .done
  have d1 : DeletesIgnored ("a1").toList ("a").toList :=
    .keep 'a' (.delete '1' (by decide) .done)
  have d2 : DeletesIgnored ("a.").toList ("a").toList :=
    .keep 'a' (.delete '.' (by decide) .done)
  have d3 : DeletesIgnored ("a V5").toList ("a").toList :=
    .keep 'a' (.delete ' ' (by decide) (.delete 'V' (by decide) (.delete '5' (by decide) .done)))
  have d4 : DeletesIgnored ("a\n").toList ("a").toList :=
    .keep 'a' (.delete '\n' (by decide) .done)
  ⟨d3, by decide, (parse_and_generate_ignores _ _ d1).1, (parse_and_generate_ignores _ _ d2).1,
    (parse_and_generate_ignores _ _ d3).1, (parse_and_generate_ignores _ _ d4).1,
    (parse_and_generate_ignores _ _ d3).2.1⟩

/-! ## Properties of `get_frequency` -/

theorem semitone_of_range (note : Char) (h : 'a' ≤ note ∧ note ≤ 'g') :
    ∃ n, semitone note = some n ∧ 0 ≤ n ∧ n ≤ 11 := by
  have h1 : 97 ≤ note.toNat := h.1
  have h2 : note.toNat ≤ 103 := h.2
  have h3 : note = Char.ofNat note.toNat := (Char.ofNat_toNat note).symm
  generalize note.toNat = k at h1 h2 h3
  subst h3
  interval_cases k <;> exact ⟨_, rfl, by decide, by decide⟩

theorem semitone_of_not_range (note : Char) (h : ¬ ('a' ≤ note ∧ note ≤ 'g')) :
    semitone note = none := by
  unfold semitone
  split <;> first | rfl | exact absurd (by decide) h

theorem semitone_of_table (letter : Char) (offset : Int)
    (h : (letter, offset) ∈
      [('c', (0 : Int)), ('d', 2), ('e', 4), ('f', 5), ('g', 7), ('a', 9), ('b', 11)]) :
    semitone letter = some offset := by
  simp only [List.mem_cons, Prod.mk.injEq, List.mem_singleton, List.not_mem_nil, or_false] at h
  rcases h with ⟨rfl, rfl⟩ | ⟨rfl, rfl⟩ | ⟨rfl, rfl⟩ | ⟨rfl, rfl⟩ | ⟨rfl, rfl⟩ | ⟨rfl, rfl⟩
    | ⟨rfl, rfl⟩ <;> rfl

theorem get_frequency_of_semitone (note : Char) (n octave : Int) (h : semitone note = some n) :
    get_frequency note octave
      = Dbl.mul (Dbl.fin 440) (Dbl.pow (Dbl.fin 2)
          (Dbl.div (Dbl.of_int (wrap32 (12 * (octave + 1) + n - 69))) (Dbl.fin 12))) := by
  unfold get_frequency
  rw [h]
  simp only [exponent_eq]

theorem get_frequency_of_none (note : Char) (octave : Int) (h : semitone note = none) :
    get_frequency note octave = Dbl.fin 0 := by
  unfold get_frequency
  rw [h]

/-! ### Evaluation of the double operations -/

theorem dbl_mul_fin (x y : ℝ) : Dbl.mul (Dbl.fin x) (Dbl.fin y) = round_to_double (x * y) := rfl

theorem dbl_div_fin (x y : ℝ) (hy : y ≠ 0) :
    Dbl.div (Dbl.fin x) (Dbl.fin y) = round_to_double (x / y) := by
  simp [Dbl.div, hy]

theorem dbl_pow_two (e : ℝ) : Dbl.pow (Dbl.fin 2) (Dbl.fin e) = round_to_double ((2 : ℝ) ^ e) := by
  simp [Dbl.pow]

theorem round_to_double_zero : round_to_double 0 = Dbl.fin 0 :=
  round_to_double_of_double 0 is_double_zero

theorem two_rpow_int (k : Int) : (2 : ℝ) ^ ((k : Int) : ℝ) = (2 : ℝ) ^ k := Real.rpow_intCast 2 k

theorem round_to_double_underflow (x : ℝ) (h0 : 0 ≤ x) (h1 : x < (2 : ℝ) ^ (-1075 : Int)) :
    round_to_double x = Dbl.fin 0 := by
  have hlt : |x| < overflow_threshold := by
    rw [abs_of_nonneg h0, overflow_threshold_eq]
    have h2 : (2 : ℝ) ^ (-1075 : Int) ≤ 2 ^ (970 : Int) := two_zpow_le (by decide)
    have h3 := two_zpow_pos 970
    nlinarith
  rw [round_to_double_of_lt x hlt, nearest_double_underflow x h0 h1]

theorem dbl_pow_two_underflow (e : ℝ) (he : e < -1075) :
    Dbl.pow (Dbl.fin 2) (Dbl.fin e) = Dbl.fin 0 := by
  rw [dbl_pow_two]
  apply round_to_double_underflow
  · exact le_of_lt (Real.rpow_pos_of_pos (by norm_num) e)
  · rw [← two_rpow_int (-1075)]
    exact (Real.rpow_lt_rpow_left_iff (by norm_num)).2 (by push_cast; exact he)

theorem dbl_pow_two_overflow (e : ℝ) (he : 1024 ≤ e) :
    Dbl.pow (Dbl.fin 2) (Dbl.fin e) = Dbl.inf false := by
  rw [dbl_pow_two]
  apply round_to_double_overflow
  have h1 : (2 : ℝ) ^ ((1024 : Nat) : ℝ) ≤ (2 : ℝ) ^ e :=
    (Real.rpow_le_rpow_left_iff (by norm_num)).2 (by push_cast; exact he)
  rw [Real.rpow_natCast] at h1
  unfold overflow_threshold
  have : (0 : ℝ) < 2 ^ (970 : Nat) := by positivity
  linarith

theorem round_to_double_pos (x : ℝ) (h : (2 : ℝ) ^ (-1075 : Int) < x) :
    (round_to_double x).is_positive
    ∧ ∀ p, round_to_double x = Dbl.fin p → (2 : ℝ) ^ (-1074 : Int) ≤ p := by
  have hx : 0 < x := lt_trans (two_zpow_pos _) h
  unfold round_to_double
  split
  · refine ⟨?_, fun p hp => by simp at hp⟩
    simp only [Dbl.is_positive, decide_eq_false_iff_not, not_lt]
    exact le_of_lt hx
  · have hn := nearest_double_pos x h
    refine ⟨?_, fun p hp => ?_⟩
    · simp only [Dbl.is_positive]
      exact lt_of_lt_of_le (two_zpow_pos _) hn
    · simp only [Dbl.fin.injEq] at hp
      rw [← hp]; exact hn

theorem dbl_mul_440_pos (d : Dbl) (hd : d.is_positive)
    (hp : ∀ p, d = Dbl.fin p → (2 : ℝ) ^ (-1074 : Int) ≤ p) :
    (Dbl.mul (Dbl.fin 440) d).is_positive := by
  cases d with
  | fin p =>
    have hp1 := hp p rfl
    rw [dbl_mul_fin]
    apply (round_to_double_pos _ _).1
    rw [two_zpow_1074] at hp1
    have := two_zpow_pos (-1075)
    nlinarith
  | inf negative =>
    simp only [Dbl.is_positive] at hd
    subst hd
    simp [Dbl.mul, Dbl.is_positive]
  | nan => simp [Dbl.is_positive] at hd

/-! ### The letter `a` -/

theorem get_frequency_a_exact (o : Int) (h1 : -1070 ≤ o) (h2 : o ≤ 1019) :
    get_frequency 'a' o = Dbl.fin (440 * (2 : ℝ) ^ (o - 4)) := by
  rw [get_frequency_of_semitone 'a' 9 o rfl]
  have e1 : wrap32 (12 * (o + 1) + 9 - 69) = 12 * (o - 4) := by
    rw [wrap32_of_range _ (by omega) (by omega)]; ring
  have e2 : ((12 * (o - 4) : Int) : ℝ) / 12 = ((o - 4 : Int) : ℝ) := by
    push_cast; ring
  rw [e1, Dbl.of_int, dbl_div_fin _ _ (by norm_num), e2,
    round_to_double_of_double _ (is_double_int _ (by rw [abs_lt]; constructor <;> omega)),
    dbl_pow_two, two_rpow_int]
  have d1 : is_double ((2 : ℝ) ^ (o - 4)) := by
    have := is_double_mul_zpow 1 (o - 4) (by decide) (by omega) (by omega)
    simpa using this
  rw [round_to_double_of_double _ d1, dbl_mul_fin]
  have d2 : is_double (440 * (2 : ℝ) ^ (o - 4)) := by
    have := is_double_mul_zpow 440 (o - 4) (by decide) (by omega) (by omega)
    simpa using this
  rw [round_to_double_of_double _ d2]

theorem get_frequency_a4 : get_frequency 'a' 4 = Dbl.fin 440 := by
  rw [get_frequency_a_exact 4 (by decide) (by decide)]
  norm_num

theorem get_frequency_a_values :
    get_frequency 'a' 5 = Dbl.fin 880 ∧ get_frequency 'a' 3 = Dbl.fin 220
    ∧ get_frequency 'a' 2 = Dbl.fin 110 := by
  refine ⟨?_, ?_, ?_⟩
  · rw [get_frequency_a_exact 5 (by decide) (by decide)]; norm_num
  · rw [get_frequency_a_exact 3 (by decide) (by decide)]; norm_num
  · rw [get_frequency_a_exact 2 (by decide) (by decide)]; norm_num

theorem get_frequency_a_succ (o : Int) (h1 : -1070 ≤ o) (h2 : o ≤ 1018) :
    get_frequency 'a' (o + 1) = Dbl.mul (Dbl.fin 2) (get_frequency 'a' o) := by
  rw [get_frequency_a_exact (o + 1) (by omega) (by omega),
    get_frequency_a_exact o h1 (by omega), dbl_mul_fin]
  have e : 2 * (440 * (2 : ℝ) ^ (o - 4)) = 440 * (2 : ℝ) ^ (o + 1 - 4) := by
    rw [show o + 1 - 4 = (o - 4) + 1 from by ring, zpow_add₀ (by norm_num : (2 : ℝ) ≠ 0)]
    norm_num; ring
  rw [e]
  have d2 : is_double (440 * (2 : ℝ) ^ (o + 1 - 4)) := by
    have := is_double_mul_zpow 440 (o + 1 - 4) (by decide) (by omega) (by omega)
    simpa using this
  rw [round_to_double_of_double _ d2]

theorem get_frequency_a_underflow : get_frequency 'a' (-1072) = Dbl.fin 0 := by
  rw [get_frequency_of_semitone 'a' 9 (-1072) rfl]
  have e1 : wrap32 (12 * (-1072 + 1) + 9 - 69) = -12912 := by decide
  have e2 : (((-12912 : Int) : ℝ)) / 12 = ((-1076 : Int) : ℝ) := by norm_num
  rw [e1, Dbl.of_int, dbl_div_fin _ _ (by norm_num), e2,
    round_to_double_of_double _ (is_double_int _ (by decide)),
    dbl_pow_two_underflow _ (by norm_num), dbl_mul_fin, mul_zero, round_to_double_zero]

theorem get_frequency_a_overflow : get_frequency 'a' 1020 = Dbl.inf false := by
  rw [get_frequency_of_semitone 'a' 9 1020 rfl]
  have e1 : wrap32 (12 * (1020 + 1) + 9 - 69) = 12192 := by decide
  have e2 : (((12192 : Int) : ℝ)) / 12 = ((1016 : Int) : ℝ) := by norm_num
  have d1 : is_double ((2 : ℝ) ^ (1016 : Int)) := by
    have := is_double_mk 35184372088832 971 (by decide) (by decide) (by decide)
    have e : ((35184372088832 : Int) : ℝ) * (2 : ℝ) ^ (971 : Int) = (2 : ℝ) ^ (1016 : Int) := by
      rw [show (1016 : Int) = 45 + 971 from rfl, zpow_add₀ (by norm_num : (2 : ℝ) ≠ 0)]
      norm_num
    rw [e] at this
    exact this
  rw [e1, Dbl.of_int, dbl_div_fin _ _ (by norm_num), e2,
    round_to_double_of_double _ (is_double_int _ (by decide)), dbl_pow_two, two_rpow_int,
    round_to_double_of_double _ d1, dbl_mul_fin]
  apply round_to_double_overflow
  have h1 : overflow_threshold ≤ (2 : ℝ) ^ (1024 : Nat) := by
    unfold overflow_threshold
    have : (0 : ℝ) ≤ 2 ^ (970 : Nat) := by positivity
    linarith
  have h2 : (2 : ℝ) ^ (1024 : Nat) = 256 * (2 : ℝ) ^ (1016 : Int) := by
    rw [show (1016 : Int) = ((1016 : Nat) : Int) from rfl, zpow_natCast,
      show (1024 : Nat) = 8 + 1016 from rfl, pow_add]
    norm_num
  have hp := two_zpow_pos 1016
  linarith

/-! ### Positivity of the frequency -/

theorem abs_lt_overflow_threshold (x : ℝ) (h : |x| ≤ 4294967296) : |x| < overflow_threshold := by
  rw [overflow_threshold_eq]
  have h1 : (1 : ℝ) ≤ 2 ^ (970 : Int) := by
    have := two_zpow_le (show (0 : Int) ≤ 970 by decide)
    simpa using this
  nlinarith

theorem exponent_rounded (k : Int) (a b : ℝ) (h1 : -2147483648 ≤ k) (h2 : k ≤ 2147483647)
    (ha : is_double a) (hb : is_double b) (hak : a ≤ (k : ℝ) / 12) (hkb : (k : ℝ) / 12 ≤ b) :
    ∃ y, Dbl.div (Dbl.of_int k) (Dbl.fin 12) = Dbl.fin y ∧ a ≤ y ∧ y ≤ b := by
  refine ⟨nearest_double ((k : ℝ) / 12), ?_, nearest_double_bounds a b _ ha hb hak hkb⟩
  rw [Dbl.of_int, dbl_div_fin _ _ (by norm_num)]
  apply round_to_double_of_lt
  apply abs_lt_overflow_threshold
  have k1 : (-2147483648 : ℝ) ≤ k := by exact_mod_cast h1
  have k2 : (k : ℝ) ≤ 2147483647 := by exact_mod_cast h2
  rw [abs_le]; constructor <;> linarith

theorem get_frequency_positive (note : Char) (octave : Int) (hn : 'a' ≤ note ∧ note ≤ 'g')
    (h1 : -1070 ≤ octave) (h2 : octave ≤ 178956974) :
    (get_frequency note octave).is_positive := by
  obtain ⟨n, hs, hn0, hn11⟩ := semitone_of_range note hn
  rw [get_frequency_of_semitone note n octave hs,
    wrap32_of_range _ (by omega) (by omega)]
  have k1 : (-12897 : ℝ) ≤ ((12 * (octave + 1) + n - 69 : Int) : ℝ) := by
    have : (-12897 : Int) ≤ 12 * (octave + 1) + n - 69 := by omega
    exact_mod_cast this
  have k2 : ((12 * (octave + 1) + n - 69 : Int) : ℝ) ≤ 2147483647 := by
    have : 12 * (octave + 1) + n - 69 ≤ (2147483647 : Int) := by omega
    exact_mod_cast this
  obtain ⟨y, hy, hya, _⟩ := exponent_rounded (12 * (octave + 1) + n - 69)
    ((-4299 : Int) * (2 : ℝ) ^ (-2 : Int)) ((2147483648 : Int) : ℝ) (by omega) (by omega)
    (is_double_mk (-4299) (-2) (by decide) (by decide) (by decide))
    (is_double_int 2147483648 (by decide))
    (by
      have : ((-4299 : Int) : ℝ) * (2 : ℝ) ^ (-2 : Int) = -1074.75 := by norm_num
      rw [this]; linarith)
    (by
      have : (((2147483648 : Int) : ℝ)) = 2147483648 := by norm_num
      rw [this]; linarith)
  rw [hy, dbl_pow_two]
  have hpow : (2 : ℝ) ^ (-1075 : Int) < (2 : ℝ) ^ y := by
    rw [← two_rpow_int (-1075)]
    apply (Real.rpow_lt_rpow_left_iff (by norm_num)).2
    have : ((-4299 : Int) : ℝ) * (2 : ℝ) ^ (-2 : Int) = -1074.75 := by norm_num
    rw [this] at hya
    push_cast; linarith
  obtain ⟨hp, hq⟩ := round_to_double_pos _ hpow
  exact dbl_mul_440_pos _ hp hq

/-! ### A note number outside the range of `int`, and a melody that underflows -/

theorem get_frequency_b_wrapped : get_frequency 'b' 178956975 = Dbl.fin 0 := by
  rw [get_frequency_of_semitone 'b' 11 178956975 rfl]
  have e1 : wrap32 (12 * (178956975 + 1) + 11 - 69) = -2147483642 := by decide
  rw [e1]
  obtain ⟨y, hy, _, hyb⟩ := exponent_rounded (-2147483642)
    ((-2147483648 : Int) : ℝ) ((-178956970 : Int) : ℝ) (by decide) (by decide)
    (is_double_int _ (by decide)) (is_double_int _ (by decide))
    (by norm_num) (by norm_num)
  rw [hy, dbl_pow_two_underflow _ (by push_cast at hyb; linarith), dbl_mul_fin, mul_zero,
    round_to_double_zero]

theorem foldl_parse_step_downs (k : Nat) (s : GenState) :
    (List.replicate k '<').foldl parse_step s
      = { s with octave := wrap32 (wrap32 s.octave - (k : Int)) } ∨ k = 0 := by
  induction k generalizing s with
  | zero => right; rfl
  | succ k ih =>
    left
    rw [List.replicate_succ, List.foldl_cons, parse_step_down]
    rcases ih { s with octave := c_sub s.octave 1 } with h | h
    · rw [h]
      simp only [c_sub]
      congr 1
      push_cast
      unfold wrap32; omega
    · subst h
      simp only [List.replicate_zero, List.foldl_nil, c_sub]
      congr 1
      push_cast
      unfold wrap32; omega

theorem calls_deep_a :
    (parse_and_generate (List.replicate 1076 '<' ++ ['a'])).calls = [(Dbl.fin 0, 300)] := by
  unfold parse_and_generate
  rw [List.foldl_append]
  rcases foldl_parse_step_downs 1076 { octave := 4, total_samples := 0, fout := [], calls := [] }
    with h | h
  · rw [h]
    have e : wrap32 (wrap32 4 - ((1076 : Nat) : Int)) = -1072 := by decide
    simp only [e, List.foldl_cons, List.foldl_nil]
    rw [parse_step_note _ (show is_note 'a' by decide)]
    simp only [List.nil_append, get_frequency_a_underflow, DURATION_MS]
  · exact absurd h (by decide)

/-! ### The frequency of C4 -/

theorem round_to_double_bounds (a b x : ℝ) (ha : is_double a) (hb : is_double b)
    (hax : a ≤ x) (hxb : x ≤ b) : ∃ v, round_to_double x = Dbl.fin v ∧ a ≤ v ∧ v ≤ b := by
  refine ⟨nearest_double x, ?_, nearest_double_bounds a b x ha hb hax hxb⟩
  apply round_to_double_of_lt
  have h1 := is_double_abs_lt_threshold a ha
  have h2 := is_double_abs_lt_threshold b hb
  exact lt_of_le_of_lt (abs_le_max_abs_abs hax hxb) (max_lt h1 h2)

theorem two_rpow_neg_three_quarters : (2 : ℝ) ^ (-0.75 : ℝ) ≤ 0.75 := by
  have h4 : ((2 : ℝ) ^ (-0.75 : ℝ)) ^ (4 : Nat) = 1 / 8 := by
    rw [← Real.rpow_natCast, ← Real.rpow_mul (by norm_num),
      show (-0.75 : ℝ) * ((4 : Nat) : ℝ) = ((-3 : Int) : ℝ) by norm_num, Real.rpow_intCast]
    norm_num
  by_contra h
  push_neg at h
  have h5 : (0.75 : ℝ) ^ (4 : Nat) < ((2 : ℝ) ^ (-0.75 : ℝ)) ^ (4 : Nat) :=
    pow_lt_pow_left₀ h (by norm_num) (by norm_num)
  rw [h4] at h5
  norm_num at h5

theorem get_frequency_c4_le : ∃ v, get_frequency 'c' 4 = Dbl.fin v ∧ v ≤ 330 := by
  rw [get_frequency_of_semitone 'c' 0 4 rfl]
  have e1 : wrap32 (12 * (4 + 1) + 0 - 69) = -9 := by decide
  rw [e1]
  obtain ⟨y, hy, hya, hyb⟩ := exponent_rounded (-9)
    ((-3 : Int) * (2 : ℝ) ^ (-2 : Int)) ((-3 : Int) * (2 : ℝ) ^ (-2 : Int)) (by decide)
    (by decide) (is_double_mk (-3) (-2) (by decide) (by decide) (by decide))
    (is_double_mk (-3) (-2) (by decide) (by decide) (by decide)) (by norm_num) (by norm_num)
  have ey : y = -0.75 := by
    have : ((-3 : Int) : ℝ) * (2 : ℝ) ^ (-2 : Int) = -0.75 := by norm_num
    rw [this] at hya hyb
    linarith
  rw [hy, ey, dbl_pow_two]
  obtain ⟨p, hp, hp0, hp1⟩ := round_to_double_bounds 0 ((3 : Int) * (2 : ℝ) ^ (-2 : Int))
    ((2 : ℝ) ^ (-0.75 : ℝ)) is_double_zero
    (is_double_mk 3 (-2) (by decide) (by decide) (by decide))
    (le_of_lt (Real.rpow_pos_of_pos (by norm_num) _))
    (by have := two_rpow_neg_three_quarters; norm_num; linarith)
  have hp2 : p ≤ 0.75 := by
    have : ((3 : Int) : ℝ) * (2 : ℝ) ^ (-2 : Int) = 0.75 := by norm_num
    rw [this] at hp1; exact hp1
  rw [hp, dbl_mul_fin]
  obtain ⟨v, hv, _, hv1⟩ := round_to_double_bounds 0 ((330 : Int) : ℝ) (440 * p) is_double_zero
    (is_double_int 330 (by decide)) (by linarith) (by push_cast; linarith)
  exact ⟨v, hv, by push_cast at hv1; exact hv1⟩

/-! ### Rounding error of the frequency -/

theorem two_rpow_near_one (d : ℝ) (hd : |d| ≤ 1) : |(2 : ℝ) ^ d - 1| ≤ 2 * |d| := by
  have hl0 : 0 < Real.log 2 := Real.log_pos (by norm_num)
  have hl1 : Real.log 2 ≤ 1 := by
    have := Real.log_two_lt_d9
    linarith
  have e : (2 : ℝ) ^ d = Real.exp (Real.log 2 * d) := Real.rpow_def_of_pos (by norm_num) d
  rw [e]
  have hy : |Real.log 2 * d| ≤ |d| := by
    rw [abs_mul, abs_of_pos hl0]
    nlinarith [abs_nonneg d]
  have := Real.abs_exp_sub_one_le (le_trans hy hd)
  linarith

theorem exponent_near (k : Int) (h1 : -12100 ≤ k) (h2 : k ≤ 12100) :
    ∃ y, Dbl.div (Dbl.of_int k) (Dbl.fin 12) = Dbl.fin y
      ∧ |y - (k : ℝ) / 12| ≤ 1 / 4398046511104 := by
  rw [Dbl.of_int, dbl_div_fin _ _ (by norm_num)]
  by_cases hk : k = 0
  · subst hk
    refine ⟨0, by simp [round_to_double_zero], by norm_num⟩
  · have k1 : (-12100 : ℝ) ≤ (k : ℝ) := by exact_mod_cast h1
    have k2 : (k : ℝ) ≤ 12100 := by exact_mod_cast h2
    have k3 : (1 : ℝ) ≤ |(k : ℝ)| := by
      have : (1 : Int) ≤ |k| := Int.one_le_abs hk
      exact_mod_cast this
    have k4 : |(k : ℝ)| ≤ 12100 := abs_le.2 ⟨k1, k2⟩
    have ea : |(k : ℝ) / 12| = |(k : ℝ)| / 12 := by
      rw [abs_div, abs_of_pos (by norm_num : (0 : ℝ) < 12)]
    have lo : (2 : ℝ) ^ (-1022 : Int) ≤ (2 : ℝ) ^ (-4 : Int) := two_zpow_le (by decide)
    have hi : (2 : ℝ) ^ (10 : Int) ≤ (2 : ℝ) ^ (1023 : Int) := two_zpow_le (by decide)
    have lo4 : (2 : ℝ) ^ (-4 : Int) = 1 / 16 := by norm_num
    have hi10 : (2 : ℝ) ^ (10 : Int) = 1024 := by norm_num
    obtain ⟨y, hy, hyr⟩ := round_to_double_rel ((k : ℝ) / 12)
      (by rw [ea]; linarith) (by rw [ea]; linarith)
    refine ⟨y, hy, ?_⟩
    have hu : (2 : ℝ) ^ (-52 : Int) = 1 / 4503599627370496 := by norm_num
    rw [hu, ea] at hyr
    linarith

theorem three_roundings (A r p v : ℝ) (hA : 0 < A)
    (hr : |r - 1| ≤ 1 / 2199023255552)
    (hp : |p - A * r| ≤ 1 / 4503599627370496 * (A * r))
    (hv : |v - 440 * p| ≤ 1 / 4503599627370496 * (440 * p)) :
    |v - 440 * A| ≤ 1 / 1099511627776 * (440 * A) := by
  obtain ⟨r1, r2⟩ := abs_le.1 hr
  obtain ⟨p1, p2⟩ := abs_le.1 hp
  obtain ⟨v1, v2⟩ := abs_le.1 hv
  have hAr1 : A * r ≤ A * (1 + 1 / 2199023255552) :=
    mul_le_mul_of_nonneg_left (by linarith) (le_of_lt hA)
  have hAr2 : A * (1 - 1 / 2199023255552) ≤ A * r :=
    mul_le_mul_of_nonneg_left (by linarith) (le_of_lt hA)
  rw [abs_le]
  constructor <;> linarith

theorem frequency_near (k : Int) (h1 : -12100 ≤ k) (h2 : k ≤ 12100) :
    ∃ v, Dbl.mul (Dbl.fin 440) (Dbl.pow (Dbl.fin 2) (Dbl.div (Dbl.of_int k) (Dbl.fin 12)))
        = Dbl.fin v
      ∧ |v - 440 * (2 : ℝ) ^ ((k : ℝ) / 12)|
          ≤ (2 : ℝ) ^ (-40 : Int) * (440 * (2 : ℝ) ^ ((k : ℝ) / 12)) := by
  obtain ⟨y, hy, hyd⟩ := exponent_near k h1 h2
  rw [hy, dbl_pow_two]
  have k1 : (-12100 : ℝ) ≤ (k : ℝ) := by exact_mod_cast h1
  have k2 : (k : ℝ) ≤ 12100 := by exact_mod_cast h2
  obtain ⟨d1, d2⟩ := abs_le.1 hyd
  have hu : (2 : ℝ) ^ (-52 : Int) = 1 / 4503599627370496 := by norm_num
  have hw : (2 : ℝ) ^ (-40 : Int) = 1 / 1099511627776 := by norm_num
  have hA : 0 < (2 : ℝ) ^ ((k : ℝ) / 12) := Real.rpow_pos_of_pos (by norm_num) _
  have hr : |(2 : ℝ) ^ (y - (k : ℝ) / 12) - 1| ≤ 1 / 2199023255552 := by
    have := two_rpow_near_one (y - (k : ℝ) / 12) (le_trans hyd (by norm_num))
    linarith
  have hyA : (2 : ℝ) ^ y = (2 : ℝ) ^ ((k : ℝ) / 12) * (2 : ℝ) ^ (y - (k : ℝ) / 12) := by
    rw [← Real.rpow_add (by norm_num : (0 : ℝ) < 2)]
    congr 1
    ring
  have c1 : (((-1010 : Int) : ℝ)) ≤ y := by push_cast; linarith
  have c2 : y ≤ (((1010 : Int) : ℝ)) := by push_cast; linarith
  have hylo : (2 : ℝ) ^ (-1010 : Int) ≤ (2 : ℝ) ^ y := by
    rw [← two_rpow_int (-1010)]
    exact Real.rpow_le_rpow_of_exponent_le (by norm_num) c1
  have hyhi : (2 : ℝ) ^ y ≤ (2 : ℝ) ^ (1010 : Int) := by
    rw [← two_rpow_int 1010]
    exact Real.rpow_le_rpow_of_exponent_le (by norm_num) c2
  have hypos : 0 < (2 : ℝ) ^ y := Real.rpow_pos_of_pos (by norm_num) _
  have z1 : (2 : ℝ) ^ (-1022 : Int) ≤ (2 : ℝ) ^ (-1010 : Int) := two_zpow_le (by decide)
  have z2 : (2 : ℝ) ^ (1010 : Int) ≤ (2 : ℝ) ^ (1023 : Int) := two_zpow_le (by decide)
  obtain ⟨p, hp, hpr⟩ := round_to_double_rel ((2 : ℝ) ^ y)
    (by rw [abs_of_pos hypos]; linarith) (by rw [abs_of_pos hypos]; linarith)
  rw [hp, dbl_mul_fin]
  rw [hu, abs_of_pos hypos] at hpr
  obtain ⟨p1, p2⟩ := abs_le.1 hpr
  have hplo : (2 : ℝ) ^ y / 2 ≤ p := by linarith
  have hphi : p ≤ (2 : ℝ) ^ y * 2 := by linarith
  have hppos : 0 < p := by linarith
  have z3 : (2 : ℝ) ^ (-1010 : Int) = 4096 * (2 : ℝ) ^ (-1022 : Int) := by
    rw [show (-1010 : Int) = 12 + (-1022) from rfl, zpow_add₀ (by norm_num : (2 : ℝ) ≠ 0)]
    norm_num
  have z4 : (2 : ℝ) ^ (1023 : Int) = 8192 * (2 : ℝ) ^ (1010 : Int) := by
    rw [show (1023 : Int) = 13 + 1010 from rfl, zpow_add₀ (by norm_num : (2 : ℝ) ≠ 0)]
    norm_num
  have hq0 := two_zpow_pos (-1022)
  have hq1 := two_zpow_pos 1010
  obtain ⟨v, hv, hvr⟩ := round_to_double_rel (440 * p)
    (by rw [abs_of_pos (by linarith)]; linarith)
    (by rw [abs_of_pos (by linarith)]; linarith)
  refine ⟨v, hv, ?_⟩
  rw [hu, abs_of_pos (by linarith : 0 < 440 * p)] at hvr
  rw [hyA] at hpr
  rw [hw]
  exact three_roundings _ _ p v hA hr hpr hvr

/-! ### The formula of `get_frequency` -/

theorem offset_of_table (letter : Char) (offset : Int)
    (h : (letter, offset) ∈
      [('c', (0 : Int)), ('d', 2), ('e', 4), ('f', 5), ('g', 7), ('a', 9), ('b', 11)]) :
    0 ≤ offset ∧ offset ≤ 11 := by
  simp only [List.mem_cons, Prod.mk.injEq, List.mem_singleton, List.not_mem_nil, or_false] at h
  rcases h with ⟨_, rfl⟩ | ⟨_, rfl⟩ | ⟨_, rfl⟩ | ⟨_, rfl⟩ | ⟨_, rfl⟩ | ⟨_, rfl⟩
    | ⟨_, rfl⟩ <;> exact ⟨by decide, by decide⟩

/-- C8 (as amended): for every letter of `c d e f g a b` with its semitone
offset `0 2 4 5 7 9 11` and every octave for which `n - 69` fits in a 32-bit
`int`, where `n = 12 * (octave + 1) + offset`, `get_frequency(letter, octave)`
is the value of `440.0 * pow(2.0, (n - 69) / 12.0)` in double arithmetic, the
division by 12 being a floating-point division; for the letter `a` in octaves
-1070 to 1019 this is exactly the real number `440 * 2 ^ ((n - 69) / 12)`, and
for every letter in octaves -1000 to 1000 it is a finite double that differs
from `440 * 2 ^ ((n - 69) / 12)` by at most `2 ^ (-40)` times that number. -/
theorem get_frequency_formula (letter : Char) (offset octave : Int)
    (hl : (letter, offset) ∈
      [('c', (0 : Int)), ('d', 2), ('e', 4), ('f', 5), ('g', 7), ('a', 9), ('b', 11)])
    (hlo : -2147483648 ≤ 12 * (octave + 1) + offset - 69)
    (hhi : 12 * (octave + 1) + offset - 69 ≤ 2147483647) :
    get_frequency letter octave
      = Dbl.mul (Dbl.fin 440) (Dbl.pow (Dbl.fin 2)
          (Dbl.div (Dbl.of_int (12 * (octave + 1) + offset - 69)) (Dbl.fin 12)))
    ∧ (letter = 'a' → -1070 ≤ octave → octave ≤ 1019 →
        get_frequency letter octave
          = Dbl.fin (440 * (2 : ℝ) ^ (((12 * (octave + 1) + offset - 69 : Int) : ℝ) / 12)))
    ∧ (-1000 ≤ octave → octave ≤ 1000 →
        ∃ v, get_frequency letter octave = Dbl.fin v
          ∧ |v - 440 * (2 : ℝ) ^ (((12 * (octave + 1) + offset - 69 : Int) : ℝ) / 12)|
              ≤ (2 : ℝ) ^ (-40 : Int)
                * (440 * (2 : ℝ) ^ (((12 * (octave + 1) + offset - 69 : Int) : ℝ) / 12))) := by
  have hs := semitone_of_table letter offset hl
  have hf : get_frequency letter octave
      = Dbl.mul (Dbl.fin 440) (Dbl.pow (Dbl.fin 2)
          (Dbl.div (Dbl.of_int (12 * (octave + 1) + offset - 69)) (Dbl.fin 12))) := by
    rw [get_frequency_of_semitone letter offset octave hs, wrap32_of_range _ hlo hhi]
  refine ⟨hf, fun ha h1 h2 => ?_, fun h1 h2 => ?_⟩
  · subst ha
    have h9 : offset = 9 := by
      have : semitone 'a' = some 9 := rfl
      rw [this] at hs
      exact (Option.some.inj hs).symm
    subst h9
    rw [get_frequency_a_exact octave h1 h2]
    have e : (((12 * (octave + 1) + 9 - 69 : Int) : ℝ) / 12) = ((octave - 4 : Int) : ℝ) := by
      push_cast; ring
    rw [e, two_rpow_int]
  · obtain ⟨o1, o2⟩ := offset_of_table letter offset hl
    rw [hf]
    exact frequency_near _ (by omega) (by omega)

/-- Witness of C8: C4 has note number 60 and A4 has note number 69; the
frequency of C4 is `440.0 * pow(2.0, -9 / 12.0)`, at most 330, within
`2 ^ (-40)` of `440 * 2 ^ (-9 / 12)` in relative terms, and not the 440 an
integer division of `-9` by 12 would give; the frequency of A4 is 440. -/
theorem get_frequency_formula_witness :
    (('c', (0 : Int)) ∈
      [('c', (0 : Int)), ('d', 2), ('e', 4), ('f', 5), ('g', 7), ('a', 9), ('b', 11)])
    ∧ 12 * ((4 : Int) + 1) + 0 = 60 ∧ 12 * ((4 : Int) + 1) + 9 = 69
    ∧ get_frequency 'c' 4
        = Dbl.mul (Dbl.fin 440) (Dbl.pow (Dbl.fin 2)
            (Dbl.div (Dbl.of_int (12 * (4 + 1) + 0 - 69)) (Dbl.fin 12)))
    ∧ (∃ v, get_frequency 'c' 4 = Dbl.fin v
        ∧ |v - 440 * (2 : ℝ) ^ (((12 * (4 + 1) + 0 - 69 : Int) : ℝ) / 12)|
            ≤ (2 : ℝ) ^ (-40 : Int)
              * (440 * (2 : ℝ) ^ (((12 * (4 + 1) + 0 - 69 : Int) : ℝ) / 12)))
    ∧ Int.tdiv (60 - 69) 12 = 0
    ∧ get_frequency 'c' 4 ≠ Dbl.fin 440
    ∧ get_frequency 'a' 4 = Dbl.fin 440 := by
  have h := get_frequency_formula 'c' 0 4 (by simp) (by decide) (by decide)
  refine ⟨by simp, by decide, by decide, h.1, h.2.2 (by decide) (by decide), by decide, ?_,
    get_frequency_a4⟩
  obtain ⟨v, hv, hv1⟩ := get_frequency_c4_le
  rw [hv]
  intro he
  have : v = 440 := Dbl.fin.inj he
  linarith

/-- Counterexample to C8 as stated: for the letter `b` in octave 178956975 the
value `n - 69 = 2147483654` does not fit in an `int`; the code takes the
exponent from `-2147483642`, `pow` underflows and the result is 0.0, not
`440 * 2 ^ ((n - 69) / 12)`.  Within the range of `int`, the letter `a` gives
0.0 in octave -1072 and `+inf` in octave 1020, neither of which is the real
number `440 * 2 ^ ((n - 69) / 12)`. -/
theorem get_frequency_formula_overflow :
    get_frequency 'b' 178956975 = Dbl.fin 0
    ∧ get_frequency 'b' 178956975
        ≠ Dbl.fin (440 * (2 : ℝ) ^ (((12 * (178956975 + 1) + 11 - 69 : Int) : ℝ) / 12))
    ∧ get_frequency 'a' (-1072) = Dbl.fin 0
    ∧ get_frequency 'a' (-1072)
        ≠ Dbl.fin (440 * (2 : ℝ) ^ (((12 * (-1072 + 1) + 9 - 69 : Int) : ℝ) / 12))
    ∧ get_frequency 'a' 1020 = Dbl.inf false
    ∧ get_frequency 'a' 1020
        ≠ Dbl.fin (440 * (2 : ℝ) ^ (((12 * (1020 + 1) + 9 - 69 : Int) : ℝ) / 12)) := by
  refine ⟨get_frequency_b_wrapped, ?_, get_frequency_a_underflow, ?_, get_frequency_a_overflow,
    ?_⟩
  · rw [get_frequency_b_wrapped]
    intro he
    have h0 := Dbl.fin.inj he
    have hp : (0 : ℝ) < (2 : ℝ) ^ (((12 * (178956975 + 1) + 11 - 69 : Int) : ℝ) / 12) :=
      Real.rpow_pos_of_pos (by norm_num) _
    linarith
  · rw [get_frequency_a_underflow]
    intro he
    have h0 := Dbl.fin.inj he
    have hp : (0 : ℝ) < (2 : ℝ) ^ (((12 * (-1072 + 1) + 9 - 69 : Int) : ℝ) / 12) :=
      Real.rpow_pos_of_pos (by norm_num) _
    linarith
  · rw [get_frequency_a_overflow]
    intro he
    exact Dbl.noConfusion he

/-! ### Octave shift -/

theorem calls_shift_a :
    (parse_and_generate (">a").toList).calls = [(get_frequency 'a' 5, 300)]
    ∧ (parse_and_generate ("<a").toList).calls = [(get_frequency 'a' 3, 300)]
    ∧ (parse_and_generate ("<<a").toList).calls = [(get_frequency 'a' 2, 300)] := by
  have ha : is_note 'a' := by decide
  refine ⟨?_, ?_, ?_⟩
  · show (parse_step (parse_step _ '>') 'a').calls = _
    rw [parse_step_up, parse_step_note _ ha]
    rfl
  · show (parse_step (parse_step _ '<') 'a').calls = _
    rw [parse_step_down, parse_step_note _ ha]
    rfl
  · show (parse_step (parse_step (parse_step _ '<') '<') 'a').calls = _
    rw [parse_step_down, parse_step_down, parse_step_note _ ha]
    rfl

theorem doubling_near (T F v w : ℝ) (hT : 0 < T)
    (hF : |F - T| ≤ 1 / 1099511627776 * T)
    (hv : |v - 2 * T| ≤ 1 / 1099511627776 * (2 * T))
    (hw : |w - 2 * F| ≤ 1 / 4503599627370496 * (2 * F)) :
    0 < w ∧ |v - w| ≤ 1 / 274877906944 * w := by
  obtain ⟨f1, f2⟩ := abs_le.1 hF
  obtain ⟨v1, v2⟩ := abs_le.1 hv
  obtain ⟨w1, w2⟩ := abs_le.1 hw
  refine ⟨by linarith, ?_⟩
  rw [abs_le]
  constructor <;> linarith

theorem get_frequency_shift_near (letter : Char) (o : Int) (hn : 'a' ≤ letter ∧ letter ≤ 'g')
    (h1 : -1000 ≤ o) (h2 : o ≤ 999) :
    ∃ v w, get_frequency letter (o + 1) = Dbl.fin v
      ∧ Dbl.mul (Dbl.fin 2) (get_frequency letter o) = Dbl.fin w
      ∧ 0 < w ∧ |v - w| ≤ (2 : ℝ) ^ (-38 : Int) * w := by
  obtain ⟨n, hs, hn0, hn11⟩ := semitone_of_range letter hn
  rw [get_frequency_of_semitone letter n (o + 1) hs, get_frequency_of_semitone letter n o hs,
    wrap32_of_range _ (by omega) (by omega), wrap32_of_range _ (by omega) (by omega)]
  obtain ⟨F, hF, hFr⟩ := frequency_near (12 * (o + 1) + n - 69) (by omega) (by omega)
  obtain ⟨v, hv, hvr⟩ := frequency_near (12 * (o + 1 + 1) + n - 69) (by omega) (by omega)
  rw [hF, hv, dbl_mul_fin]
  have hc : (2 : ℝ) ^ (-40 : Int) = 1 / 1099511627776 := by norm_num
  have hu : (2 : ℝ) ^ (-52 : Int) = 1 / 4503599627370496 := by norm_num
  have hw38 : (2 : ℝ) ^ (-38 : Int) = 1 / 274877906944 := by norm_num
  rw [hc] at hFr hvr
  have hA : 0 < (2 : ℝ) ^ (((12 * (o + 1) + n - 69 : Int) : ℝ) / 12) :=
    Real.rpow_pos_of_pos (by norm_num) _
  have e2 : (2 : ℝ) ^ (((12 * (o + 1 + 1) + n - 69 : Int) : ℝ) / 12)
      = (2 : ℝ) ^ (((12 * (o + 1) + n - 69 : Int) : ℝ) / 12) * 2 := by
    have : (((12 * (o + 1 + 1) + n - 69 : Int) : ℝ) / 12)
        = (((12 * (o + 1) + n - 69 : Int) : ℝ) / 12) + 1 := by
      push_cast; ring
    rw [this, Real.rpow_add (by norm_num : (0 : ℝ) < 2), Real.rpow_one]
  rw [e2] at hvr
  have k1 : (((-1010 : Int) : ℝ)) ≤ (((12 * (o + 1) + n - 69 : Int) : ℝ) / 12) := by
    have : (-12100 : Int) ≤ 12 * (o + 1) + n - 69 := by omega
    have : ((-12100 : Int) : ℝ) ≤ ((12 * (o + 1) + n - 69 : Int) : ℝ) := by exact_mod_cast this
    rw [le_div_iff₀ (by norm_num)]
    push_cast at this ⊢
    linarith
  have k2 : (((12 * (o + 1) + n - 69 : Int) : ℝ) / 12) ≤ (((1010 : Int) : ℝ)) := by
    have : 12 * (o + 1) + n - 69 ≤ (12100 : Int) := by omega
    have : ((12 * (o + 1) + n - 69 : Int) : ℝ) ≤ ((12100 : Int) : ℝ) := by exact_mod_cast this
    rw [div_le_iff₀ (by norm_num)]
    push_cast at this ⊢
    linarith
  have hAlo : (2 : ℝ) ^ (-1010 : Int)
      ≤ (2 : ℝ) ^ (((12 * (o + 1) + n - 69 : Int) : ℝ) / 12) := by
    rw [← two_rpow_int (-1010)]
    exact Real.rpow_le_rpow_of_exponent_le (by norm_num) k1
  have hAhi : (2 : ℝ) ^ (((12 * (o + 1) + n - 69 : Int) : ℝ) / 12)
      ≤ (2 : ℝ) ^ (1010 : Int) := by
    rw [← two_rpow_int 1010]
    exact Real.rpow_le_rpow_of_exponent_le (by norm_num) k2
  have z3 : (2 : ℝ) ^ (-1010 : Int) = 4096 * (2 : ℝ) ^ (-1022 : Int) := by
    rw [show (-1010 : Int) = 12 + (-1022) from rfl, zpow_add₀ (by norm_num : (2 : ℝ) ≠ 0)]
    norm_num
  have z4 : (2 : ℝ) ^ (1023 : Int) = 8192 * (2 : ℝ) ^ (1010 : Int) := by
    rw [show (1023 : Int) = 13 + 1010 from rfl, zpow_add₀ (by norm_num : (2 : ℝ) ≠ 0)]
    norm_num
  have hq0 := two_zpow_pos (-1022)
  have hq1 := two_zpow_pos 1010
  obtain ⟨f1, f2⟩ := abs_le.1 hFr
  have hFpos : 0 < F := by linarith
  rw [z3] at hAlo
  have hAhi2 : 8192 * (2 : ℝ) ^ (((12 * (o + 1) + n - 69 : Int) : ℝ) / 12)
      ≤ (2 : ℝ) ^ (1023 : Int) := by
    rw [z4]; linarith
  have hFlo : (2 : ℝ) ^ (-1022 : Int) ≤ 2 * F := by
    generalize (2 : ℝ) ^ (-1022 : Int) = q at hq0 hAlo ⊢
    linarith
  have hFhi : 2 * F ≤ (2 : ℝ) ^ (1023 : Int) := by
    generalize (2 : ℝ) ^ (1023 : Int) = q at hAhi2 ⊢
    linarith
  obtain ⟨w, hw, hwr⟩ := round_to_double_rel (2 * F)
    (by rw [abs_of_pos (by linarith)]; exact hFlo)
    (by rw [abs_of_pos (by linarith)]; exact hFhi)
  rw [hu, abs_of_pos (by linarith : 0 < 2 * F)] at hwr
  refine ⟨v, w, rfl, hw, ?_⟩
  rw [hw38]
  have hv2 : |v - 2 * (440 * (2 : ℝ) ^ (((12 * (o + 1) + n - 69 : Int) : ℝ) / 12))|
      ≤ 1 / 1099511627776
        * (2 * (440 * (2 : ℝ) ^ (((12 * (o + 1) + n - 69 : Int) : ℝ) / 12))) := by
    have e : 440 * ((2 : ℝ) ^ (((12 * (o + 1) + n - 69 : Int) : ℝ) / 12) * 2)
        = 2 * (440 * (2 : ℝ) ^ (((12 * (o + 1) + n - 69 : Int) : ℝ) / 12)) := by ring
    rw [e] at hvr
    exact hvr
  exact doubling_near _ F v w (by linarith) hFr hv2 hwr

/-- C9 (as amended): `get_frequency('a', 4)` is exactly 440; for the letter `a`
and every octave `o` with `-1070 ≤ o ≤ 1018`, the octaves in which both values
are finite, `get_frequency('a', o + 1)` is exactly twice
`get_frequency('a', o)`; for every letter in `a`..`g` and every octave `o` with
`-1000 ≤ o ≤ 999`, `get_frequency(letter, o + 1)` and
`2 * get_frequency(letter, o)` are finite positive doubles that differ by at
most `2 ^ (-38)` times their value; and the bodies `>a`, `<a`, `<<a` make
`parse_and_generate` render one tone of 880 Hz, 220 Hz and 110 Hz. -/
theorem get_frequency_octave_shift :
    get_frequency 'a' 4 = Dbl.fin 440
    ∧ (∀ o : Int, -1070 ≤ o → o ≤ 1018 →
        get_frequency 'a' (o + 1) = Dbl.mul (Dbl.fin 2) (get_frequency 'a' o))
    ∧ (∀ (letter : Char) (o : Int), 'a' ≤ letter ∧ letter ≤ 'g' → -1000 ≤ o → o ≤ 999 →
        ∃ v w, get_frequency letter (o + 1) = Dbl.fin v
          ∧ Dbl.mul (Dbl.fin 2) (get_frequency letter o) = Dbl.fin w
          ∧ 0 < w ∧ |v - w| ≤ (2 : ℝ) ^ (-38 : Int) * w)
    ∧ (parse_and_generate (">a").toList).calls = [(Dbl.fin 880, 300)]
    ∧ (parse_and_generate ("<a").toList).calls = [(Dbl.fin 220, 300)]
    ∧ (parse_and_generate ("<<a").toList).calls = [(Dbl.fin 110, 300)] := by
  obtain ⟨c1, c2, c3⟩ := calls_shift_a
  obtain ⟨v1, v2, v3⟩ := get_frequency_a_values
  rw [v1] at c1; rw [v2] at c2; rw [v3] at c3
  exact ⟨get_frequency_a4, get_frequency_a_succ, get_frequency_shift_near, c1, c2, c3⟩

/-- Witness of C9: from octave 4 to octave 5 the frequency of `a` doubles from
440 to 880, and the frequency of `e` in octave 3 is twice that of octave 2 up
to a relative error of `2 ^ (-38)`. -/
theorem get_frequency_octave_shift_witness :
    (-1070 : Int) ≤ 4 ∧ (4 : Int) ≤ 1018
    ∧ get_frequency 'a' (4 + 1) = Dbl.mul (Dbl.fin 2) (get_frequency 'a' 4)
    ∧ get_frequency 'a' (4 + 1) = Dbl.fin 880
    ∧ ('a' ≤ 'e' ∧ 'e' ≤ 'g') ∧ (-1000 : Int) ≤ 2 ∧ (2 : Int) ≤ 999
    ∧ (∃ v w, get_frequency 'e' (2 + 1) = Dbl.fin v
        ∧ Dbl.mul (Dbl.fin 2) (get_frequency 'e' 2) = Dbl.fin w
        ∧ 0 < w ∧ |v - w| ≤ (2 : ℝ) ^ (-38 : Int) * w) :=
  ⟨by decide, by decide, get_frequency_octave_shift.2.1 4 (by decide) (by decide),
    get_frequency_a_values.1, by decide, by decide, by decide,
    get_frequency_octave_shift.2.2.1 'e' 2 (by decide) (by decide) (by decide)⟩

/-- Counterexample to C9 as stated: in octave -1070 the letter `a` has the
frequency `440 * 2 ^ (-1074)`, a multiple of the smallest positive double; in
octave -1071 `pow` returns 0 or that smallest double, and twice the frequency
of octave -1071 is 0 or `880 * 2 ^ (-1074)`, in either case not the frequency
of octave -1070. -/
theorem get_frequency_octave_shift_underflow :
    get_frequency 'a' (-1071 + 1) = Dbl.fin (440 * (2 : ℝ) ^ (-1074 : Int))
    ∧ get_frequency 'a' (-1071 + 1) ≠ Dbl.mul (Dbl.fin 2) (get_frequency 'a' (-1071)) := by
  have h70 : get_frequency 'a' (-1071 + 1) = Dbl.fin (440 * (2 : ℝ) ^ (-1074 : Int)) := by
    rw [show (-1071 + 1 : Int) = -1070 from rfl,
      get_frequency_a_exact (-1070) (by decide) (by decide),
      show (-1070 - 4 : Int) = -1074 from rfl]
  refine ⟨h70, ?_⟩
  rw [h70, get_frequency_of_semitone 'a' 9 (-1071) rfl]
  have e1 : wrap32 (12 * (-1071 + 1) + 9 - 69) = -12900 := by decide
  have e2 : (((-12900 : Int) : ℝ)) / 12 = ((-1075 : Int) : ℝ) := by norm_num
  have hpos := two_zpow_pos (-1075)
  have hpos4 := two_zpow_pos (-1074)
  have d1 : is_double ((2 : ℝ) ^ (-1074 : Int)) := by
    simpa using is_double_mk 1 (-1074) (by decide) (by decide) (by decide)
  rw [e1, Dbl.of_int, dbl_div_fin _ _ (by norm_num), e2,
    round_to_double_of_double _ (is_double_int _ (by decide)), dbl_pow_two, two_rpow_int]
  obtain ⟨p, hp, hp0, hp1⟩ := round_to_double_bounds 0 ((2 : ℝ) ^ (-1074 : Int))
    ((2 : ℝ) ^ (-1075 : Int)) is_double_zero d1 (le_of_lt hpos)
    (by rw [two_zpow_1074]; linarith)
  have hpd : is_double p := by
    have h1 := round_to_double_of_lt ((2 : ℝ) ^ (-1075 : Int)) (by
      rw [abs_of_pos hpos]
      have := is_double_abs_lt_threshold _ d1
      rw [abs_of_pos hpos4, two_zpow_1074] at this
      linarith)
    rw [h1] at hp
    rw [← Dbl.fin.inj hp]
    exact (nearest_double_spec _).1
  rw [hp, dbl_mul_fin]
  by_cases hz : p = 0
  · rw [hz, mul_zero, round_to_double_zero, dbl_mul_fin, mul_zero, round_to_double_zero]
    intro he
    have := Dbl.fin.inj he
    linarith
  · have hp2 : (2 : ℝ) ^ (-1074 : Int) ≤ p :=
      is_double_pos_ge p hpd (lt_of_le_of_ne hp0 (Ne.symm hz))
    have hpe : p = (2 : ℝ) ^ (-1074 : Int) := le_antisymm hp1 hp2
    have d2 : is_double (440 * (2 : ℝ) ^ (-1074 : Int)) := by
      simpa using is_double_mk 440 (-1074) (by decide) (by decide) (by decide)
    have d3 : is_double (2 * (440 * (2 : ℝ) ^ (-1074 : Int))) := by
      have := is_double_mk 880 (-1074) (by decide) (by decide) (by decide)
      have e : ((880 : Int) : ℝ) * (2 : ℝ) ^ (-1074 : Int)
          = 2 * (440 * (2 : ℝ) ^ (-1074 : Int)) := by push_cast; ring
      rw [e] at this; exact this
    rw [hpe, round_to_double_of_double _ d2, dbl_mul_fin, round_to_double_of_double _ d3]
    intro he
    have := Dbl.fin.inj he
    linarith

/-! ### Zero and positive frequencies -/

/-- C10 (as amended): `get_frequency` returns exactly 0 for the pause letter `p`
and for every character outside `a`..`g`, whatever the octave; for every letter
in `a`..`g` and every octave from -1070 to 178956974 it returns a value that is
strictly positive (a positive double or `+inf`), so in these octaves the
frequency is 0 only for a rest or an unknown letter.  Below octave -1070 `pow`
underflows, and above 178956974 the note number leaves the range of `int`. -/
theorem get_frequency_zero_iff (note : Char) (octave : Int) :
    get_frequency 'p' octave = Dbl.fin 0
    ∧ (¬ ('a' ≤ note ∧ note ≤ 'g') → get_frequency note octave = Dbl.fin 0)
    ∧ (('a' ≤ note ∧ note ≤ 'g') → -1070 ≤ octave → octave ≤ 178956974 →
        (get_frequency note octave).is_positive)
    ∧ (-1070 ≤ octave → octave ≤ 178956974 →
        (get_frequency note octave = Dbl.fin 0 ↔ ¬ ('a' ≤ note ∧ note ≤ 'g'))) := by
  have hzero : ¬ ('a' ≤ note ∧ note ≤ 'g') → get_frequency note octave = Dbl.fin 0 := fun h =>
    get_frequency_of_none note octave (semitone_of_not_range note h)
  refine ⟨get_frequency_of_none 'p' octave rfl, hzero,
    fun hn h1 h2 => get_frequency_positive note octave hn h1 h2, fun h1 h2 => ⟨?_, hzero⟩⟩
  intro h0 hr
  have hp := get_frequency_positive note octave hr h1 h2
  rw [h0] at hp
  simp [Dbl.is_positive] at hp

/-- Witness of C10: `g` in octave -3 sounds, the upper-case `G` and the digit
`7` are silent. -/
theorem get_frequency_zero_iff_witness :
    ('a' ≤ 'g' ∧ 'g' ≤ 'g') ∧ (-1070 : Int) ≤ -3 ∧ (-3 : Int) ≤ 178956974
    ∧ (get_frequency 'g' (-3)).is_positive
    ∧ ¬ ('a' ≤ 'G' ∧ 'G' ≤ 'g') ∧ get_frequency 'G' 4 = Dbl.fin 0
    ∧ get_frequency '7' 4 = Dbl.fin 0 :=
  ⟨by decide, by decide, by decide,
    (get_frequency_zero_iff 'g' (-3)).2.2.1 (by decide) (by decide) (by decide), by decide,
    (get_frequency_zero_iff 'G' 4).2.1 (by decide),
    (get_frequency_zero_iff '7' 4).2.1 (by decide)⟩

/-- Counterexample to C10 as stated: for the letter `a` in octave -1072 `pow`
underflows and `get_frequency` returns exactly 0.0; the body of 1076 `<`
followed by `a` reaches this octave and is rendered with frequency 0, as
silence. -/
theorem get_frequency_underflow :
    ('a' ≤ 'a' ∧ 'a' ≤ 'g')
    ∧ get_frequency 'a' (-1072) = Dbl.fin 0
    ∧ ¬ (get_frequency 'a' (-1072)).is_positive
    ∧ (parse_and_generate (List.replicate 1076 '<' ++ ['a'])).calls = [(Dbl.fin 0, 300)] := by
  refine ⟨by decide, get_frequency_a_underflow, ?_, calls_deep_a⟩
  rw [get_frequency_a_underflow]
  simp [Dbl.is_positive]

/-! ## Rests -/

theorem short_of_double_zero : short_of_double (Dbl.fin 0) = 0 := by
  simp [short_of_double, trunc_toward_zero, wrap16]

theorem sample_at_zero_freq (i : Nat) : sample_at (Dbl.fin 0) i = Dbl.fin 0 := by
  simp [sample_at, Dbl.is_zero]

theorem flatten_map_const (n : Nat) (bs : List Nat) :
    ((List.range n).map (fun _ => bs)).flatten = (List.replicate n bs).flatten := by
  induction n with
  | zero => rfl
  | succ n ih =>
    rw [List.range_succ, List.map_append, List.flatten_append, ih]
    simp [List.replicate_succ']

theorem generate_sine_wave_zero (duration_ms : Int) :
    generate_sine_wave (Dbl.fin 0) duration_ms
      = List.replicate (2 * (num_samples duration_ms).toNat) 0 := by
  unfold generate_sine_wave
  simp only [sample_at_zero_freq, short_of_double_zero]
  rw [flatten_map_const]
  generalize (num_samples duration_ms).toNat = n
  induction n with
  | zero => rfl
  | succ n ih =>
    rw [List.replicate_succ, List.flatten_cons, ih]
    have : 2 * (n + 1) = 2 * n + 1 + 1 := by ring
    rw [this, List.replicate_succ, List.replicate_succ]
    simp [le_bytes]

/-- C11: for every duration, `generate_sine_wave` with frequency 0 emits only
zero bytes, two for each of its samples; the letter `p` appends 13230 zero
samples whatever the state (and so the octave) it is met in, and the body `p`
yields exactly 13230 samples, all zero. -/
theorem rest_silence :
    (∀ duration_ms : Int, generate_sine_wave (Dbl.fin 0) duration_ms
        = List.replicate (2 * (num_samples duration_ms).toNat) 0)
    ∧ (∀ s : GenState, (parse_step s 'p').fout = s.fout ++ List.replicate (2 * 13230) 0)
    ∧ (parse_and_generate ("p").toList).fout = List.replicate (2 * 13230) 0
    ∧ (parse_and_generate ("p").toList).total_samples = 13230 := by
  have hp : is_note 'p' := by decide
  have hz : ∀ o, get_frequency 'p' o = Dbl.fin 0 := fun o => get_frequency_of_none 'p' o rfl
  have hstep : ∀ s : GenState,
      (parse_step s 'p').fout = s.fout ++ List.replicate (2 * 13230) 0 := by
    intro s
    rw [parse_step_note s hp, hz, generate_sine_wave_zero, num_samples_duration]
    rfl
  refine ⟨generate_sine_wave_zero, hstep, ?_, ?_⟩
  · show (parse_step _ 'p').fout = _
    rw [hstep]; rfl
  · show (parse_step _ 'p').total_samples = _
    rw [parse_step_note _ hp]; decide

/-! ## Samples of a tone -/

theorem field_flatten_block (m : Nat) (L : List (List Nat)) (hL : ∀ l ∈ L, l.length = m)
    (k : Nat) (l : List Nat) (hk : L[k]? = some l) : field L.flatten (m * k) m = l := by
  induction L generalizing k with
  | nil => simp at hk
  | cons a L ih =>
    have ha : a.length = m := hL a (List.mem_cons_self _ _)
    cases k with
    | zero =>
      simp only [List.getElem?_cons_zero, Option.some.injEq] at hk
      subst hk
      simp only [field, List.flatten_cons, Nat.mul_zero, List.drop_zero]
      exact List.take_left' ha
    | succ k =>
      simp only [List.getElem?_cons_succ] at hk
      have := ih (fun l hl => hL l (List.mem_cons_of_mem _ hl)) k hk
      simp only [field, List.flatten_cons] at this ⊢
      have e : m * (k + 1) = a.length + m * k := by rw [ha]; ring
      rw [e, List.drop_append, this]

theorem generate_sine_wave_sample (freq : Dbl) (duration_ms : Int) (i : Nat)
    (hi : i < (num_samples duration_ms).toNat) :
    field (generate_sine_wave freq duration_ms) (2 * i) 2
      = le_bytes 2 (short_of_double (sample_at freq i)) := by
  unfold generate_sine_wave
  apply field_flatten_block
  · intro l hl
    obtain ⟨j, _, rfl⟩ := List.mem_map.1 hl
    exact le_bytes_length 2 _
  · simp [List.getElem?_map, List.getElem?_range hi]

theorem trunc_toward_zero_bounds (x : ℝ) (b : Int) (hb : 0 ≤ b) (hlo : -(b : ℝ) ≤ x)
    (hhi : x ≤ (b : ℝ)) : -b ≤ trunc_toward_zero x ∧ trunc_toward_zero x ≤ b := by
  unfold trunc_toward_zero
  split
  · rename_i h0
    refine ⟨?_, ?_⟩
    · have : 0 ≤ ⌊x⌋ := Int.floor_nonneg.2 h0
      omega
    · have : (⌊x⌋ : ℝ) ≤ b := le_trans (Int.floor_le x) hhi
      exact_mod_cast this
  · rename_i h0
    push_neg at h0
    refine ⟨?_, ?_⟩
    · have : ((-b : Int) : ℝ) ≤ ⌈x⌉ := by
        push_cast; exact le_trans hlo (Int.le_ceil x)
      exact_mod_cast this
    · have : ⌈x⌉ ≤ 0 := Int.ceil_le.2 (by exact_mod_cast le_of_lt h0)
      omega

theorem short_of_double_eq_trunc (x : ℝ) (hlo : -30000 ≤ x) (hhi : x ≤ 30000) :
    short_of_double (Dbl.fin x) = trunc_toward_zero x := by
  have h := trunc_toward_zero_bounds x 30000 (by decide) (by push_cast; linarith)
    (by push_cast; linarith)
  simp only [short_of_double]
  rw [if_pos ⟨by omega, by omega⟩]
  unfold wrap16; omega

theorem round_to_double_abs_bounds (b x : ℝ) (hb : is_double b) (h : |x| ≤ b) :
    ∃ v, round_to_double x = Dbl.fin v ∧ |v| ≤ b := by
  obtain ⟨h1, h2⟩ := abs_le.1 h
  obtain ⟨v, hv, hv1, hv2⟩ := round_to_double_bounds (-b) b x (is_double_neg b hb) hb h1 h2
  exact ⟨v, hv, abs_le.2 ⟨hv1, hv2⟩⟩

theorem dbl_sin_fin (x : ℝ) : ∃ s, Dbl.sin (Dbl.fin x) = Dbl.fin s ∧ |s| ≤ 1 := by
  have h := round_to_double_abs_bounds 1 (Real.sin x)
    (by simpa using is_double_int 1 (by decide)) (abs_le.2 ⟨Real.neg_one_le_sin x, Real.sin_le_one x⟩)
  exact h

theorem dbl_mul_amplitude (s : ℝ) (hs : |s| ≤ 1) :
    ∃ v, Dbl.mul (Dbl.of_int AMPLITUDE) (Dbl.fin s) = Dbl.fin v ∧ |v| ≤ 30000 := by
  have h := round_to_double_abs_bounds 30000 (((AMPLITUDE : Int) : ℝ) * s)
    (by simpa using is_double_int 30000 (by decide))
    (by
      simp only [AMPLITUDE]
      rw [abs_mul]
      have : |(((30000 : Int) : ℝ))| = 30000 := by norm_num
      rw [this]; nlinarith [abs_nonneg s])
  exact h

/-- The sample is NaN or a finite value of magnitude at most 30000, and it is
the latter whenever the sine argument is finite. -/
theorem sample_at_cases (freq : Dbl) (i : Nat) :
    (sample_at freq i = Dbl.nan ∨ ∃ v, sample_at freq i = Dbl.fin v ∧ |v| ≤ 30000)
    ∧ (∀ x, Dbl.mul (Dbl.mul (Dbl.mul (Dbl.of_int 2) PI) freq)
          (Dbl.div (Dbl.of_int (i : Int)) (Dbl.of_int SAMPLE_RATE)) = Dbl.fin x →
        ∃ v, sample_at freq i = Dbl.fin v ∧ |v| ≤ 30000) := by
  unfold sample_at
  cases hz : freq.is_zero with
  | true =>
    simp only [if_true]
    exact ⟨Or.inr ⟨0, rfl, by norm_num⟩, fun _ _ => ⟨0, rfl, by norm_num⟩⟩
  | false =>
    simp only [Bool.false_eq_true, if_false]
    generalize Dbl.mul (Dbl.mul (Dbl.mul (Dbl.of_int 2) PI) freq)
      (Dbl.div (Dbl.of_int (i : Int)) (Dbl.of_int SAMPLE_RATE)) = arg
    cases arg with
    | fin x =>
      obtain ⟨s, hs, hs1⟩ := dbl_sin_fin x
      obtain ⟨v, hv, hv1⟩ := dbl_mul_amplitude s hs1
      rw [hs, hv]
      exact ⟨Or.inr ⟨v, rfl, hv1⟩, fun _ _ => ⟨v, rfl, hv1⟩⟩
    | inf negative =>
      refine ⟨Or.inl rfl, fun x hx => by simp at hx⟩
    | nan =>
      refine ⟨Or.inl rfl, fun x hx => by simp at hx⟩

theorem short_of_double_abs_le (d : Dbl)
    (h : d = Dbl.nan ∨ ∃ v, d = Dbl.fin v ∧ |v| ≤ 30000) : |short_of_double d| ≤ 30000 := by
  rcases h with h | ⟨v, hv, hv1⟩
  · rw [h]; simp [short_of_double]
  · obtain ⟨h1, h2⟩ := abs_le.1 hv1
    rw [hv, short_of_double_eq_trunc v h1 h2]
    have t := trunc_toward_zero_bounds v 30000 (by decide) (by push_cast; linarith)
      (by push_cast; linarith)
    rw [abs_le]; omega

theorem num_samples_of_small (d : Int) (h0 : 0 < d) (h1 : d ≤ 48695) :
    num_samples d = 44100 * d / 1000 := by
  have e1 : c_mul SAMPLE_RATE d = 44100 * d := wrap32_of_range _ (by
    simp only [SAMPLE_RATE]; omega) (by simp only [SAMPLE_RATE]; omega)
  have e2 : Int.tdiv (44100 * d) 1000 = 44100 * d / 1000 :=
    Int.tdiv_eq_ediv (by omega) (by decide)
  unfold num_samples c_div
  rw [e1, e2]
  exact wrap32_of_range _ (by omega) (by omega)

theorem generate_sine_wave_length_gen (freq : Dbl) (d : Int) :
    (generate_sine_wave freq d).length = 2 * (num_samples d).toNat := by
  unfold generate_sine_wave
  exact flatten_pairs_length _ (fun i => le_bytes_length 2 _) _

/-! ## Sample count -/

/-- C13 (as amended): for every duration with `0 < duration_ms ≤ 48695`, the
range in which `SAMPLE_RATE * duration_ms` fits in a 32-bit `int`,
`generate_sine_wave` appends exactly `⌊44100 * duration_ms / 1000⌋` samples of
two bytes each. -/
theorem generate_sine_wave_count (freq : Dbl) (duration_ms : Int) (h0 : 0 < duration_ms)
    (h1 : duration_ms ≤ 48695) :
    num_samples duration_ms = 44100 * duration_ms / 1000
    ∧ (generate_sine_wave freq duration_ms).length
        = 2 * (44100 * duration_ms / 1000).toNat := by
  have h := num_samples_of_small duration_ms h0 h1
  refine ⟨h, ?_⟩
  rw [generate_sine_wave_length_gen, h]

/-- Witness of C13: a duration of 300 ms gives 13230 samples. -/
theorem generate_sine_wave_count_witness :
    (0 : Int) < 300 ∧ (300 : Int) ≤ 48695 ∧ num_samples 300 = 13230
    ∧ (generate_sine_wave (Dbl.fin 440) 300).length = 2 * 13230 := by
  have h := generate_sine_wave_count (Dbl.fin 440) 300 (by decide) (by decide)
  have e : (44100 * 300 / 1000 : Int) = 13230 := by decide
  rw [e] at h
  exact ⟨by decide, by decide, h.1, h.2⟩

/-- Counterexample to C13 as stated: for a duration of 48696 ms the product
`44100 * 48696` does not fit in an `int`; the sample count is computed as
`-2147473`, the loop does not run, and no sample is appended, while
`⌊44100 * 48696 / 1000⌋ = 2147493`. -/
theorem generate_sine_wave_count_overflow :
    num_samples 48696 = -2147473
    ∧ (∀ freq : Dbl, (generate_sine_wave freq 48696).length = 0)
    ∧ (44100 * 48696 / 1000 : Int) = 2147493 := by
  have h : num_samples 48696 = -2147473 := by decide
  refine ⟨h, fun freq => ?_, by decide⟩
  rw [generate_sine_wave_length_gen, h]
  rfl

/-! ## The value of a sample -/

/-! ### Sample 3 of the body `a` -/

theorem PI_bounds : ∃ p, PI = Dbl.fin p
    ∧ ((1727108824205 : Int) : ℝ) * (2 : ℝ) ^ (-39 : Int) ≤ p
    ∧ p ≤ ((3454217648411 : Int) : ℝ) * (2 : ℝ) ^ (-40 : Int) :=
  round_to_double_bounds _ _ 3.14159265
    (is_double_mk 1727108824205 (-39) (by decide) (by decide) (by decide))
    (is_double_mk 3454217648411 (-40) (by decide) (by decide) (by decide))
    (by norm_num) (by norm_num)

theorem two_PI_bounds : ∃ c, Dbl.mul (Dbl.of_int 2) PI = Dbl.fin c
    ∧ ((1727108824205 : Int) : ℝ) * (2 : ℝ) ^ (-38 : Int) ≤ c
    ∧ c ≤ ((3454217648411 : Int) : ℝ) * (2 : ℝ) ^ (-39 : Int) := by
  obtain ⟨p, hp, hp1, hp2⟩ := PI_bounds
  rw [hp, Dbl.of_int, dbl_mul_fin]
  apply round_to_double_bounds _ _ _
    (is_double_mk 1727108824205 (-38) (by decide) (by decide) (by decide))
    (is_double_mk 3454217648411 (-39) (by decide) (by decide) (by decide))
  · norm_num at hp1 ⊢; linarith
  · norm_num at hp2 ⊢; linarith

theorem two_PI_coarse : ∃ c, Dbl.mul (Dbl.of_int 2) PI = Dbl.fin c ∧ 6 ≤ c ∧ c ≤ 8 := by
  obtain ⟨c, hc, h1, h2⟩ := two_PI_bounds
  refine ⟨c, hc, ?_, ?_⟩
  · norm_num at h1; linarith
  · norm_num at h2; linarith

theorem sin_small_bounds (θ a b : ℝ) (ha : 0 ≤ a) (haθ : a ≤ θ) (hθb : θ ≤ b) (hb : b ≤ 1) :
    a - b ^ 3 / 6 - b ^ 4 * (5 / 96) ≤ Real.sin θ
    ∧ Real.sin θ ≤ b - a ^ 3 / 6 + b ^ 4 * (5 / 96) := by
  have hθ0 : 0 ≤ θ := le_trans ha haθ
  have habs : |θ| = θ := abs_of_nonneg hθ0
  have h := Real.sin_bound (x := θ) (by rw [habs]; linarith)
  rw [habs] at h
  obtain ⟨h1, h2⟩ := abs_le.1 h
  have p3 : θ ^ 3 ≤ b ^ 3 := pow_le_pow_left₀ hθ0 hθb 3
  have q3 : a ^ 3 ≤ θ ^ 3 := pow_le_pow_left₀ ha haθ 3
  have p4 : θ ^ 4 ≤ b ^ 4 := pow_le_pow_left₀ hθ0 hθb 4
  constructor <;> linarith

theorem sin_triple_bounds (θ lo hi : ℝ) (h0 : 0 ≤ lo) (h1 : lo ≤ Real.sin θ)
    (h2 : Real.sin θ ≤ hi) :
    3 * lo - 4 * hi ^ 3 ≤ Real.sin (3 * θ) ∧ Real.sin (3 * θ) ≤ 3 * hi - 4 * lo ^ 3 := by
  rw [Real.sin_three_mul]
  have p : Real.sin θ ^ 3 ≤ hi ^ 3 := pow_le_pow_left₀ (le_trans h0 h1) h2 3
  have q : lo ^ 3 ≤ Real.sin θ ^ 3 := pow_le_pow_left₀ h0 h1 3
  constructor <;> linarith

theorem sin_third_sample_bounds (θ : ℝ) (h1 : 0.06268936 ≤ θ) (h2 : θ ≤ 0.06268939) :
    5608.75 < 30000 * Real.sin (3 * θ) ∧ 30000 * Real.sin (3 * θ) < 5608.93 := by
  obtain ⟨l, u⟩ := sin_small_bounds θ 0.06268936 0.06268939 (by norm_num) h1 h2 (by norm_num)
  have l2 : (0.0626474 : ℝ) ≤ Real.sin θ := le_trans (by norm_num) l
  have u2 : Real.sin θ ≤ (0.0626492 : ℝ) := le_trans u (by norm_num)
  obtain ⟨l3, u3⟩ := sin_triple_bounds θ 0.0626474 0.0626492 (by norm_num) l2 u2
  constructor
  · have : (5608.75 : ℝ) < 30000 * (3 * 0.0626474 - 4 * 0.0626492 ^ 3) := by norm_num
    linarith
  · have : 30000 * (3 * 0.0626492 - 4 * 0.0626474 ^ 3) < (5608.93 : ℝ) := by norm_num
    linarith

theorem round_440_3 : round (30000 * Real.sin (2 * Real.pi * 440 * 3 / 44100)) = 5609 := by
  have e : 2 * Real.pi * 440 * 3 / 44100 = 3 * (2 * Real.pi * 440 / 44100) := by ring
  have p1 := Real.pi_gt_d6
  have p2 := Real.pi_lt_d6
  obtain ⟨l, u⟩ := sin_third_sample_bounds (2 * Real.pi * 440 / 44100)
    (by linarith) (by linarith)
  rw [e, round_eq, Int.floor_eq_iff]
  constructor
  · push_cast; linarith
  · push_cast; linarith

theorem sine_argument_440_3 : ∃ x,
    Dbl.mul (Dbl.mul (Dbl.mul (Dbl.of_int 2) PI) (Dbl.fin 440))
      (Dbl.div (Dbl.of_int ((3 : Nat) : Int)) (Dbl.of_int SAMPLE_RATE)) = Dbl.fin x
    ∧ 3 * 0.06268936 ≤ x ∧ x ≤ 3 * 0.06268939 := by
  obtain ⟨c1, hc1, a1, b1⟩ := two_PI_bounds
  rw [hc1, dbl_mul_fin]
  obtain ⟨c2, hc2, a2, b2⟩ := round_to_double_bounds
    (((1484234145801 : Int) : ℝ) * (2 : ℝ) ^ (-29 : Int))
    (((742117072901 : Int) : ℝ) * (2 : ℝ) ^ (-28 : Int)) (c1 * 440)
    (is_double_mk 1484234145801 (-29) (by decide) (by decide) (by decide))
    (is_double_mk 742117072901 (-28) (by decide) (by decide) (by decide))
    (by norm_num at a1 ⊢; linarith) (by norm_num at b1 ⊢; linarith)
  rw [hc2, Dbl.of_int, Dbl.of_int, dbl_div_fin _ _ (by simp [SAMPLE_RATE])]
  obtain ⟨t, ht, at1, bt1⟩ := round_to_double_bounds
    (((76591830397 : Int) : ℝ) * (2 : ℝ) ^ (-50 : Int))
    (((38295915199 : Int) : ℝ) * (2 : ℝ) ^ (-49 : Int))
    ((((3 : Nat) : Int) : ℝ) / ((SAMPLE_RATE : Int) : ℝ))
    (is_double_mk 76591830397 (-50) (by decide) (by decide) (by decide))
    (is_double_mk 38295915199 (-49) (by decide) (by decide) (by decide))
    (by simp only [SAMPLE_RATE]; norm_num) (by simp only [SAMPLE_RATE]; norm_num)
  rw [ht, dbl_mul_fin]
  have a2n : (1484234145801 : ℝ) / 536870912 ≤ c2 := by norm_num at a2; linarith
  have b2n : c2 ≤ (742117072901 : ℝ) / 268435456 := by norm_num at b2; linarith
  have atn : (76591830397 : ℝ) / 1125899906842624 ≤ t := by norm_num at at1; linarith
  have btn : t ≤ (38295915199 : ℝ) / 562949953421312 := by norm_num at bt1; linarith
  have hc2pos : 0 ≤ c2 := by linarith
  have htpos : 0 ≤ t := by linarith
  have lo : (1484234145801 : ℝ) / 536870912 * ((76591830397 : ℝ) / 1125899906842624) ≤ c2 * t :=
    mul_le_mul a2n atn (by norm_num) hc2pos
  have hi : c2 * t ≤ (742117072901 : ℝ) / 268435456 * ((38295915199 : ℝ) / 562949953421312) :=
    mul_le_mul b2n btn htpos (by norm_num)
  obtain ⟨x, hx, ax, bx⟩ := round_to_double_bounds
    (((413566194637 : Int) : ℝ) * (2 : ℝ) ^ (-41 : Int))
    (((1654264778571 : Int) : ℝ) * (2 : ℝ) ^ (-43 : Int)) (c2 * t)
    (is_double_mk 413566194637 (-41) (by decide) (by decide) (by decide))
    (is_double_mk 1654264778571 (-43) (by decide) (by decide) (by decide))
    (le_trans (by norm_num) lo) (le_trans hi (by norm_num))
  refine ⟨x, hx, ?_, ?_⟩
  · norm_num at ax ⊢; linarith
  · norm_num at bx ⊢; linarith

theorem sample_at_440_3 : ∃ v, sample_at (Dbl.fin 440) 3 = Dbl.fin v
    ∧ 5608.5 ≤ v ∧ v ≤ 5608.96875 := by
  have hz : (Dbl.fin 440).is_zero = false := by simp [Dbl.is_zero]
  unfold sample_at
  rw [hz]
  simp only [Bool.false_eq_true, if_false]
  obtain ⟨x, hx, ax, bx⟩ := sine_argument_440_3
  rw [hx]
  obtain ⟨l, u⟩ := sin_third_sample_bounds (x / 3) (by linarith) (by linarith)
  have e3 : 3 * (x / 3) = x := by ring
  rw [e3] at l u
  simp only [Dbl.sin]
  obtain ⟨s, hs, as1, bs1⟩ := round_to_double_bounds
    (((200744981 : Int) : ℝ) * (2 : ℝ) ^ (-30 : Int))
    (((200751425 : Int) : ℝ) * (2 : ℝ) ^ (-30 : Int)) (Real.sin x)
    (is_double_mk 200744981 (-30) (by decide) (by decide) (by decide))
    (is_double_mk 200751425 (-30) (by decide) (by decide) (by decide))
    (by norm_num; linarith) (by norm_num; linarith)
  rw [hs, Dbl.of_int, dbl_mul_fin]
  obtain ⟨v, hv, av, bv⟩ := round_to_double_bounds
    (((11217 : Int) : ℝ) * (2 : ℝ) ^ (-1 : Int))
    (((179487 : Int) : ℝ) * (2 : ℝ) ^ (-5 : Int)) (((AMPLITUDE : Int) : ℝ) * s)
    (is_double_mk 11217 (-1) (by decide) (by decide) (by decide))
    (is_double_mk 179487 (-5) (by decide) (by decide) (by decide))
    (by simp only [AMPLITUDE]; norm_num at as1 ⊢; linarith)
    (by simp only [AMPLITUDE]; norm_num at bs1 ⊢; linarith)
  refine ⟨v, hv, ?_, ?_⟩
  · norm_num at av ⊢; linarith
  · norm_num at bv ⊢; linarith

theorem short_of_double_440_3 : short_of_double (sample_at (Dbl.fin 440) 3) = 5608 := by
  obtain ⟨v, hv, av, bv⟩ := sample_at_440_3
  rw [hv, short_of_double_eq_trunc v (by linarith) (by linarith)]
  unfold trunc_toward_zero
  rw [if_pos (by linarith), Int.floor_eq_iff]
  constructor
  · push_cast; linarith
  · push_cast; linarith

theorem parse_and_generate_a_fout :
    (parse_and_generate ("a").toList).fout = generate_sine_wave (Dbl.fin 440) 300 := by
  show (parse_step _ 'a').fout = _
  rw [parse_step_note _ (by decide)]
  show [] ++ generate_sine_wave (get_frequency 'a' 4) DURATION_MS = _
  rw [get_frequency_a4, List.nil_append, DURATION_MS]

/-! ### Rounding error of a sample -/

theorem exists_double_below_small (x : ℝ) (h0 : 0 ≤ x) (h1 : x < (2 : ℝ) ^ (-1022 : Int)) :
    ∃ z, is_double z ∧ z ≤ x ∧ x - z ≤ (2 : ℝ) ^ (-1074 : Int) := by
  have hp := two_zpow_pos (-1074)
  have e1 : (2 : ℝ) ^ (-1022 : Int) = 4503599627370496 * (2 : ℝ) ^ (-1074 : Int) := by
    rw [show (-1022 : Int) = 52 + (-1074) from rfl, zpow_add₀ (by norm_num : (2 : ℝ) ≠ 0)]
    norm_num
  have q1 : 0 ≤ x / (2 : ℝ) ^ (-1074 : Int) := div_nonneg h0 (le_of_lt hp)
  have q2 : x / (2 : ℝ) ^ (-1074 : Int) < 4503599627370496 := by
    rw [div_lt_iff₀ hp]; linarith
  have m1 : (0 : Int) ≤ ⌊x / (2 : ℝ) ^ (-1074 : Int)⌋ := Int.floor_nonneg.2 q1
  have m2 : ⌊x / (2 : ℝ) ^ (-1074 : Int)⌋ < (4503599627370496 : Int) :=
    Int.floor_lt.2 (by push_cast; exact q2)
  have f1 : (⌊x / (2 : ℝ) ^ (-1074 : Int)⌋ : ℝ) ≤ x / (2 : ℝ) ^ (-1074 : Int) := Int.floor_le _
  have f2 : x / (2 : ℝ) ^ (-1074 : Int) < ⌊x / (2 : ℝ) ^ (-1074 : Int)⌋ + 1 :=
    Int.lt_floor_add_one _
  rw [le_div_iff₀ hp] at f1
  rw [div_lt_iff₀ hp] at f2
  refine ⟨(⌊x / (2 : ℝ) ^ (-1074 : Int)⌋ : ℝ) * (2 : ℝ) ^ (-1074 : Int),
    is_double_mk _ _ (by rw [abs_of_nonneg m1]; omega) (by decide) (by decide), f1, ?_⟩
  linarith

theorem nearest_double_abs (x : ℝ) (h2 : |x| < (2 : ℝ) ^ (1024 : Int)) :
    |x - nearest_double x| ≤ (2 : ℝ) ^ (-52 : Int) * |x| + (2 : ℝ) ^ (-1074 : Int) := by
  have hp := two_zpow_pos (-1074)
  have hu := two_zpow_pos (-52)
  by_cases h1 : (2 : ℝ) ^ (-1022 : Int) ≤ |x|
  · have := nearest_double_rel x h1 h2
    linarith
  · push_neg at h1
    have hn : 0 ≤ (2 : ℝ) ^ (-52 : Int) * |x| := mul_nonneg (le_of_lt hu) (abs_nonneg x)
    obtain ⟨z, hz, hzx, hzd⟩ := exists_double_below_small |x| (abs_nonneg x) h1
    obtain ⟨_, hmin⟩ := nearest_double_spec x
    by_cases hx : 0 ≤ x
    · rw [abs_of_nonneg hx] at hzx hzd
      have := hmin z hz
      rw [abs_of_nonneg (by linarith : 0 ≤ x - z)] at this
      linarith
    · push_neg at hx
      rw [abs_of_neg hx] at hzx hzd
      have := hmin (-z) (is_double_neg z hz)
      rw [abs_of_nonpos (by linarith : x - -z ≤ 0)] at this
      linarith

theorem round_to_double_abs (x b : ℝ) (hb : |x| ≤ b) (hb2 : b ≤ 1048576) :
    ∃ v, round_to_double x = Dbl.fin v
      ∧ |v - x| ≤ b / 4503599627370496 + 1 / 1267650600228229401496703205376 := by
  have hu : (2 : ℝ) ^ (-52 : Int) = 1 / 4503599627370496 := by norm_num
  have h100 : (2 : ℝ) ^ (-100 : Int) = 1 / 1267650600228229401496703205376 := by norm_num
  have h20 : (2 : ℝ) ^ (20 : Int) = 1048576 := by norm_num
  have hη : (2 : ℝ) ^ (-1074 : Int) ≤ (2 : ℝ) ^ (-100 : Int) := two_zpow_le (by decide)
  have hbig : (2 : ℝ) ^ (20 : Int) ≤ (2 : ℝ) ^ (1023 : Int) := two_zpow_le (by decide)
  have hbig2 : (2 : ℝ) ^ (1023 : Int) < (2 : ℝ) ^ (1024 : Int) :=
    zpow_lt_zpow_right₀ (by norm_num) (by decide)
  have ht : |x| < overflow_threshold := abs_lt_overflow_threshold x (by linarith)
  refine ⟨nearest_double x, round_to_double_of_lt x ht, ?_⟩
  have := nearest_double_abs x (by linarith)
  rw [abs_sub_comm, hu] at this
  rw [h100] at hη
  generalize (2 : ℝ) ^ (-1074 : Int) = η at this hη
  have hx0 : 0 ≤ |x| := abs_nonneg x
  linarith

theorem abs_mul_sub_le (a b a0 b0 : ℝ) :
    |a * b - a0 * b0| ≤ |a| * |b - b0| + |a - a0| * |b0| := by
  have e : a * b - a0 * b0 = a * (b - b0) + (a - a0) * b0 := by ring
  rw [e]
  calc |a * (b - b0) + (a - a0) * b0| ≤ |a * (b - b0)| + |(a - a0) * b0| := abs_add _ _
    _ = |a| * |b - b0| + |a - a0| * |b0| := by rw [abs_mul, abs_mul]

theorem abs_sin_sub_sin_le (a b : ℝ) : |Real.sin a - Real.sin b| ≤ |a - b| := by
  rw [Real.sin_sub_sin, abs_mul, abs_mul]
  have h1 : |Real.sin ((a - b) / 2)| ≤ |(a - b) / 2| := Real.abs_sin_le_abs
  have h2 : |Real.cos ((a + b) / 2)| ≤ 1 := Real.abs_cos_le_one _
  have h3 : |(a - b) / 2| = |a - b| / 2 := by
    rw [abs_div, abs_of_pos (by norm_num : (0 : ℝ) < 2)]
  rw [h3] at h1
  have h4 : |(2 : ℝ)| = 2 := abs_of_pos (by norm_num)
  rw [h4]
  have h5 : 0 ≤ |Real.sin ((a - b) / 2)| := abs_nonneg _
  have h6 : 0 ≤ |Real.cos ((a + b) / 2)| := abs_nonneg _
  nlinarith

theorem sample_at_near (f : ℝ) (i : Nat) (hf0 : f ≠ 0) (hf : |f| ≤ 20000) (hi : i ≤ 13230) :
    ∃ v, sample_at (Dbl.fin f) i = Dbl.fin v
      ∧ |v - 30000 * Real.sin (2 * 3.14159265 * f * ((i : ℝ) / 44100))| ≤ 1 / 100000 := by
  have hz : (Dbl.fin f).is_zero = false := by simp [Dbl.is_zero, hf0]
  unfold sample_at
  rw [hz]
  simp only [Bool.false_eq_true, if_false]
  have hf1 : 0 ≤ |f| := abs_nonneg f
  -- the constant PI and the product 2 * PI
  obtain ⟨p, hp, hpe⟩ := round_to_double_abs 3.14159265 4
    (by rw [abs_of_pos (by norm_num)]; norm_num) (by norm_num)
  obtain ⟨p1, p2⟩ := abs_le.1 hpe
  have hpa : |p| ≤ 4 := abs_le.2 ⟨by linarith, by linarith⟩
  obtain ⟨c1, hc1, hc1e⟩ := round_to_double_abs (((2 : Int) : ℝ) * p) 8
    (by rw [abs_mul]; norm_num; linarith) (by norm_num)
  have hc1d : |c1 - 2 * 3.14159265| ≤ 4 / 1000000000000000 := by
    obtain ⟨a1, a2⟩ := abs_le.1 hc1e
    push_cast at a1 a2
    rw [abs_le]; constructor <;> linarith
  obtain ⟨k1, k2⟩ := abs_le.1 hc1d
  have hc1a : |c1| ≤ 7 := abs_le.2 ⟨by linarith, by linarith⟩
  -- the product with the frequency
  have hc1f : |c1 * f| ≤ 140000 := by
    rw [abs_mul]
    calc |c1| * |f| ≤ 7 * 20000 := mul_le_mul hc1a hf (abs_nonneg f) (by norm_num)
      _ = 140000 := by norm_num
  obtain ⟨c2, hc2, hc2e⟩ := round_to_double_abs (c1 * f) 140000 hc1f (by norm_num)
  have hm1 : |c1 * f - 2 * 3.14159265 * f| ≤ 4 / 1000000000000000 * 20000 := by
    have e : c1 * f - 2 * 3.14159265 * f = (c1 - 2 * 3.14159265) * f := by ring
    rw [e, abs_mul]
    exact mul_le_mul hc1d hf (abs_nonneg f) (by norm_num)
  have hc2d : |c2 - 2 * 3.14159265 * f| ≤ 12 / 100000000000 := by
    have e : c2 - 2 * 3.14159265 * f = (c2 - c1 * f) + (c1 * f - 2 * 3.14159265 * f) := by ring
    rw [e]
    have := abs_add (c2 - c1 * f) (c1 * f - 2 * 3.14159265 * f)
    linarith
  have hc2a : |c2| ≤ 140000 := by
    have h1 : |2 * 3.14159265 * f| ≤ 2 * 3.14159265 * 20000 := by
      rw [abs_mul, abs_of_pos (by norm_num : (0 : ℝ) < 2 * 3.14159265)]
      exact mul_le_mul_of_nonneg_left hf (by norm_num)
    have e : c2 = (c2 - 2 * 3.14159265 * f) + 2 * 3.14159265 * f := by ring
    rw [e]
    have := abs_add (c2 - 2 * 3.14159265 * f) (2 * 3.14159265 * f)
    linarith
  -- the time of the sample
  have hi0 : (0 : ℝ) ≤ (i : ℝ) := Nat.cast_nonneg i
  have hi1 : (i : ℝ) ≤ 13230 := by exact_mod_cast hi
  have ht0 : 0 ≤ (i : ℝ) / 44100 := div_nonneg hi0 (by norm_num)
  have ht1 : (i : ℝ) / 44100 ≤ 3 / 10 := by
    rw [div_le_iff₀ (by norm_num)]; linarith
  have ecast : (((i : Nat) : Int) : ℝ) / ((SAMPLE_RATE : Int) : ℝ) = (i : ℝ) / 44100 := by
    simp [SAMPLE_RATE]
  obtain ⟨t, ht, hte⟩ := round_to_double_abs ((i : ℝ) / 44100) 1
    (by rw [abs_of_nonneg ht0]; linarith) (by norm_num)
  obtain ⟨t1, t2⟩ := abs_le.1 hte
  have hta : |t| ≤ 101 / 100 := abs_le.2 ⟨by linarith, by linarith⟩
  have hτa : |(i : ℝ) / 44100| ≤ 3 / 10 := by rw [abs_of_nonneg ht0]; exact ht1
  -- the argument of the sine
  have hc2t : |c2 * t| ≤ 141400 := by
    rw [abs_mul]
    calc |c2| * |t| ≤ 140000 * (101 / 100) := mul_le_mul hc2a hta (abs_nonneg t) (by norm_num)
      _ = 141400 := by norm_num
  obtain ⟨x, hx, hxe⟩ := round_to_double_abs (c2 * t) 141400 hc2t (by norm_num)
  have hprod := abs_mul_sub_le c2 t (2 * 3.14159265 * f) ((i : ℝ) / 44100)
  have hq1 : |c2| * |t - (i : ℝ) / 44100|
      ≤ 140000 * (1 / 4503599627370496 + 1 / 1267650600228229401496703205376) :=
    mul_le_mul hc2a hte (abs_nonneg _) (by norm_num)
  have hq2 : |c2 - 2 * 3.14159265 * f| * |(i : ℝ) / 44100| ≤ 12 / 100000000000 * (3 / 10) :=
    mul_le_mul hc2d hτa (abs_nonneg _) (by norm_num)
  have hxd : |x - 2 * 3.14159265 * f * ((i : ℝ) / 44100)| ≤ 11 / 100000000000 := by
    have e : x - 2 * 3.14159265 * f * ((i : ℝ) / 44100)
        = (x - c2 * t) + (c2 * t - 2 * 3.14159265 * f * ((i : ℝ) / 44100)) := by ring
    rw [e]
    have := abs_add (x - c2 * t) (c2 * t - 2 * 3.14159265 * f * ((i : ℝ) / 44100))
    linarith
  -- the sine and the amplitude
  obtain ⟨s, hs, hse⟩ := round_to_double_abs (Real.sin x) 1 (Real.abs_sin_le_one x) (by norm_num)
  have hsin := abs_sin_sub_sin_le x (2 * 3.14159265 * f * ((i : ℝ) / 44100))
  have hsd : |s - Real.sin (2 * 3.14159265 * f * ((i : ℝ) / 44100))|
      ≤ 12 / 100000000000 := by
    have e : s - Real.sin (2 * 3.14159265 * f * ((i : ℝ) / 44100))
        = (s - Real.sin x)
          + (Real.sin x - Real.sin (2 * 3.14159265 * f * ((i : ℝ) / 44100))) := by ring
    rw [e]
    have := abs_add (s - Real.sin x)
      (Real.sin x - Real.sin (2 * 3.14159265 * f * ((i : ℝ) / 44100)))
    linarith
  have hsa : |s| ≤ 2 := by
    have h1 := Real.abs_sin_le_one x
    have e : s = (s - Real.sin x) + Real.sin x := by ring
    rw [e]
    have := abs_add (s - Real.sin x) (Real.sin x)
    linarith
  have h30 : |((AMPLITUDE : Int) : ℝ) * s| ≤ 60000 := by
    simp only [AMPLITUDE]
    rw [abs_mul]
    have : |(((30000 : Int) : ℝ))| = 30000 := by norm_num
    rw [this]
    linarith
  obtain ⟨v, hv, hve⟩ := round_to_double_abs (((AMPLITUDE : Int) : ℝ) * s) 60000 h30
    (by norm_num)
  refine ⟨v, ?_, ?_⟩
  · simp only [Dbl.of_int, PI]
    rw [hp, dbl_mul_fin, hc1, dbl_mul_fin, hc2, dbl_div_fin _ _ (by simp [SAMPLE_RATE]), ecast,
      ht, dbl_mul_fin, hx]
    simp only [Dbl.sin]
    rw [hs, dbl_mul_fin, hv]
  · simp only [AMPLITUDE] at hve
    push_cast at hve
    have e : v - 30000 * Real.sin (2 * 3.14159265 * f * ((i : ℝ) / 44100))
        = (v - 30000 * s)
          + 30000 * (s - Real.sin (2 * 3.14159265 * f * ((i : ℝ) / 44100))) := by ring
    rw [e]
    have h1 := abs_add (v - 30000 * s)
      (30000 * (s - Real.sin (2 * 3.14159265 * f * ((i : ℝ) / 44100))))
    have h2 : |30000 * (s - Real.sin (2 * 3.14159265 * f * ((i : ℝ) / 44100)))|
        = 30000 * |s - Real.sin (2 * 3.14159265 * f * ((i : ℝ) / 44100))| := by
      rw [abs_mul, abs_of_pos (by norm_num : (0 : ℝ) < 30000)]
    linarith

/-- C12 (as amended): for every frequency that does not compare equal to 0.0
and every sample index `i` below the sample count, the 16-bit sample emitted by
`generate_sine_wave` is the double value of
`30000 * sin(2 * PI * freq * (i / 44100))`, with `PI` the double nearest to
3.14159265 and every operation rounded to double, converted by `(short)`: when
that value is finite its fractional part is discarded (truncation towards
zero, not rounding to nearest) and the result has magnitude at most 30000, so
nothing is clamped; for a finite frequency of magnitude at most 20000 and
`i ≤ 13230` the double value is finite and differs from the real number
`30000 * sin(2 * 3.14159265 * freq * i / 44100)` by at most `10 ^ (-5)`; and
the body `a` is rendered with frequency 440. -/
theorem generate_sine_wave_sample_value (freq : Dbl) (duration_ms : Int) (i : Nat)
    (hf : freq.is_zero = false) (hi : i < (num_samples duration_ms).toNat) :
    field (generate_sine_wave freq duration_ms) (2 * i) 2
      = le_bytes 2 (short_of_double
          (Dbl.mul (Dbl.of_int 30000)
            (Dbl.sin (Dbl.mul (Dbl.mul (Dbl.mul (Dbl.of_int 2) (round_to_double 3.14159265)) freq)
              (Dbl.div (Dbl.of_int (i : Int)) (Dbl.of_int 44100))))))
    ∧ (∀ v, Dbl.mul (Dbl.of_int 30000)
            (Dbl.sin (Dbl.mul (Dbl.mul (Dbl.mul (Dbl.of_int 2) (round_to_double 3.14159265)) freq)
              (Dbl.div (Dbl.of_int (i : Int)) (Dbl.of_int 44100)))) = Dbl.fin v →
        field (generate_sine_wave freq duration_ms) (2 * i) 2
            = le_bytes 2 (trunc_toward_zero v)
          ∧ -30000 ≤ trunc_toward_zero v ∧ trunc_toward_zero v ≤ 30000)
    ∧ (∀ f : ℝ, freq = Dbl.fin f → |f| ≤ 20000 → i ≤ 13230 →
        ∃ v, Dbl.mul (Dbl.of_int 30000)
            (Dbl.sin (Dbl.mul (Dbl.mul (Dbl.mul (Dbl.of_int 2) (round_to_double 3.14159265)) freq)
              (Dbl.div (Dbl.of_int (i : Int)) (Dbl.of_int 44100)))) = Dbl.fin v
          ∧ |v - 30000 * Real.sin (2 * 3.14159265 * f * ((i : ℝ) / 44100))| ≤ 1 / 100000)
    ∧ ((parse_and_generate ("a").toList).fout = generate_sine_wave (Dbl.fin 440) 300) := by
  have e : sample_at freq i
      = Dbl.mul (Dbl.of_int 30000)
          (Dbl.sin (Dbl.mul (Dbl.mul (Dbl.mul (Dbl.of_int 2) (round_to_double 3.14159265)) freq)
            (Dbl.div (Dbl.of_int (i : Int)) (Dbl.of_int 44100)))) := by
    unfold sample_at
    rw [hf]
    rfl
  have hs := generate_sine_wave_sample freq duration_ms i hi
  rw [e] at hs
  refine ⟨hs, fun v hv => ?_, fun f hfe hfb hib => ?_, parse_and_generate_a_fout⟩
  · rcases (sample_at_cases freq i).1 with hn | ⟨w, hw, hw1⟩
    · rw [e, hv] at hn; simp at hn
    · rw [e, hv] at hw
      have hvw : v = w := Dbl.fin.inj hw
      subst hvw
      obtain ⟨h1, h2⟩ := abs_le.1 hw1
      have t := trunc_toward_zero_bounds v 30000 (by decide) (by push_cast; linarith)
        (by push_cast; linarith)
      rw [hs, hv, short_of_double_eq_trunc v h1 h2]
      exact ⟨rfl, t.1, t.2⟩
  · subst hfe
    have hf0 : f ≠ 0 := by
      intro h0
      rw [h0] at hf
      simp [Dbl.is_zero] at hf
    rw [← e]
    exact sample_at_near f i hf0 hfb hib

/-- Witness of C12: sample 3 of the body `a`. -/
theorem generate_sine_wave_sample_value_witness :
    (Dbl.fin 440).is_zero = false ∧ 3 < (num_samples 300).toNat
    ∧ |(440 : ℝ)| ≤ 20000 ∧ (3 : Nat) ≤ 13230
    ∧ field (parse_and_generate ("a").toList).fout (2 * 3) 2
      = le_bytes 2 (short_of_double
          (Dbl.mul (Dbl.of_int 30000)
            (Dbl.sin (Dbl.mul
              (Dbl.mul (Dbl.mul (Dbl.of_int 2) (round_to_double 3.14159265)) (Dbl.fin 440))
              (Dbl.div (Dbl.of_int ((3 : Nat) : Int)) (Dbl.of_int 44100))))))
    ∧ (∃ v, Dbl.mul (Dbl.of_int 30000)
            (Dbl.sin (Dbl.mul
              (Dbl.mul (Dbl.mul (Dbl.of_int 2) (round_to_double 3.14159265)) (Dbl.fin 440))
              (Dbl.div (Dbl.of_int ((3 : Nat) : Int)) (Dbl.of_int 44100)))) = Dbl.fin v
        ∧ |v - 30000 * Real.sin (2 * 3.14159265 * 440 * (((3 : Nat) : ℝ) / 44100))|
            ≤ 1 / 100000) := by
  have hz : (Dbl.fin 440).is_zero = false := by simp [Dbl.is_zero]
  have hb : |(440 : ℝ)| ≤ 20000 := by rw [abs_of_pos (by norm_num)]; norm_num
  have h := generate_sine_wave_sample_value (Dbl.fin 440) 300 3 hz (by decide)
  refine ⟨hz, by decide, hb, by decide, ?_, h.2.2.1 440 rfl hb (by decide)⟩
  rw [h.2.2.2]
  exact h.1

/-- Counterexample to C12 as stated: sample 3 of the body `a` is emitted as the
bytes `E8 15`, the value 5608, while `30000 * sin(2π * 440 * 3 / 44100)` lies
between 5608.75 and 5608.93 and rounds to 5609. -/
theorem generate_sine_wave_truncates :
    field (parse_and_generate ("a").toList).fout (2 * 3) 2 = [0xE8, 0x15]
    ∧ le_value [0xE8, 0x15] = 5608
    ∧ round (30000 * Real.sin (2 * Real.pi * 440 * 3 / 44100)) = 5609 := by
  refine ⟨?_, by decide, round_440_3⟩
  rw [parse_and_generate_a_fout, generate_sine_wave_sample (Dbl.fin 440) 300 3 (by decide),
    short_of_double_440_3]
  simp [le_bytes]

/-! ## Range of a sample -/

theorem dbl_sin_inf_mul (negative : Bool) (t : Dbl) :
    Dbl.sin (Dbl.mul (Dbl.inf negative) t) = Dbl.nan := by
  cases t with
  | fin y =>
    simp only [Dbl.mul]
    split <;> rfl
  | inf n2 => rfl
  | nan => rfl

theorem two_PI_mul_overflow (f : ℝ) (hf : (2 : ℝ) ^ (1024 : Nat) ≤ 6 * f) :
    Dbl.mul (Dbl.mul (Dbl.of_int 2) PI) (Dbl.fin f) = Dbl.inf false := by
  obtain ⟨c, hc, h6, _⟩ := two_PI_coarse
  rw [hc, dbl_mul_fin]
  apply round_to_double_overflow
  have hp : (0 : ℝ) < (2 : ℝ) ^ (1024 : Nat) := by positivity
  have h1 : overflow_threshold ≤ (2 : ℝ) ^ (1024 : Nat) := by
    unfold overflow_threshold
    have : (0 : ℝ) ≤ 2 ^ (970 : Nat) := by positivity
    linarith
  have hf0 : 0 ≤ f := by linarith
  have h3 : 6 * f ≤ c * f := mul_le_mul_of_nonneg_right h6 hf0
  linarith

theorem sample_at_nan_of_large (f : ℝ) (hf : (2 : ℝ) ^ (1024 : Nat) ≤ 6 * f) (i : Nat) :
    sample_at (Dbl.fin f) i = Dbl.nan := by
  have hz : (Dbl.fin f).is_zero = false := by
    have hp : (0 : ℝ) < (2 : ℝ) ^ (1024 : Nat) := by positivity
    have : f ≠ 0 := ne_of_gt (by linarith)
    simp [Dbl.is_zero, this]
  unfold sample_at
  rw [hz]
  simp only [Bool.false_eq_true, if_false]
  rw [two_PI_mul_overflow f hf, dbl_sin_inf_mul]
  rfl

theorem sine_argument_finite (f : ℝ) (hf : |f| ≤ (2 : ℝ) ^ (990 : Int)) (i : Nat)
    (hi : i ≤ 2147483647) :
    ∃ x, Dbl.mul (Dbl.mul (Dbl.mul (Dbl.of_int 2) PI) (Dbl.fin f))
      (Dbl.div (Dbl.of_int (i : Int)) (Dbl.of_int SAMPLE_RATE)) = Dbl.fin x := by
  obtain ⟨c, hc, h6, h8⟩ := two_PI_coarse
  rw [hc, dbl_mul_fin]
  have hp : (0 : ℝ) < (2 : ℝ) ^ (990 : Int) := two_zpow_pos _
  obtain ⟨c2, hc2, b2⟩ := round_to_double_abs_bounds
    (((4194304 : Int) : ℝ) * (2 : ℝ) ^ (971 : Int)) (c * f)
    (is_double_mk 4194304 971 (by decide) (by decide) (by decide))
    (by
      rw [abs_mul, abs_of_nonneg (by linarith : (0 : ℝ) ≤ c)]
      have h1 : c * |f| ≤ 8 * (2 : ℝ) ^ (990 : Int) :=
        mul_le_mul h8 hf (abs_nonneg f) (by norm_num)
      have h2 : (8 : ℝ) * (2 : ℝ) ^ (990 : Int) = ((4194304 : Int) : ℝ) * (2 : ℝ) ^ (971 : Int) := by
        rw [show (990 : Int) = 971 + 19 from rfl, zpow_add₀ (by norm_num : (2 : ℝ) ≠ 0)]
        have : (2 : ℝ) ^ (19 : Int) = 524288 := by norm_num
        rw [this]
        push_cast
        ring
      linarith)
  rw [hc2, Dbl.of_int, Dbl.of_int, dbl_div_fin _ _ (by simp [SAMPLE_RATE])]
  obtain ⟨t, ht, bt⟩ := round_to_double_abs_bounds 65536
    ((((i : Nat) : Int) : ℝ) / ((SAMPLE_RATE : Int) : ℝ))
    (by simpa using is_double_int 65536 (by decide))
    (by
      simp only [SAMPLE_RATE]
      have hi2 : ((i : Nat) : ℝ) ≤ 2147483647 := by exact_mod_cast hi
      have hi0 : (0 : ℝ) ≤ ((i : Nat) : ℝ) := Nat.cast_nonneg i
      push_cast
      rw [abs_of_nonneg (by positivity), div_le_iff₀ (by norm_num)]
      linarith)
  rw [ht, dbl_mul_fin]
  have hb : |c2 * t| < overflow_threshold := by
    rw [abs_mul]
    have h1 : |c2| * |t| ≤ ((4194304 : Int) : ℝ) * (2 : ℝ) ^ (971 : Int) * 65536 :=
      mul_le_mul b2 bt (abs_nonneg t) (by positivity)
    have h2 : ((4194304 : Int) : ℝ) * (2 : ℝ) ^ (971 : Int) * 65536
        = (2 : ℝ) ^ (1009 : Nat) := by
      rw [show (971 : Int) = ((971 : Nat) : Int) from rfl, zpow_natCast,
        show (1009 : Nat) = 971 + 38 from rfl, pow_add]
      push_cast
      ring
    have h3 : (2 : ℝ) ^ (1009 : Nat) < overflow_threshold := by
      unfold overflow_threshold
      have a : (2 : ℝ) ^ (1024 : Nat) = 2 ^ (1009 : Nat) * 32768 := by
        rw [show (1024 : Nat) = 1009 + 15 from rfl, pow_add]; norm_num
      have b : (2 : ℝ) ^ (970 : Nat) ≤ 2 ^ (1009 : Nat) :=
        pow_le_pow_right₀ (by norm_num) (by decide)
      have c : (0 : ℝ) < 2 ^ (1009 : Nat) := by positivity
      linarith
    linarith
  exact ⟨nearest_double (c2 * t), round_to_double_of_lt _ hb⟩

theorem abs_440_le : |(440 : ℝ)| ≤ (2 : ℝ) ^ (990 : Int) := by
  rw [abs_of_pos (by norm_num)]
  have h1 : (2 : ℝ) ^ (9 : Int) ≤ (2 : ℝ) ^ (990 : Int) :=
    zpow_le_zpow_right₀ (by norm_num) (by decide)
  have h2 : (2 : ℝ) ^ (9 : Int) = 512 := by norm_num
  linarith

/-- C19 (as amended): `generate_sine_wave` has no clamping step.  For every
frequency and every sample index the double value of `sample` is either NaN or
a finite number in `[-30000, 30000]`; in the finite case its integer part lies
in the range of `short` and `(short)sample` yields that integer part.  The
value is finite whenever `2 * PI * freq * t` is finite, in particular whenever
the frequency is finite of magnitude at most `2^990` and the index is at most
2147483647.  The emitted sample, the little-endian
encoding of `(short)sample`, has absolute value at most 30000 in every case
(the conversion of a NaN is undefined in C; the x86-64 program yields 0). -/
theorem sample_in_range (freq : Dbl) (i : Nat) :
    (sample_at freq i = Dbl.nan
      ∨ ∃ v, sample_at freq i = Dbl.fin v ∧ -30000 ≤ v ∧ v ≤ 30000
          ∧ -32768 ≤ trunc_toward_zero v ∧ trunc_toward_zero v ≤ 32767
          ∧ short_of_double (sample_at freq i) = trunc_toward_zero v)
    ∧ (∀ x, Dbl.mul (Dbl.mul (Dbl.mul (Dbl.of_int 2) PI) freq)
          (Dbl.div (Dbl.of_int (i : Int)) (Dbl.of_int SAMPLE_RATE)) = Dbl.fin x →
        ∃ v, sample_at freq i = Dbl.fin v ∧ -30000 ≤ v ∧ v ≤ 30000)
    ∧ (∀ f, freq = Dbl.fin f → |f| ≤ (2 : ℝ) ^ (990 : Int) → i ≤ 2147483647 →
        ∃ v, sample_at freq i = Dbl.fin v ∧ -30000 ≤ v ∧ v ≤ 30000)
    ∧ (∀ duration_ms, i < (num_samples duration_ms).toNat →
        field (generate_sine_wave freq duration_ms) (2 * i) 2
          = le_bytes 2 (short_of_double (sample_at freq i)))
    ∧ |short_of_double (sample_at freq i)| ≤ 30000 := by
  have hc := sample_at_cases freq i
  have hfin : ∀ x, Dbl.mul (Dbl.mul (Dbl.mul (Dbl.of_int 2) PI) freq)
      (Dbl.div (Dbl.of_int (i : Int)) (Dbl.of_int SAMPLE_RATE)) = Dbl.fin x →
      ∃ v, sample_at freq i = Dbl.fin v ∧ -30000 ≤ v ∧ v ≤ 30000 := by
    intro x hx
    obtain ⟨v, hv, hv1⟩ := hc.2 x hx
    obtain ⟨h1, h2⟩ := abs_le.1 hv1
    exact ⟨v, hv, h1, h2⟩
  refine ⟨?_, hfin, ?_, fun d hd => generate_sine_wave_sample freq d i hd,
    short_of_double_abs_le _ hc.1⟩
  · rcases hc.1 with h | ⟨v, hv, hv1⟩
    · exact Or.inl h
    · obtain ⟨h1, h2⟩ := abs_le.1 hv1
      have t := trunc_toward_zero_bounds v 30000 (by decide) (by push_cast; linarith)
        (by push_cast; linarith)
      refine Or.inr ⟨v, hv, h1, h2, by omega, by omega, ?_⟩
      rw [hv, short_of_double_eq_trunc v h1 h2]
  · intro f hf hb hi
    subst hf
    obtain ⟨x, hx⟩ := sine_argument_finite f hb i hi
    obtain ⟨v, hv, hv1⟩ := hc.2 x hx
    obtain ⟨h1, h2⟩ := abs_le.1 hv1
    exact ⟨v, hv, h1, h2⟩

/-- Witness of C19: sample 3 of a 300 ms tone of 440 Hz. -/
theorem sample_in_range_witness :
    |(440 : ℝ)| ≤ (2 : ℝ) ^ (990 : Int) ∧ (3 : Nat) ≤ 2147483647
    ∧ 3 < (num_samples 300).toNat
    ∧ (∃ v, sample_at (Dbl.fin 440) 3 = Dbl.fin v ∧ -30000 ≤ v ∧ v ≤ 30000)
    ∧ field (generate_sine_wave (Dbl.fin 440) 300) (2 * 3) 2
        = le_bytes 2 (short_of_double (sample_at (Dbl.fin 440) 3)) :=
  ⟨abs_440_le, by decide, by decide,
    (sample_in_range (Dbl.fin 440) 3).2.2.1 440 rfl abs_440_le (by decide),
    (sample_in_range (Dbl.fin 440) 3).2.2.2.1 300 (by decide)⟩

/-- Counterexample to C19 as stated: the letter `a` at octave 1017 has the
finite frequency `440 * 2^1013`; for it the product `2 * PI * freq` overflows
to +infinity, so the value of `sample` is NaN at every sample index and lies
in no interval. -/
theorem sample_not_in_range :
    get_frequency 'a' 1017 = Dbl.fin (440 * (2 : ℝ) ^ (1013 : Int))
    ∧ (∀ i, sample_at (get_frequency 'a' 1017) i = Dbl.nan)
    ∧ ¬ ∃ v, sample_at (get_frequency 'a' 1017) 1 = Dbl.fin v ∧ -30000 ≤ v ∧ v ≤ 30000 := by
  have e : get_frequency 'a' 1017 = Dbl.fin (440 * (2 : ℝ) ^ (1013 : Int)) := by
    rw [get_frequency_a_exact 1017 (by decide) (by decide)]
    rfl
  have hbig : (2 : ℝ) ^ (1024 : Nat) ≤ 6 * (440 * (2 : ℝ) ^ (1013 : Int)) := by
    rw [show (1013 : Int) = ((1013 : Nat) : Int) from rfl, zpow_natCast,
      show (1024 : Nat) = 1013 + 11 from rfl, pow_add]
    have : (0 : ℝ) < (2 : ℝ) ^ (1013 : Nat) := by positivity
    norm_num
  refine ⟨e, fun i => ?_, ?_⟩
  · rw [e]; exact sample_at_nan_of_large _ hbig i
  · rintro ⟨v, hv, _⟩
    rw [e, sample_at_nan_of_large _ hbig 1] at hv
    exact Dbl.noConfusion hv

/-! ## The output file written by `main` -/

theorem write_wav_header_wrap32 (x : Int) :
    write_wav_header (wrap32 x) = write_wav_header x := by
  have e : wrap32 (Int.tdiv (wrap32 x * NUM_CHANNELS * BITS_PER_SAMPLE) 8)
      = wrap32 (Int.tdiv (x * NUM_CHANNELS * BITS_PER_SAMPLE) 8) := by
    rw [data_chunk_size_eq, data_chunk_size_eq]
    unfold wrap32; omega
  unfold write_wav_header
  simp only [e]

theorem write_wav_header_length (N : Int) : (write_wav_header N).length = 44 := by
  simp [write_wav_header, ascii, le_bytes_length]

theorem fwrite_reserved_then_header (bs hdr : List Nat) (hh : hdr.length = 44) :
    (fwrite (fseek_set (fwrite (fseek_set fopen_wb 44) bs) 0) hdr).data = hdr ++ bs := by
  have hne : hdr.isEmpty = false := by
    cases hdr with
    | nil => simp at hh
    | cons a t => rfl
  cases bs with
  | nil =>
    simp [fwrite, fseek_set, fopen_wb, hne]
  | cons b bs =>
    simp [fwrite, fseek_set, fopen_wb, hne, hh]

theorem main_output (prog text body : List Char) (h : extract_melody_line text = some body) :
    main [prog, text] true
      = { exit_code := 0
          output_wav := some (write_wav_header (parse_and_generate body).total_samples
            ++ (parse_and_generate body).fout) } := by
  unfold main
  simp only [h, if_true]
  rw [fwrite_reserved_then_header _ _ (write_wav_header_length _)]

theorem header_then_data_eq (body : List Char) :
    header_then_data body
      = write_wav_header ((note_count body * 13230 : Nat) : Int) ++ (parse_and_generate body).fout
    ∧ header_then_data body
      = write_wav_header (parse_and_generate body).total_samples
          ++ (parse_and_generate body).fout := by
  obtain ⟨_, hc, hf⟩ := parse_and_generate_trace body
  obtain ⟨hl, ht, _⟩ := parse_and_generate_counts body
  have e : header_then_data body
      = write_wav_header (((parse_and_generate body).fout.length / 2 : Nat) : Int)
        ++ (parse_and_generate body).fout := by
    unfold header_then_data
    rw [← hc, ← hf]
  have e2 : (parse_and_generate body).fout.length / 2 = note_count body * 13230 := by
    rw [hl]; omega
  rw [e, e2]
  refine ⟨rfl, ?_⟩
  rw [ht, write_wav_header_wrap32]
  congr 2
  push_cast; ring

/-- C14: whenever `extract_melody_line` finds the melody body, the file that
`main` leaves behind (seek to offset 44, stream the samples, seek back to
offset 0, write the header) is byte for byte the file of the buffering
strategy, `header(N)` followed by the rendered samples, with `N` the number of
rendered samples; its length is `44 + 2 * N`, its first 44 bytes are the header
and the bytes from offset 44 on are the samples, none of them overwritten; for
a body without note or rest it is the 44-byte header with data size 0. -/
theorem main_header_then_data (prog text body : List Char)
    (h : extract_melody_line text = some body) :
    (main [prog, text] true).exit_code = 0
    ∧ (main [prog, text] true).output_wav = some (header_then_data body)
    ∧ header_then_data body
        = write_wav_header ((note_count body * 13230 : Nat) : Int)
          ++ (parse_and_generate body).fout
    ∧ (parse_and_generate body).fout.length = 2 * (note_count body * 13230)
    ∧ (header_then_data body).length = 44 + 2 * (note_count body * 13230)
    ∧ (header_then_data body).take 44
        = write_wav_header ((note_count body * 13230 : Nat) : Int)
    ∧ (header_then_data body).drop 44 = (parse_and_generate body).fout
    ∧ (note_count body = 0 →
        header_then_data body = write_wav_header 0
        ∧ (header_then_data body).length = 44
        ∧ field (header_then_data body) 40 4 = [0, 0, 0, 0]) := by
  obtain ⟨e1, e2⟩ := header_then_data_eq body
  obtain ⟨hl, _, _⟩ := parse_and_generate_counts body
  have hlen := write_wav_header_length ((note_count body * 13230 : Nat) : Int)
  refine ⟨by rw [main_output prog text body h], by rw [main_output prog text body h, e2], e1,
    by rw [hl]; ring, ?_, ?_, ?_, ?_⟩
  · rw [e1, List.length_append, hlen, hl]; ring
  · rw [e1]; exact List.take_left' hlen
  · rw [e1]; exact List.drop_left' hlen
  · intro hk
    have hf : (parse_and_generate body).fout = [] := by
      apply List.eq_nil_of_length_eq_zero; rw [hl, hk]
    have e3 : header_then_data body = write_wav_header 0 := by
      rw [e1, hf, hk]; simp
    refine ⟨e3, by rw [e3, write_wav_header_length], ?_⟩
    rw [e3, (write_wav_header_sizes_all 0).1]
    simp [le_bytes]

/-- Witness of C14: the body `a`, one tone of 13230 samples streamed from
offset 44 before the header is written over the reserved bytes; and a melody
line that holds a tempo mark only, for the case without note or rest. -/
theorem main_header_then_data_witness :
    extract_melody_line ("MELODY: a").toList = some ("a").toList
    ∧ note_count ("a").toList = 1
    ∧ (main [("emelody2wav").toList, ("MELODY: a").toList] true).output_wav
        = some (write_wav_header 13230 ++ generate_sine_wave (Dbl.fin 440) 300)
    ∧ (write_wav_header 13230 ++ generate_sine_wave (Dbl.fin 440) 300).length = 44 + 2 * 13230
    ∧ (write_wav_header 13230 ++ generate_sine_wave (Dbl.fin 440) 300).drop 44
        = generate_sine_wave (Dbl.fin 440) 300
    ∧ extract_melody_line ("MELODY: T120").toList = some ("T120").toList
    ∧ note_count ("T120").toList = 0
    ∧ (main [("emelody2wav").toList, ("MELODY: T120").toList] true).output_wav
        = some (write_wav_header 0) := by
  have he : extract_melody_line ("MELODY: a").toList = some ("a").toList := by decide
  have hk : note_count ("a").toList = 1 := by decide
  have h := main_header_then_data ("emelody2wav").toList _ _ he
  have e : header_then_data ("a").toList
      = write_wav_header 13230 ++ generate_sine_wave (Dbl.fin 440) 300 := by
    rw [h.2.2.1, hk, parse_and_generate_a_fout]
    rfl
  have het : extract_melody_line ("MELODY: T120").toList = some ("T120").toList := by decide
  have hkt : note_count ("T120").toList = 0 := by decide
  have ht := main_header_then_data ("emelody2wav").toList _ _ het
  refine ⟨he, hk, by rw [h.2.1, e], ?_, ?_, het, hkt, ?_⟩
  · have hl := h.2.2.2.2.1
    rw [e, hk] at hl
    exact hl
  · have hd := h.2.2.2.2.2.2.1
    rw [e, parse_and_generate_a_fout] at hd
    exact hd
  · rw [ht.2.1, (ht.2.2.2.2.2.2.2 hkt).1]

/-- C16: for every input text without the substring `MELODY:`, `main` returns
the non-zero code -2 of the missing melody line, whether or not `fopen` would
have succeeded, and `output.wav` is not opened, so neither header nor sample
bytes are written. -/
theorem main_missing_melody (prog text : List Char) (fopen_ok : Bool)
    (h : ¬ ∃ pre post, text = pre ++ ("MELODY:").toList ++ post) :
    (main [prog, text] fopen_ok).exit_code = -2
    ∧ (main [prog, text] fopen_ok).exit_code ≠ 0
    ∧ (main [prog, text] fopen_ok).output_wav = none := by
  have hn : extract_melody_line text = none := by
    rcases extract_melody_line_spec text with ⟨hn, _⟩ | ⟨pre, post, _, htext, _⟩
    · exact hn
    · exact absurd ⟨pre, post, htext⟩ h
  simp [main, hn]

/-- Witness of C16: a text whose marker is misspelt. -/
theorem main_missing_melody_witness :
    (¬ ∃ pre post, ("NAME:tune\nMELODIE: abc").toList = pre ++ ("MELODY:").toList ++ post)
    ∧ (main [("emelody2wav").toList, ("NAME:tune\nMELODIE: abc").toList] true).exit_code = -2
    ∧ (main [("emelody2wav").toList, ("NAME:tune\nMELODIE: abc").toList] true).output_wav
        = none := by
  have hno : ¬ ∃ pre post,
      ("NAME:tune\nMELODIE: abc").toList = pre ++ ("MELODY:").toList ++ post := by
    have hex : extract_melody_line ("NAME:tune\nMELODIE: abc").toList = none := by decide
    rcases extract_melody_line_spec ("NAME:tune\nMELODIE: abc").toList with
      ⟨_, hno⟩ | ⟨_, _, hsome, _, _⟩
    · exact hno
    · rw [hex] at hsome; exact absurd hsome (by simp)
  have h := main_missing_melody ("emelody2wav").toList ("NAME:tune\nMELODIE: abc").toList true hno
  exact ⟨hno, h.1, h.2.2⟩

/-! ## The octave register -/

theorem parse_and_generate_append (pre rest : List Char) :
    parse_and_generate (pre ++ rest) = rest.foldl parse_step (parse_and_generate pre) := by
  simp [parse_and_generate, List.foldl_append]

/-- C17 (as amended): the octave register starts at 4 and, after each processed
prefix `pre` of a melody, holds `4 + G - L` reduced to a 32-bit `int`, with `G`
and `L` the numbers of `>` and `<` in `pre`; for fewer than `2 ^ 31 - 4`
characters that is `4 + G - L` itself.  The register is not clamped: it lies in
`[0, 8]` exactly when `-4 ≤ G - L ≤ 4`. -/
theorem octave_register (pre rest : List Char) :
    (parse_and_generate []).octave = 4
    ∧ parse_and_generate (pre ++ rest) = rest.foldl parse_step (parse_and_generate pre)
    ∧ (parse_and_generate pre).octave
        = wrap32 (4 + (pre.count '>' : Int) - (pre.count '<' : Int))
    ∧ (pre.length ≤ 2147483643 →
        (parse_and_generate pre).octave = 4 + (pre.count '>' : Int) - (pre.count '<' : Int))
    ∧ (pre.length ≤ 2147483643 →
        ((0 ≤ (parse_and_generate pre).octave ∧ (parse_and_generate pre).octave ≤ 8)
          ↔ (-4 ≤ (pre.count '>' : Int) - (pre.count '<' : Int)
              ∧ (pre.count '>' : Int) - (pre.count '<' : Int) ≤ 4))) := by
  have ho := (parse_and_generate_trace pre).1
  rw [octave_at_length] at ho
  have hG : pre.count '>' ≤ pre.length := List.count_le_length _ _
  have hL : pre.count '<' ≤ pre.length := List.count_le_length _ _
  have hexact : pre.length ≤ 2147483643 →
      (parse_and_generate pre).octave = 4 + (pre.count '>' : Int) - (pre.count '<' : Int) := by
    intro hlen
    rw [ho]
    exact wrap32_of_range _ (by omega) (by omega)
  refine ⟨rfl, parse_and_generate_append pre rest, ho, hexact, fun hlen => ?_⟩
  rw [hexact hlen]
  constructor <;> intro h <;> constructor <;> omega

/-- Witness of C17: after `a>b<<c` the register holds 3. -/
theorem octave_register_witness :
    (("a>b<<c").toList.length ≤ 2147483643)
    ∧ (parse_and_generate ("a>b<<c").toList).octave = 3 := by
  have h := (octave_register ("a>b<<c").toList []).2.2.2.1 (by decide)
  refine ⟨by decide, ?_⟩
  rw [h]; decide

/-- Counterexample to C17 as stated: five `>` raise the register to 9 and five
`<` lower it to -1; nothing clamps it to `[0, 8]`. -/
theorem octave_register_not_clamped :
    (parse_and_generate (">>>>>").toList).octave = 9
    ∧ (parse_and_generate ("<<<<<").toList).octave = -1
    ∧ ¬ (0 ≤ (parse_and_generate (">>>>>").toList).octave
          ∧ (parse_and_generate (">>>>>").toList).octave ≤ 8) := by
  have h1 : (parse_and_generate (">>>>>").toList).octave = 9 := by
    rw [(parse_and_generate_trace _).1]; decide
  have h2 : (parse_and_generate ("<<<<<").toList).octave = -1 := by
    rw [(parse_and_generate_trace _).1]; decide
  refine ⟨h1, h2, ?_⟩
  rw [h1]; decide

/-! ## Counter consistency -/

/-- C20 (as amended): the amount added to `*total_samples` per tone event is the
number of samples `generate_sine_wave` writes for it, and after each processed
prefix `pre` of a melody `*total_samples` holds the number of samples written
so far reduced to a 32-bit `int`; the two are equal whenever at most 162319
tone events have been rendered. -/
theorem total_samples_consistent (pre rest : List Char) :
    parse_and_generate (pre ++ rest) = rest.foldl parse_step (parse_and_generate pre)
    ∧ c_div (c_mul SAMPLE_RATE DURATION_MS) 1000 = num_samples DURATION_MS
    ∧ (parse_and_generate pre).fout.length = 2 * (note_count pre * 13230)
    ∧ (parse_and_generate pre).total_samples
        = wrap32 (((parse_and_generate pre).fout.length / 2 : Nat) : Int)
    ∧ (note_count pre ≤ 162319 →
        (parse_and_generate pre).total_samples
          = (((parse_and_generate pre).fout.length / 2 : Nat) : Int)) := by
  obtain ⟨hl, ht, _⟩ := parse_and_generate_counts pre
  have e : (parse_and_generate pre).fout.length / 2 = 13230 * note_count pre := by
    rw [hl]; omega
  refine ⟨parse_and_generate_append pre rest, rfl, by rw [hl]; ring, ?_, fun hk => ?_⟩
  · rw [ht, e]; push_cast; rfl
  · rw [ht, e]; push_cast
    exact wrap32_of_range _ (by omega) (by omega)

/-- Witness of C20: the body `c>d p` with three tone events. -/
theorem total_samples_consistent_witness :
    note_count ("c>d p").toList ≤ 162319
    ∧ (parse_and_generate ("c>d p").toList).total_samples
        = (((parse_and_generate ("c>d p").toList).fout.length / 2 : Nat) : Int) := by
  have hk : note_count ("c>d p").toList = 3 := by decide
  exact ⟨by rw [hk]; decide,
    (total_samples_consistent ("c>d p").toList []).2.2.2.2 (by rw [hk]; decide)⟩

/-- Counterexample to C20 as stated: after 162320 letters `a` the file holds
2147493600 samples, more than an `int` can count, and `*total_samples` holds
-2147473696. -/
theorem total_samples_inconsistent :
    (parse_and_generate (List.replicate 162320 'a')).fout.length / 2 = 2147493600
    ∧ (parse_and_generate (List.replicate 162320 'a')).total_samples = -2147473696
    ∧ (parse_and_generate (List.replicate 162320 'a')).total_samples
        ≠ (((parse_and_generate (List.replicate 162320 'a')).fout.length / 2 : Nat) : Int) := by
  obtain ⟨hl, ht, _⟩ := parse_and_generate_counts (List.replicate 162320 'a')
  rw [note_count_replicate_a] at hl ht
  have hv : wrap32 (13230 * ((162320 : Nat) : Int)) = -2147473696 := by decide
  rw [hv] at ht
  refine ⟨by rw [hl], ht, ?_⟩
  rw [ht, hl]; decide

/-! ## Phase reset -/

theorem foldl_parse_step_fout (l : List Char) (s : GenState) :
    ∃ ext, (l.foldl parse_step s).fout = s.fout ++ ext := by
  induction l generalizing s with
  | nil => exact ⟨[], by simp⟩
  | cons ch l ih =>
    obtain ⟨ext, he⟩ := ih (parse_step s ch)
    rw [List.foldl_cons, he]
    by_cases hn : is_note ch
    · rw [parse_step_note s hn]
      exact ⟨generate_sine_wave (get_frequency ch s.octave) DURATION_MS ++ ext, by simp⟩
    · by_cases hu : ch = '>'
      · subst hu; rw [parse_step_up]; exact ⟨ext, rfl⟩
      · by_cases hd : ch = '<'
        · subst hd; rw [parse_step_down]; exact ⟨ext, rfl⟩
        · rw [parse_step_other s hu hd hn]; exact ⟨ext, rfl⟩

theorem field_append_middle (a b c : List Nat) :
    field (a ++ b ++ c) a.length b.length = b := by
  simp [field]

theorem short_of_double_first_sample (freq : Dbl) :
    short_of_double (sample_at freq 0) = 0 := by
  unfold sample_at
  split
  · exact short_of_double_zero
  · have ht : Dbl.div (Dbl.of_int ((0 : Nat) : Int)) (Dbl.of_int SAMPLE_RATE) = Dbl.fin 0 := by
      rw [Dbl.of_int, Dbl.of_int, dbl_div_fin _ _ (by simp [SAMPLE_RATE])]
      simp [round_to_double_zero]
    simp only [ht]
    cases Dbl.mul (Dbl.mul (Dbl.of_int 2) PI) freq with
    | fin c =>
      rw [dbl_mul_fin, mul_zero, round_to_double_zero]
      simp only [Dbl.sin, Real.sin_zero, round_to_double_zero, Dbl.of_int]
      rw [dbl_mul_fin, mul_zero, round_to_double_zero]
      exact short_of_double_zero
    | inf n => simp [Dbl.mul, Dbl.sin, Dbl.of_int, short_of_double]
    | nan => simp [Dbl.mul, Dbl.sin, Dbl.of_int, short_of_double]

theorem generate_sine_wave_first_sample (freq : Dbl) :
    field (generate_sine_wave freq 300) 0 2 = [0, 0] := by
  have h := generate_sine_wave_sample freq 300 0 (by decide)
  rw [Nat.mul_zero, short_of_double_first_sample] at h
  rw [h]; simp [le_bytes]

theorem tone_block (body : List Char) (i : Nat) (c : Char) (hc : body[i]? = some c)
    (hn : is_note c) :
    field (parse_and_generate body).fout (26460 * note_count (body.take i)) 26460
      = generate_sine_wave (get_frequency c (octave_at body i)) 300 := by
  obtain ⟨hi, hci⟩ := List.getElem?_eq_some_iff.1 hc
  have hsplit : body = body.take i ++ c :: body.drop (i + 1) := by
    rw [← hci, ← List.drop_eq_getElem_cons hi, List.take_append_drop]
  have hoct : (parse_and_generate (body.take i)).octave = wrap32 (octave_at body i) := by
    rw [(parse_and_generate_trace (body.take i)).1]
    unfold octave_at
    rw [List.take_length]
  have hlen := (parse_and_generate_counts (body.take i)).1
  have hrun : parse_and_generate body
      = (body.drop (i + 1)).foldl parse_step
          (parse_step (parse_and_generate (body.take i)) c) := by
    conv_lhs => rw [hsplit]
    rw [parse_and_generate_append, List.foldl_cons]
  obtain ⟨ext, he⟩ := foldl_parse_step_fout (body.drop (i + 1))
    (parse_step (parse_and_generate (body.take i)) c)
  rw [hrun, he, parse_step_note _ hn, hoct, get_frequency_wrap32]
  have hb : (generate_sine_wave (get_frequency c (octave_at body i)) DURATION_MS).length
      = 26460 := generate_sine_wave_length _
  have := field_append_middle (parse_and_generate (body.take i)).fout
    (generate_sine_wave (get_frequency c (octave_at body i)) DURATION_MS) ext
  rw [hb, hlen] at this
  exact this

/-- C18: the 13230-sample block written for the tone character at position `i`
of a melody is `generate_sine_wave(get_frequency(c, octave), 300)`, a function
of the frequency and the duration alone; its first sample is 0; and any other
occurrence of the same letter at the same octave, in this or another melody,
produces the identical block. -/
theorem phase_reset (body : List Char) (i : Nat) (c : Char) (hc : body[i]? = some c)
    (hn : is_note c) :
    field (parse_and_generate body).fout (26460 * note_count (body.take i)) 26460
      = generate_sine_wave (get_frequency c (octave_at body i)) 300
    ∧ field (generate_sine_wave (get_frequency c (octave_at body i)) 300) 0 2 = [0, 0]
    ∧ (generate_sine_wave (get_frequency c (octave_at body i)) 300).length = 2 * 13230
    ∧ (∀ (other : List Char) (j : Nat), other[j]? = some c →
        octave_at other j = octave_at body i →
        field (parse_and_generate other).fout (26460 * note_count (other.take j)) 26460
          = field (parse_and_generate body).fout (26460 * note_count (body.take i)) 26460) := by
  refine ⟨tone_block body i c hc hn, generate_sine_wave_first_sample _,
    generate_sine_wave_length _, fun other j hj ho => ?_⟩
  rw [tone_block body i c hc hn, tone_block other j c hj hn, ho]

/-- Witness of C18: the first and the last `a` of `a>c<a` are both in octave 4
and are rendered by the same bytes. -/
theorem phase_reset_witness :
    (("a>c<a").toList)[4]? = some 'a' ∧ is_note 'a'
    ∧ (("a>c<a").toList)[0]? = some 'a'
    ∧ octave_at ("a>c<a").toList 0 = octave_at ("a>c<a").toList 4
    ∧ field (parse_and_generate ("a>c<a").toList).fout 0 26460
        = field (parse_and_generate ("a>c<a").toList).fout (26460 * 2) 26460 := by
  have h4 : (("a>c<a").toList)[4]? = some 'a' := by decide
  have h0 : (("a>c<a").toList)[0]? = some 'a' := by decide
  have ho : octave_at ("a>c<a").toList 0 = octave_at ("a>c<a").toList 4 := by decide
  have h := (phase_reset ("a>c<a").toList 4 'a' h4 (by decide)).2.2.2 ("a>c<a").toList 0 h0 ho
  have e0 : note_count ((("a>c<a").toList).take 0) = 0 := by decide
  have e4 : note_count ((("a>c<a").toList).take 4) = 2 := by decide
  rw [e0, e4] at h
  exact ⟨h4, by decide, h0, ho, h⟩

/-! ## Scenario S3 -/

theorem get_frequency_of_midi (note : Char) (octave m : Int)
    (h : midi_number note octave = some m) :
    get_frequency note octave
      = Dbl.mul (Dbl.fin 440)
          (Dbl.pow (Dbl.fin 2) (Dbl.div (Dbl.of_int (c_sub m 69)) (Dbl.fin 12))) := by
  unfold midi_number at h
  unfold get_frequency
  cases hs : semitone note with
  | none => rw [hs] at h; simp at h
  | some n =>
    rw [hs] at h
    simp only [Option.map_some', Option.some.injEq] at h
    simp only [h]

theorem get_frequency_of_midi_small (note : Char) (octave m : Int)
    (h : midi_number note octave = some m) (h1 : -2147483579 ≤ m) (h2 : m ≤ 2147483647) :
    get_frequency note octave
      = Dbl.mul (Dbl.fin 440)
          (Dbl.pow (Dbl.fin 2) (Dbl.div (Dbl.of_int (m - 69)) (Dbl.fin 12))) := by
  rw [get_frequency_of_midi note octave m h]
  have e : c_sub m 69 = m - 69 := wrap32_of_range _ (by omega) (by omega)
  rw [e]

theorem scale_calls :
    (parse_and_generate ("cdefgab>c").toList).calls
      = [('c', (4 : Int)), ('d', 4), ('e', 4), ('f', 4), ('g', 4), ('a', 4), ('b', 4),
          ('c', 5)].map (fun e => (get_frequency e.1 e.2, (300 : Int))) := by
  have hc : ∀ s, parse_step s 'c' = _ := fun s => parse_step_note s (show is_note 'c' by decide)
  have hd : ∀ s, parse_step s 'd' = _ := fun s => parse_step_note s (show is_note 'd' by decide)
  have he : ∀ s, parse_step s 'e' = _ := fun s => parse_step_note s (show is_note 'e' by decide)
  have hf : ∀ s, parse_step s 'f' = _ := fun s => parse_step_note s (show is_note 'f' by decide)
  have hg : ∀ s, parse_step s 'g' = _ := fun s => parse_step_note s (show is_note 'g' by decide)
  have ha : ∀ s, parse_step s 'a' = _ := fun s => parse_step_note s (show is_note 'a' by decide)
  have hb : ∀ s, parse_step s 'b' = _ := fun s => parse_step_note s (show is_note 'b' by decide)
  have h5 : c_add 4 1 = 5 := by decide
  show (parse_step (parse_step (parse_step (parse_step (parse_step (parse_step (parse_step
    (parse_step (parse_step _ 'c') 'd') 'e') 'f') 'g') 'a') 'b') '>') 'c').calls = _
  simp only [hc, hd, he, hf, hg, ha, hb, parse_step_up, h5]
  rfl

/-- C15: for the input `MELODY: cdefgab>c` the program renders exactly 8 tone
events, those of `c d e f g a b` in octave 4 and `c` in octave 5, whose note
numbers are 60, 62, 64, 65, 67, 69, 71, 72 and whose frequencies are the
double values of `440.0 * pow(2.0, (m - 69) / 12.0)` for these numbers `m`; the
6th tone has frequency 440; and `main` returns 0 and leaves a file of `44 + 8 * 26460 = 211724`
bytes. -/
theorem scenario_s3 (prog : List Char) :
    extract_melody_line ("MELODY: cdefgab>c").toList = some ("cdefgab>c").toList
    ∧ (parse_and_generate ("cdefgab>c").toList).calls
        = [('c', (4 : Int)), ('d', 4), ('e', 4), ('f', 4), ('g', 4), ('a', 4), ('b', 4),
            ('c', 5)].map (fun e => (get_frequency e.1 e.2, (300 : Int)))
    ∧ [('c', (4 : Int)), ('d', 4), ('e', 4), ('f', 4), ('g', 4), ('a', 4), ('b', 4),
          ('c', 5)].map (fun e => midi_number e.1 e.2)
        = [some 60, some 62, some 64, some 65, some 67, some 69, some 71, some 72]
    ∧ (parse_and_generate ("cdefgab>c").toList).calls
        = [(60 : Int), 62, 64, 65, 67, 69, 71, 72].map
            (fun m => (Dbl.mul (Dbl.fin 440)
              (Dbl.pow (Dbl.fin 2) (Dbl.div (Dbl.of_int (m - 69)) (Dbl.fin 12))), (300 : Int)))
    ∧ (parse_and_generate ("cdefgab>c").toList).calls.length = 8
    ∧ (parse_and_generate ("cdefgab>c").toList).calls[5]? = some (Dbl.fin 440, 300)
    ∧ (main [prog, ("MELODY: cdefgab>c").toList] true).exit_code = 0
    ∧ (∃ file, (main [prog, ("MELODY: cdefgab>c").toList] true).output_wav = some file
        ∧ file.length = 211724) := by
  have hx : extract_melody_line ("MELODY: cdefgab>c").toList = some ("cdefgab>c").toList := by
    decide
  have hk : note_count ("cdefgab>c").toList = 8 := by decide
  obtain ⟨hl, _, hn⟩ := parse_and_generate_counts ("cdefgab>c").toList
  refine ⟨hx, scale_calls, by decide, ?_, by rw [hn, hk], ?_, ?_, ?_⟩
  · rw [scale_calls]
    simp only [List.map]
    rw [get_frequency_of_midi_small 'c' 4 60 (by decide) (by decide) (by decide),
      get_frequency_of_midi_small 'd' 4 62 (by decide) (by decide) (by decide),
      get_frequency_of_midi_small 'e' 4 64 (by decide) (by decide) (by decide),
      get_frequency_of_midi_small 'f' 4 65 (by decide) (by decide) (by decide),
      get_frequency_of_midi_small 'g' 4 67 (by decide) (by decide) (by decide),
      get_frequency_of_midi_small 'a' 4 69 (by decide) (by decide) (by decide),
      get_frequency_of_midi_small 'b' 4 71 (by decide) (by decide) (by decide),
      get_frequency_of_midi_small 'c' 5 72 (by decide) (by decide) (by decide)]
  · rw [scale_calls]
    simp [get_frequency_a4]
  · rw [main_output prog _ _ hx]
  · refine ⟨_, by rw [main_output prog _ _ hx], ?_⟩
    rw [List.length_append, write_wav_header_length, hl, hk]

end EMelody
